import Mathlib

/-!
# Meme search aggregator: deduplication and concurrent fan-out

A shallow embedding of `internal/core` (`dedup.go`, `types.go`, `registry.go`) of the
meme search aggregator, of the handler of `internal/tools/tools.go` and of the result cap of
the providers of `internal/sources`, followed by theorems about them.

Modelling conventions.

* A Go `string` is a Lean `String`; wherever the code looks at bytes (`md5.Sum([]byte(url))`)
  the string is taken in its UTF-8 encoding.
* Machine words are natural numbers reduced modulo `2^32` explicitly.
* `regexp.MustCompile(...).FindStringSubmatch` is a leftmost-first backtracking matcher over
  the pattern written as data.
* The goroutines of `SearchAll` / `SearchSources` are run by an explicit scheduler whose
  choices, together with what the network answers to every call, form the `Env` of a run.
-/

namespace Core

/-! ## Bytes of a string -/

/-- UTF-8 encoding of one code point, as the bytes `[]byte(s)` holds for it. -/
def utf8Bytes (c : Char) : List Nat :=
  let n := c.toNat
  if n < 0x80 then [n]
  else if n < 0x800 then [0xC0 + n / 64, 0x80 + n % 64]
  else if n < 0x10000 then [0xE0 + n / 4096, 0x80 + n / 64 % 64, 0x80 + n % 64]
  else [0xF0 + n / 262144, 0x80 + n / 4096 % 64, 0x80 + n / 64 % 64, 0x80 + n % 64]

/-- The conversion `[]byte(s)`. -/
def bytesOf (s : String) : List Nat :=
  s.data.flatMap utf8Bytes

/-! ## `crypto/md5` (RFC 1321) -/

namespace MD5

/-- Addition of 32-bit words. -/
def add32 (x y : Nat) : Nat := (x + y) % 2 ^ 32

/-- Bitwise complement of a 32-bit word. -/
def not32 (x : Nat) : Nat := (2 ^ 32 - 1) - x % 2 ^ 32

/-- Rotation of a 32-bit word to the left by `s` bits (`bits.RotateLeft32`). -/
def rotl32 (x s : Nat) : Nat :=
  ((x <<< s) % 2 ^ 32) ||| ((x % 2 ^ 32) >>> (32 - s))

/-- The sine table `T[i] = floor(2^32 * |sin (i + 1)|)`. -/
def K : List Nat :=
  [0xd76aa478, 0xe8c7b756, 0x242070db, 0xc1bdceee,
   0xf57c0faf, 0x4787c62a, 0xa8304613, 0xfd469501,
   0x698098d8, 0x8b44f7af, 0xffff5bb1, 0x895cd7be,
   0x6b901122, 0xfd987193, 0xa679438e, 0x49b40821,
   0xf61e2562, 0xc040b340, 0x265e5a51, 0xe9b6c7aa,
   0xd62f105d, 0x02441453, 0xd8a1e681, 0xe7d3fbc8,
   0x21e1cde6, 0xc33707d6, 0xf4d50d87, 0x455a14ed,
   0xa9e3e905, 0xfcefa3f8, 0x676f02d9, 0x8d2a4c8a,
   0xfffa3942, 0x8771f681, 0x6d9d6122, 0xfde5380c,
   0xa4beea44, 0x4bdecfa9, 0xf6bb4b60, 0xbebfbc70,
   0x289b7ec6, 0xeaa127fa, 0xd4ef3085, 0x04881d05,
   0xd9d4d039, 0xe6db99e5, 0x1fa27cf8, 0xc4ac5665,
   0xf4292244, 0x432aff97, 0xab9423a7, 0xfc93a039,
   0x655b59c3, 0x8f0ccc92, 0xffeff47d, 0x85845dd1,
   0x6fa87e4f, 0xfe2ce6e0, 0xa3014314, 0x4e0811a1,
   0xf7537e82, 0xbd3af235, 0x2ad7d2bb, 0xeb86d391]

/-- Per-step rotation amounts. -/
def S : List Nat :=
  [7, 12, 17, 22, 7, 12, 17, 22, 7, 12, 17, 22, 7, 12, 17, 22,
   5, 9, 14, 20, 5, 9, 14, 20, 5, 9, 14, 20, 5, 9, 14, 20,
   4, 11, 16, 23, 4, 11, 16, 23, 4, 11, 16, 23, 4, 11, 16, 23,
   6, 10, 15, 21, 6, 10, 15, 21, 6, 10, 15, 21, 6, 10, 15, 21]

/-- The four chaining words `(a, b, c, d)`. -/
structure State where
  a : Nat
  b : Nat
  c : Nat
  d : Nat
deriving DecidableEq, Repr

/-- Initial chaining value. -/
def init : State := ⟨0x67452301, 0xefcdab89, 0x98badcfe, 0x10325476⟩

/-- Message with the padding bit, the zero fill up to 56 modulo 64, and the bit length as
eight little-endian bytes. -/
def pad (msg : List Nat) : List Nat :=
  let n := msg.length
  let zeros := (119 - n % 64) % 64
  let bits := (8 * n) % 2 ^ 64
  msg ++ [0x80] ++ List.replicate zeros 0 ++ (List.range 8).map (fun i => bits / 256 ^ i % 256)

/-- The sixteen little-endian words of a 64-byte block. -/
def words (block : List Nat) : List Nat :=
  (List.range 16).map (fun i =>
    block.getD (4 * i) 0 + 256 * block.getD (4 * i + 1) 0
      + 65536 * block.getD (4 * i + 2) 0 + 16777216 * block.getD (4 * i + 3) 0)

/-- One of the 64 steps on a block with words `m`. -/
def step (m : List Nat) (st : State) (i : Nat) : State :=
  let f :=
    if i < 16 then (st.b &&& st.c) ||| (not32 st.b &&& st.d)
    else if i < 32 then (st.d &&& st.b) ||| (not32 st.d &&& st.c)
    else if i < 48 then st.b ^^^ st.c ^^^ st.d
    else st.c ^^^ (st.b ||| not32 st.d)
  let g :=
    if i < 16 then i
    else if i < 32 then (5 * i + 1) % 16
    else if i < 48 then (3 * i + 5) % 16
    else (7 * i) % 16
  let t := add32 (add32 (add32 f st.a) (K.getD i 0)) (m.getD g 0)
  ⟨st.d, add32 st.b (rotl32 t (S.getD i 0)), st.b, st.c⟩

/-- Compression of one block into the chaining value. -/
def compress (st : State) (block : List Nat) : State :=
  let r := (List.range 64).foldl (step (words block)) st
  ⟨add32 st.a r.a, add32 st.b r.b, add32 st.c r.c, add32 st.d r.d⟩

/-- Little-endian bytes of a 32-bit word. -/
def le32 (x : Nat) : List Nat :=
  [x % 256, x / 256 % 256, x / 65536 % 256, x / 16777216 % 256]

/-- The function `md5.Sum`: the 16 digest bytes of a message. -/
def Sum (msg : List Nat) : List Nat :=
  let p := pad msg
  let st := (List.range (p.length / 64)).foldl
    (fun st k => compress st ((p.drop (64 * k)).take 64)) init
  le32 st.a ++ le32 st.b ++ le32 st.c ++ le32 st.d

end MD5

/-! ## `encoding/hex` -/

/-- Lowercase hexadecimal digit of a value below 16. -/
def hexDigit (n : Nat) : Char :=
  "0123456789abcdef".data.getD n '0'

/-- The function `hex.EncodeToString`: two lowercase digits per byte. -/
def hexEncodeToString (bs : List Nat) : String :=
  String.mk (bs.flatMap (fun b => [hexDigit (b / 16 % 16), hexDigit (b % 16)]))

/-! ## `regexp`: the pattern of `dedup.go` and its matcher -/

/-- One piece of a pattern: a literal character, or `[^cs]+`, greedy, inside the capture
group when `capture` is set. -/
inductive Item where
  | lit (c : Char)
  | plusNot (cs : List Char) (capture : Bool)
deriving DecidableEq, Repr

/-- Greedy `[^cs]+` followed by the continuation `k`: the longest run is tried first and
shorter ones on backtracking. Result: the run, then what `k` returned. -/
def matchPlus (cs : List Char) (k : List Char → Option (List Char × List Char)) :
    List Char → Option (List Char × List Char × List Char)
  | [] => none
  | x :: s =>
    if x ∈ cs then none
    else
      match matchPlus cs k s with
      | some (run, w, g) => some (x :: run, w, g)
      | none => (k s).map (fun r => ([x], r.1, r.2))

/-- Match of a pattern anchored at the start of the input. Result: the text matched and the
text of the capture group. -/
def matchHere : List Item → List Char → Option (List Char × List Char)
  | [] => fun _ => some ([], [])
  | Item.lit c :: rest => fun s =>
    match s with
    | [] => none
    | x :: s => if x = c then (matchHere rest s).map (fun r => (x :: r.1, r.2)) else none
  | Item.plusNot cs cap :: rest => fun s =>
    (matchPlus cs (matchHere rest) s).map
      (fun r => (r.1 ++ r.2.1, if cap then r.1 else r.2.2))

/-- Leftmost match: the start positions are tried from left to right. -/
def findFrom (re : List Item) : List Char → Option (List Char × List Char)
  | [] => matchHere re []
  | x :: s =>
    match matchHere re (x :: s) with
    | some r => some r
    | none => findFrom re s

/-- The method `FindStringSubmatch` for a pattern with one group: `[whole, group]` for the
leftmost match, and the empty (nil) slice when there is none. -/
def FindStringSubmatch (re : List Item) (s : String) : List String :=
  match findFrom re s.data with
  | some (w, g) => [String.mk w, String.mk g]
  | none => []

/-- The pattern `/tos-cn-i-[^/]+/([^/~?]+)`. -/
def douyinURLPattern : List Item :=
  "/tos-cn-i-".data.map Item.lit ++
    [Item.plusNot ['/'] false, Item.lit '/', Item.plusNot ['/', '~', '?'] true]

/-! ## `types.go` -/

/-- The struct `Meme`. -/
structure Meme where
  Title : String
  URL : String
  Platform : String
  Width : Int
  Height : Int
  Format : String
deriving DecidableEq, Repr

/-- The struct `SearchOptions`; `Timeout` is a `time.Duration`, in nanoseconds. -/
structure SearchOptions where
  Page : Int
  Limit : Int
  Timeout : Int
deriving DecidableEq, Repr

/-! ## `dedup.go` -/

/-- The function `ExtractURLKey`: the content ID of a douyin URL, else the MD5 of the URL. -/
def ExtractURLKey (url : String) : String :=
  let ms := FindStringSubmatch douyinURLPattern url
  if ms.length > 1 then ms.getD 1 ""
  else hexEncodeToString (MD5.Sum (bytesOf url))

/-- One iteration of the loop of `DeduplicateMemes` on the state `(seen, result)`. -/
def dedupStep (st : List String × List Meme) (meme : Meme) : List String × List Meme :=
  let key := ExtractURLKey meme.URL
  if !st.1.contains key then (key :: st.1, st.2 ++ [meme]) else st

/-- The function `DeduplicateMemes`; the map `seen` is the list of the keys set to true. -/
def DeduplicateMemes (memes : List Meme) : List Meme :=
  (memes.foldl dedupStep ([], [])).2

/-! ## Deduplication: auxiliary definitions -/

/-- The deduplication key of a meme. -/
def keyOf (m : Meme) : String := ExtractURLKey m.URL

/-- The loop of `DeduplicateMemes` started with the keys `seen` already recorded, as a
recursion on the remaining input. -/
def dedupFrom (seen : List String) : List Meme → List Meme
  | [] => []
  | m :: ms =>
    if keyOf m ∈ seen then dedupFrom seen ms else m :: dedupFrom (keyOf m :: seen) ms

/-- The elements of `x` that no earlier element shares its key with, in the order of `x`:
the element at index `i` is kept when every element of `x.take i` has a different key. -/
def firstOccurrences (x : List Meme) : List Meme :=
  (x.enum.filter (fun p => (x.take p.1).all (fun m => keyOf m != keyOf p.2))).map Prod.snd

/-! ## The matcher in closed form -/

/-- The characters that end the capture group. -/
def stops : List Char := ['/', '~', '?']

/-- The literal head of the pattern. -/
def tosLit : List Char := "/tos-cn-i-".data

/-- The part of the pattern after the literal head: `[^/]+/([^/~?]+)`. -/
def tailPattern : List Item :=
  [Item.plusNot ['/'] false, Item.lit '/', Item.plusNot stops true]

/-- Membership test of the negated class `[^cs]`. -/
def notIn (cs : List Char) (x : Char) : Bool := decide (x ∉ cs)

/-- What `[^/]+/([^/~?]+)` matches at the start of `r`, in closed form. -/
def tailMatch (r : List Char) : Option (List Char × List Char) :=
  let b := r.takeWhile (notIn ['/'])
  if b = [] then none
  else
    match r.dropWhile (notIn ['/']) with
    | [] => none
    | _ :: t =>
      let g := t.takeWhile (notIn stops)
      if g = [] then none else some (b ++ '/' :: g, g)

/-! ## The pattern read as a specification -/

/-- The text `s` begins with a match of `/tos-cn-i-[^/]+/([^/~?]+)`: the literal, a
non-empty bucket `b` without `/`, a `/`, a non-empty group `g` without `/`, `~`, `?`. -/
def MatchStart (s : List Char) : Prop :=
  ∃ b g r, s = tosLit ++ b ++ '/' :: g ++ r ∧ b ≠ [] ∧ '/' ∉ b ∧ g ≠ [] ∧ ∀ c ∈ g, c ∉ stops

/-- The pattern matches somewhere in `s`. -/
def HasMatch (s : List Char) : Prop :=
  ∃ p t, s = p ++ t ∧ MatchStart t

/-! ## Go maps with string keys -/

/-- The assignment `m[k] = v` on a map kept as its list of entries, keys distinct. -/
def mapSet {β : Type} : List (String × β) → String → β → List (String × β)
  | [], k, v => [(k, v)]
  | (k', v') :: m, k, v => if k' = k then (k, v) :: m else (k', v') :: mapSet m k v

/-- The lookup `v, ok := m[k]`. -/
def mapGet {β : Type} : List (String × β) → String → Option β
  | [], _ => none
  | (k', v') :: m, k => if k' = k then some v' else mapGet m k

/-! ## `types.go`: providers and reports -/

/-- One second as a `time.Duration`. -/
def Second : Int := 1000000000

/-- A `context.Context`, reduced to the time budget it leaves (`none`: no deadline). -/
structure Context where
  deadline : Option Int
deriving DecidableEq, Repr

/-- The function `context.WithTimeout`: the child expires with its parent or after `d`. -/
def WithTimeout (parent : Context) (d : Int) : Context :=
  match parent.deadline with
  | none => ⟨some d⟩
  | some p => ⟨some (min p d)⟩

/-- What the outside world answers to one provider call. -/
abbrev Net := Nat

/-- The pair `([]Meme, error)` a `Search` returns; an error is kept as its `Error()` text,
`none` is the nil error. -/
structure SearchReturn where
  memes : List Meme
  err : Option String
deriving DecidableEq, Repr

/-- The interface `Source`. A call of `Search` depends on its arguments and on the answer of
the outside world to that call. -/
structure Source where
  ID : String
  Name : String
  Description : String
  Search : Net → Context → String → SearchOptions → SearchReturn
  RequiresAuth : Bool

/-- The struct `SearchResult`. -/
structure SearchResult where
  Memes : List Meme
  Sources : List String
  Errors : List (String × String)
  Total : Int
  DurationMs : Int
deriving DecidableEq, Repr

/-- The function `DefaultSearchOptions`. -/
def DefaultSearchOptions : SearchOptions :=
  { Page := 1, Limit := 20, Timeout := 10 * Second }

/-- The error `ErrSourceNotFound`. -/
def ErrSourceNotFound : String := "source not found"

/-- The error `ErrEmptyKeyword`. -/
def ErrEmptyKeyword : String := "keyword cannot be empty"

/-- The error `ErrRequestFailed`. -/
def ErrRequestFailed : String := "request failed"

/-! ## `registry.go` -/

/-- A Go slice `[]α`, by its content. -/
abbrev Slice (α : Type) := List α

/-- The struct `Registry`: the map `sources` (the mutex has no content). -/
structure Registry where
  sources : List (String × Source)

/-- The function `NewRegistry`. -/
def NewRegistry : Registry := ⟨[]⟩

/-- The method `Register`: `r.sources[source.ID()] = source`. -/
def Registry.Register (r : Registry) (source : Source) : Registry :=
  ⟨mapSet r.sources source.ID source⟩

/-- The method `Get`. -/
def Registry.Get (r : Registry) (id : String) : Option Source :=
  mapGet r.sources id

/-- The method `List`; the iteration order of the map is the order of its entries. -/
def Registry.List (r : Registry) : List Source :=
  r.sources.map Prod.snd

/-- The method `ListIDs`. -/
def Registry.ListIDs (r : Registry) : Slice String :=
  r.sources.map Prod.fst

/-- The registry after registering the sources `ps` one after the other. -/
def registryOf (ps : List Source) : Registry :=
  ps.foldl Registry.Register NewRegistry

/-- The local struct `sourceResult` sent over `resultCh`. -/
structure sourceResult where
  sourceID : String
  memes : List Meme
  err : Option String
deriving DecidableEq, Repr

/-- One invocation of a provider, as the aggregator makes it. -/
structure Call where
  sourceID : String
  ctx : Context
  keyword : String
  opts : SearchOptions
deriving DecidableEq, Repr

/-- The nondeterminism of one run: what the outside world answers to the `k`-th launched
call, the choices of the goroutine scheduler, and the time the monotonic clock measures
between `time.Now()` and `time.Since(startTime)`, in nanoseconds. -/
structure Env where
  net : Nat → Net
  sched : List Nat
  elapsed : Nat

/-- State of the fan-out: the goroutines launched and not finished yet, each with the result
it is going to send; the content of `resultCh` in the order of arrival; the number of
goroutines launched (`wg.Add`); the provider calls made. -/
structure Fanout where
  running : List sourceResult
  resultCh : List sourceResult
  launched : Nat
  calls : List Call
deriving DecidableEq, Repr

/-- What one iteration of the launching loop does: it writes a result to the channel itself
(`resultCh <- ...; continue`), or it starts a goroutine that calls the provider. -/
inductive Dispatch where
  | send (res : sourceResult)
  | spawn (res : sourceResult) (call : Call)
deriving DecidableEq, Repr

/-- Effect of one loop iteration on the fan-out state. -/
def Fanout.apply (st : Fanout) : Dispatch → Fanout
  | Dispatch.send res => { st with resultCh := st.resultCh ++ [res] }
  | Dispatch.spawn res call =>
    { st with running := st.running ++ [res], launched := st.launched + 1,
              calls := st.calls ++ [call] }

/-- The running goroutine number `n` finishes: its result arrives on the channel. -/
def Fanout.complete (st : Fanout) (n : Nat) : Fanout :=
  match st.running.get? n with
  | none => st
  | some res => { st with running := st.running.eraseIdx n, resultCh := st.resultCh ++ [res] }

/-- The closing goroutine: `wg.Wait()` lets every running goroutine finish, then the channel
is closed. -/
def Fanout.wait (st : Fanout) : Fanout :=
  { st with running := [], resultCh := st.resultCh ++ st.running }

/-- The launching loop over `todo` interleaved with the goroutines it started. A choice `0`
of the scheduler lets the loop do its next iteration, a choice `n + 1` lets the running
goroutine number `n` finish; when the choices are used up the loop runs to its end and the
goroutines finish in the order of their launch. -/
def fanout {α : Type} (body : Nat → α → Dispatch) :
    List Nat → List α → Fanout → Fanout
  | [], todo, st => (todo.foldl (fun st a => st.apply (body st.launched a)) st).wait
  | 0 :: picks, [], st => fanout body picks [] st
  | 0 :: picks, a :: todo, st => fanout body picks todo (st.apply (body st.launched a))
  | (n + 1) :: picks, todo, st => fanout body picks todo (st.complete n)

/-- The per-call timeout of the goroutine body: `opts.Timeout`, or ten seconds when that
is zero. -/
def timeout (opts : SearchOptions) : Int :=
  if opts.Timeout = 0 then 10 * Second else opts.Timeout

/-- The goroutine body `go func(s Source)`, the same in `SearchAll` and `SearchSources`:
the `k`-th launched call and the result it sends. -/
def goSearch (env : Env) (ctx : Context) (keyword : String) (opts : SearchOptions)
    (k : Nat) (s : Source) : Dispatch :=
  let sourceCtx := WithTimeout ctx (timeout opts)
  let ret := s.Search (env.net k) sourceCtx keyword opts
  Dispatch.spawn { sourceID := s.ID, memes := ret.memes, err := ret.err }
    { sourceID := s.ID, ctx := sourceCtx, keyword := keyword, opts := opts }

/-- One iteration of the collecting loop `for result := range resultCh` on the state
`(allMemes, successSources, errors)`. -/
def collectStep (acc : List Meme × List String × List (String × String))
    (result : sourceResult) : List Meme × List String × List (String × String) :=
  match result.err with
  | some e => (acc.1, acc.2.1, mapSet acc.2.2 result.sourceID e)
  | none => (acc.1 ++ result.memes, acc.2.1 ++ [result.sourceID], acc.2.2)

/-- The collecting loop followed by the deduplication and the construction of the report. -/
def report (env : Env) (ch : List sourceResult) : SearchResult :=
  let acc := ch.foldl collectStep ([], [], [])
  let allMemes := DeduplicateMemes acc.1
  { Memes := allMemes, Sources := acc.2.1, Errors := acc.2.2,
    Total := allMemes.length, DurationMs := (env.elapsed : Int) / 1000000 }

/-- The fan-out of `SearchAll` over the listed sources. -/
def searchAllFanout (r : Registry) (env : Env) (ctx : Context) (keyword : String)
    (opts : SearchOptions) : Fanout :=
  fanout (goSearch env ctx keyword opts) env.sched r.List ⟨[], [], 0, []⟩

/-- The method `SearchAll`. -/
def Registry.SearchAll (r : Registry) (env : Env) (ctx : Context) (keyword : String)
    (opts : SearchOptions) : SearchResult :=
  let sources := r.List
  if sources.length = 0 then
    { Memes := [], Sources := [], Errors := [], Total := 0,
      DurationMs := (env.elapsed : Int) / 1000000 }
  else
    report env (searchAllFanout r env ctx keyword opts).resultCh

/-- The provider calls `SearchAll` makes. -/
def Registry.SearchAllCalls (r : Registry) (env : Env) (ctx : Context) (keyword : String)
    (opts : SearchOptions) : Slice Call :=
  if r.List.length = 0 then []
  else (searchAllFanout r env ctx keyword opts).calls

/-- The body of the launching loop of `SearchSources` for the identifier `id`. -/
def lookupSearch (r : Registry) (env : Env) (ctx : Context) (keyword : String)
    (opts : SearchOptions) (k : Nat) (id : String) : Dispatch :=
  match r.Get id with
  | none => Dispatch.send { sourceID := id, memes := [], err := some ErrSourceNotFound }
  | some source => goSearch env ctx keyword opts k source

/-- The fan-out of `SearchSources` over the requested identifiers. -/
def searchSourcesFanout (r : Registry) (env : Env) (ctx : Context) (keyword : String)
    (sourceIDs : List String) (opts : SearchOptions) : Fanout :=
  fanout (lookupSearch r env ctx keyword opts) env.sched sourceIDs ⟨[], [], 0, []⟩

/-- The method `SearchSources`. -/
def Registry.SearchSources (r : Registry) (env : Env) (ctx : Context) (keyword : String)
    (sourceIDs : Slice String) (opts : SearchOptions) : SearchResult :=
  if sourceIDs.length = 0 then r.SearchAll env ctx keyword opts
  else report env (searchSourcesFanout r env ctx keyword sourceIDs opts).resultCh

/-- The provider calls `SearchSources` makes. -/
def Registry.SearchSourcesCalls (r : Registry) (env : Env) (ctx : Context) (keyword : String)
    (sourceIDs : Slice String) (opts : SearchOptions) : Slice Call :=
  if sourceIDs.length = 0 then r.SearchAllCalls env ctx keyword opts
  else (searchSourcesFanout r env ctx keyword sourceIDs opts).calls

/-! ## Auxiliary definitions for the fan-out -/

/-- The result a loop iteration produces, sent at once or by the goroutine it starts. -/
def Dispatch.res : Dispatch → sourceResult
  | Dispatch.send res => res
  | Dispatch.spawn res _ => res

/-- The results of the loop iterations over `todo`, in the order of the iterations, when `k`
goroutines were launched before. -/
def launchResults {α : Type} (body : Nat → α → Dispatch) : List α → Nat → List sourceResult
  | [], _ => []
  | a :: todo, k =>
    match body k a with
    | Dispatch.send res => res :: launchResults body todo k
    | Dispatch.spawn res _ => res :: launchResults body todo (k + 1)

/-- The provider calls of the loop iterations over `todo`, in the order of the iterations. -/
def launchCalls {α : Type} (body : Nat → α → Dispatch) : List α → Nat → List Call
  | [], _ => []
  | a :: todo, k =>
    match body k a with
    | Dispatch.send _ => launchCalls body todo k
    | Dispatch.spawn _ call => call :: launchCalls body todo (k + 1)

/-- The results that report a success, in the order of `ch`. -/
def succeeded (ch : List sourceResult) : List sourceResult :=
  ch.filter (fun res => res.err.isNone)

/-- The failures of `ch` as pairs of identifier and message, in the order of `ch`. -/
def failures (ch : List sourceResult) : List (String × String) :=
  ch.filterMap (fun res => res.err.map (fun e => (res.sourceID, e)))

/-- The keys of a map. -/
def mapKeys {β : Type} (m : List (String × β)) : List String :=
  m.map Prod.fst

/-- The result the `k`-th launched call sends when it is made to the source `s`. -/
def callResult (env : Env) (ctx : Context) (keyword : String) (opts : SearchOptions)
    (k : Nat) (s : Source) : sourceResult :=
  (goSearch env ctx keyword opts k s).res

/-- The map built by the assignments `m[p.1] = p.2` for the pairs of `kvs` in order. -/
def mapSetAll {β : Type} (m : List (String × β)) (kvs : List (String × β)) :
    List (String × β) :=
  kvs.foldl (fun m p => mapSet m p.1 p.2) m

/-- A registry as `Register` builds it: distinct keys, every source stored under its own
identifier. -/
def Registry.WF (r : Registry) : Prop :=
  (mapKeys r.sources).Nodup ∧ ∀ p ∈ r.sources, p.2.ID = p.1

/-! ## Sample data -/

/-- A douyin sticker served by one CDN mirror. -/
def mirrorA : Meme :=
  { Title := "cat", URL := "https://p3.dy.com/tos-cn-i-0813/abc123~tplv.webp",
    Platform := "douyin", Width := 0, Height := 0, Format := "webp" }

/-- The same sticker served by another mirror, with another bucket and decoration. -/
def mirrorB : Meme :=
  { Title := "cat", URL := "https://p9.dy.com/obj/tos-cn-i-0813c001/abc123?x=1",
    Platform := "douyin", Width := 0, Height := 0, Format := "" }

/-- A provider `douyin` that always succeeds with the two mirror URLs of one sticker. -/
def douyinSample : Source :=
  { ID := "douyin", Name := "douyin", Description := "sample",
    Search := fun _ _ _ _ => ⟨[mirrorA, mirrorB], none⟩, RequiresAuth := true }

/-- A result of the provider `sougou`, tagged with that provider's identifier. -/
def sougouMeme : Meme :=
  { Title := "cat", URL := "https://img.sg.com/cat.gif", Platform := "sougou",
    Width := 0, Height := 0, Format := "gif" }

/-- A provider `sougou` whose call succeeds when the network answers `0` and fails with a
network error otherwise. -/
def sougouFlaky : Source :=
  { ID := "sougou", Name := "sougou", Description := "sample",
    Search := fun net _ _ _ =>
      if net = 0 then ⟨[sougouMeme], none⟩ else ⟨[], some "request failed"⟩,
    RequiresAuth := false }

/-- A provider `pdan` that relays a result of `sougou` under the platform `sougou`. -/
def pdanRelay : Source :=
  { ID := "pdan", Name := "pdan", Description := "sample",
    Search := fun _ _ _ _ => ⟨[sougouMeme], none⟩, RequiresAuth := false }

/-- A run in which the network answers `k` to the `k`-th call and the goroutines finish in
the order of their launch, after the launching loop. -/
def sampleEnv : Env := { net := fun k => k, sched := [], elapsed := 1500000 }

/-! ## `strings`: the functions `dedup.go` uses -/

/-- The function `unicode.IsSpace`, which `strings.TrimSpace` trims by. -/
def isSpace (c : Char) : Bool :=
  let n := c.toNat
  (9 ≤ n && n ≤ 13) || n = 0x20 || n = 0x85 || n = 0xA0 || n = 0x1680 ||
    (0x2000 ≤ n && n ≤ 0x200A) || n = 0x2028 || n = 0x2029 || n = 0x202F ||
    n = 0x205F || n = 0x3000

/-- The function `strings.TrimSpace`: the leading and the trailing white space removed. -/
def TrimSpace (s : String) : String :=
  String.mk ((s.data.dropWhile isSpace).rdropWhile isSpace)

/-- Replacement of the first occurrence of `old` by `new`, on the characters. -/
def replaceFirst (old new : List Char) : List Char → List Char
  | [] => if old = [] then new else []
  | c :: s =>
    if old <+: c :: s then new ++ (c :: s).drop old.length
    else c :: replaceFirst old new s

/-- The call `strings.Replace(s, old, new, 1)`. -/
def ReplaceOnce (s old new : String) : String :=
  String.mk (replaceFirst old.data new.data s.data)

/-- The function `strings.HasPrefix`. -/
def HasPrefix (s pre : String) : Bool :=
  decide (pre.data <+: s.data)

/-- The function `strings.Contains`. -/
def Contains (s substr : String) : Bool :=
  decide (substr.data <:+: s.data)

/-- Lowercase of one character as far as ASCII results go: `A`-`Z`, and the two other
characters whose `unicode.ToLower` is an ASCII letter (U+0130 to `i`, U+212A to `k`). Every
other character is left as it is; its `unicode.ToLower` is not an ASCII character either. -/
def toLowerRune (c : Char) : Char :=
  if c.toNat = 0x130 then 'i'
  else if c.toNat = 0x212A then 'k'
  else c.toLower

/-- The function `strings.ToLower`, exact on the ASCII characters of its result: every test
of this package on a lowered string looks for an ASCII text in it. -/
def ToLower (s : String) : String :=
  String.mk (s.data.map toLowerRune)

/-! ## `dedup.go`: URL helpers -/

/-- The function `NormalizeURL`. -/
def NormalizeURL (url : String) : String :=
  let url := ReplaceOnce url "http://" "https://"
  let url := TrimSpace url
  url

/-- The slice `validExtensions` of `IsValidImageURL`. -/
def validExtensions : List String := [".jpg", ".jpeg", ".png", ".gif", ".webp", ".bmp"]

/-- The slice `imageIndicators` of `IsValidImageURL`. -/
def imageIndicators : List String :=
  ["/img/", "/image/", "/pic/", "/photo/", "thumb", "emoji", "sticker"]

/-- The function `IsValidImageURL`. -/
def IsValidImageURL (url : String) : Bool :=
  if url = "" then false
  else if !HasPrefix url "http://" && !HasPrefix url "https://" then false
  else
    let lowerURL := ToLower url
    if validExtensions.any (fun ext => Contains lowerURL ext) then true
    else if imageIndicators.any (fun indicator => Contains lowerURL indicator) then true
    else false

/-- The function `DetectImageFormat`. -/
def DetectImageFormat (url : String) : String :=
  let lowerURL := ToLower url
  if Contains lowerURL ".gif" then "gif"
  else if Contains lowerURL ".png" then "png"
  else if Contains lowerURL ".webp" || Contains lowerURL ".awebp" then "webp"
  else if Contains lowerURL ".jpg" || Contains lowerURL ".jpeg" then "jpg"
  else ""

/-! ## `sources`: the result cap of the providers -/

/-- The statement `if opts.Limit > 0 && len(memes) > opts.Limit { memes = memes[:opts.Limit] }`
that ends the `Search` of qudoutu, doutula, pdan, sougou and douyin, on the parsed items. -/
def capLimit (memes : List Meme) (opts : SearchOptions) : List Meme :=
  if opts.Limit > 0 && (memes.length : Int) > opts.Limit then memes.take opts.Limit.toNat
  else memes

/-! ## `tools.go` -/

/-- The struct `SearchMemeArgs`. -/
structure SearchMemeArgs where
  Keyword : String
  Sources : List String
  Page : Int
  Limit : Int
deriving DecidableEq, Repr

/-- What the handler returns: `mcp.NewToolResultText` of the JSON text of a report, kept as
the report, or `mcp.NewToolResultError` of a message. -/
inductive CallToolResult where
  | text (result : SearchResult)
  | error (msg : String)
deriving DecidableEq, Repr

/-- The options the handler builds: the defaults, overridden by a positive page and a
positive limit. -/
def handlerOptions (args : SearchMemeArgs) : SearchOptions :=
  let opts := DefaultSearchOptions
  let opts := if args.Page > 0 then { opts with Page := args.Page } else opts
  let opts := if args.Limit > 0 then { opts with Limit := args.Limit } else opts
  opts

/-- The function `HandleSearchMeme` on a request whose arguments were decoded to `args`, or
failed to decode with the error `e`. -/
def HandleSearchMeme (registry : Registry) (env : Env) (ctx : Context)
    (request : Except String SearchMemeArgs) : CallToolResult :=
  match request with
  | Except.error e => CallToolResult.error ("参数解析失败: " ++ e)
  | Except.ok args =>
    if args.Keyword = "" then CallToolResult.error "keyword 参数不能为空"
    else
      let opts := handlerOptions args
      if args.Sources.length > 0 then
        CallToolResult.text (registry.SearchSources env ctx args.Keyword args.Sources opts)
      else
        CallToolResult.text (registry.SearchAll env ctx args.Keyword opts)

/-- The provider calls `HandleSearchMeme` makes. -/
def HandleSearchMemeCalls (registry : Registry) (env : Env) (ctx : Context)
    (request : Except String SearchMemeArgs) : List Call :=
  match request with
  | Except.error _ => []
  | Except.ok args =>
    if args.Keyword = "" then []
    else
      let opts := handlerOptions args
      if args.Sources.length > 0 then
        registry.SearchSourcesCalls env ctx args.Keyword args.Sources opts
      else
        registry.SearchAllCalls env ctx args.Keyword opts

/-- A provider that succeeds with one item whose URL is empty. -/
def blankSample : Source :=
  { ID := "blank", Name := "blank", Description := "sample",
    Search := fun _ _ _ _ =>
      ⟨[{ Title := "cat", URL := "", Platform := "blank", Width := 0, Height := 0,
          Format := "" }], none⟩,
    RequiresAuth := false }

/-- Another douyin sticker, with another content ID. -/
def stickerC : Meme :=
  { Title := "dog", URL := "https://p3.dy.com/tos-cn-i-0813/xyz789~tplv.webp",
    Platform := "douyin", Width := 0, Height := 0, Format := "webp" }

/-- A provider that returns two different stickers whatever the limit. -/
def pairSample : Source :=
  { ID := "douyin", Name := "douyin", Description := "sample",
    Search := fun _ _ _ _ => ⟨[mirrorA, stickerC], none⟩, RequiresAuth := true }

/-! ## Reference results of the provider calls -/

/-- The result a call `s.Search(c, keyword, opts)` sends to the channel when the outside
world answers `n` to it. -/
def answerOf (s : Source) (n : Net) (c : Context) (keyword : String)
    (opts : SearchOptions) : sourceResult :=
  { sourceID := s.ID, memes := (s.Search n c keyword opts).memes,
    err := (s.Search n c keyword opts).err }

/-- Reference results of `SearchSources`, in the order of the requested identifiers: `source
not found` for an identifier that is not registered, else the answer of the registered
source called with the context `c`, the keyword and the options; `k` counts the calls. -/
def referenceResults (r : Registry) (env : Env) (c : Context) (keyword : String)
    (opts : SearchOptions) : List String → Nat → List sourceResult
  | [], _ => []
  | id :: ids, k =>
    match r.Get id with
    | none =>
      { sourceID := id, memes := [], err := some "source not found" } ::
        referenceResults r env c keyword opts ids k
    | some s =>
      answerOf s (env.net k) c keyword opts :: referenceResults r env c keyword opts ids (k + 1)

/-- A context whose time budget is used up. -/
def expired (c : Context) : Bool :=
  match c.deadline with
  | none => false
  | some d => decide (d ≤ 0)

/-- A provider `echo` that reports what it was called with: the keyword as the title, the
deadline of its context as the width and the limit of its options as the height. -/
def echoSample : Source :=
  { ID := "echo", Name := "echo", Description := "sample",
    Search := fun _ c keyword opts =>
      ⟨[{ Title := keyword, URL := "https://p3.dy.com/tos-cn-i-0813/echo~tplv.webp",
          Platform := "echo", Width := c.deadline.getD 0, Height := opts.Limit,
          Format := "webp" }], none⟩,
    RequiresAuth := false }

/-- A provider `polite` that observes its context: it fails with the error of an exceeded
deadline when the context has expired and succeeds otherwise. -/
def politeSample : Source :=
  { ID := "polite", Name := "polite", Description := "sample",
    Search := fun _ c _ _ =>
      if expired c then ⟨[], some "context deadline exceeded"⟩ else ⟨[mirrorA], none⟩,
    RequiresAuth := false }

/-! # Theorems -/

/-! ## The deduplication loop -/

theorem foldl_dedupStep (ms : List Meme) (seen : List String) (res : List Meme) :
    (ms.foldl dedupStep (seen, res)).2 = res ++ dedupFrom seen ms := by
  induction ms generalizing seen res with
  | nil => simp [dedupFrom]
  | cons m ms ih =>
    by_cases h : keyOf m ∈ seen
    · have : dedupStep (seen, res) m = (seen, res) := by
        simp [dedupStep, keyOf] at h ⊢
        exact h
      simp [List.foldl_cons, this, ih, dedupFrom, h]
    · have : dedupStep (seen, res) m = (keyOf m :: seen, res ++ [m]) := by
        simp [dedupStep, keyOf] at h ⊢
        exact h
      simp [List.foldl_cons, this, ih, dedupFrom, h]

theorem DeduplicateMemes_eq (x : List Meme) : DeduplicateMemes x = dedupFrom [] x := by
  simp [DeduplicateMemes, foldl_dedupStep]

theorem dedupFrom_congr (x : List Meme) (s t : List String) (h : ∀ k, k ∈ s ↔ k ∈ t) :
    dedupFrom s x = dedupFrom t x := by
  induction x generalizing s t with
  | nil => rfl
  | cons m ms ih =>
    by_cases hm : keyOf m ∈ s
    · have hm2 : keyOf m ∈ t := (h _).1 hm
      simp [dedupFrom, hm, hm2, ih s t h]
    · have hm2 : keyOf m ∉ t := fun c => hm ((h _).2 c)
      simp only [dedupFrom, hm, hm2, if_false]
      rw [ih (keyOf m :: s) (keyOf m :: t) (by intro k; simp [h k])]

theorem dedupFrom_idem (x : List Meme) (seen : List String) :
    dedupFrom seen (dedupFrom seen x) = dedupFrom seen x := by
  induction x generalizing seen with
  | nil => rfl
  | cons m ms ih =>
    by_cases hm : keyOf m ∈ seen
    · simp [dedupFrom, hm, ih]
    · simp [dedupFrom, hm, ih]

theorem dedupFrom_sublist (x : List Meme) (seen : List String) :
    (dedupFrom seen x).Sublist x := by
  induction x generalizing seen with
  | nil => exact List.Sublist.slnil
  | cons m ms ih =>
    by_cases hm : keyOf m ∈ seen
    · simp only [dedupFrom, hm, if_true]
      exact (ih seen).cons m
    · simp only [dedupFrom, hm, if_false]
      exact (ih _).cons₂ m

theorem dedupFrom_keys_not_seen (x : List Meme) (seen : List String) :
    ∀ m ∈ dedupFrom seen x, keyOf m ∉ seen := by
  induction x generalizing seen with
  | nil => simp [dedupFrom]
  | cons a ms ih =>
    by_cases hm : keyOf a ∈ seen
    · simp only [dedupFrom, hm, if_true]
      exact ih seen
    · simp only [dedupFrom, hm, if_false]
      intro m hmem
      rcases List.mem_cons.1 hmem with rfl | h
      · exact hm
      · exact fun c => ih _ m h (List.mem_cons_of_mem _ c)

theorem dedupFrom_keys_nodup (x : List Meme) (seen : List String) :
    ((dedupFrom seen x).map keyOf).Nodup := by
  induction x generalizing seen with
  | nil => simp [dedupFrom]
  | cons a ms ih =>
    by_cases hm : keyOf a ∈ seen
    · simp only [dedupFrom, hm, if_true]
      exact ih seen
    · simp only [dedupFrom, hm, if_false, List.map_cons, List.nodup_cons]
      refine ⟨?_, ih _⟩
      intro c
      rcases List.mem_map.1 c with ⟨m, hmem, hk⟩
      exact dedupFrom_keys_not_seen ms _ m hmem (by simp [hk])

theorem dedupFrom_keys_cover (x : List Meme) (seen : List String) :
    ∀ m ∈ x, keyOf m ∈ seen ∨ keyOf m ∈ (dedupFrom seen x).map keyOf := by
  induction x generalizing seen with
  | nil => simp
  | cons a ms ih =>
    intro m hmem
    by_cases hm : keyOf a ∈ seen
    · simp only [dedupFrom, hm, if_true]
      rcases List.mem_cons.1 hmem with rfl | h
      · exact Or.inl hm
      · exact ih seen m h
    · simp only [dedupFrom, hm, if_false, List.map_cons, List.mem_cons]
      rcases List.mem_cons.1 hmem with rfl | h
      · exact Or.inr (Or.inl rfl)
      · rcases ih (keyOf a :: seen) m h with h1 | h1
        · rcases List.mem_cons.1 h1 with h2 | h2
          · exact Or.inr (Or.inl h2)
          · exact Or.inl h2
        · exact Or.inr (Or.inr h1)

theorem all_keys_ne_iff (pre : List Meme) (m : Meme) :
    (pre.all (fun a => keyOf a != keyOf m)) = true ↔ keyOf m ∉ pre.map keyOf := by
  simp only [List.all_eq_true, bne_iff_ne, List.mem_map, not_exists, not_and]

theorem dedupFrom_eq_filter (suf pre : List Meme) (seen : List String)
    (h : ∀ k, k ∈ seen ↔ k ∈ pre.map keyOf) :
    dedupFrom seen suf =
      ((suf.enumFrom pre.length).filter
        (fun p => ((pre ++ suf).take p.1).all (fun m => keyOf m != keyOf p.2))).map Prod.snd := by
  induction suf generalizing pre seen with
  | nil => simp [dedupFrom]
  | cons m ms ih =>
    have hhead : ((pre ++ m :: ms).take pre.length) = pre := by simp
    have hsplit : pre ++ m :: ms = (pre ++ [m]) ++ ms := by simp
    have hlen : pre.length + 1 = (pre ++ [m]).length := by simp
    simp only [List.enumFrom_cons, List.filter_cons, hhead]
    by_cases hm : keyOf m ∈ seen
    · have hc : (pre.all (fun a => keyOf a != keyOf m)) = false := by
        rw [Bool.eq_false_iff]; intro c
        exact (all_keys_ne_iff pre m).1 c ((h _).1 hm)
      simp only [dedupFrom, hm, if_true, hc]
      rw [hsplit, hlen]
      apply ih
      intro k
      rw [h k]; simp only [List.map_append, List.mem_append, List.map_cons, List.map_nil,
        List.mem_singleton]
      constructor
      · exact Or.inl
      · rintro (h1 | rfl)
        · exact h1
        · exact (h _).1 hm
    · have hc : (pre.all (fun a => keyOf a != keyOf m)) = true :=
        (all_keys_ne_iff pre m).2 (fun c => hm ((h _).2 c))
      simp only [dedupFrom, hm, if_false, hc, if_true, List.map_cons]
      rw [hsplit, hlen]
      congr 1
      apply ih
      intro k
      simp only [List.mem_cons, h k, List.map_append, List.mem_append, List.map_cons,
        List.map_nil, List.mem_singleton]
      tauto

theorem DeduplicateMemes_eq_firstOccurrences (x : List Meme) :
    DeduplicateMemes x = firstOccurrences x := by
  rw [DeduplicateMemes_eq, firstOccurrences, List.enum]
  simpa using dedupFrom_eq_filter x [] [] (by simp)



/-! ## The matcher -/

theorem notIn_iff (cs : List Char) (x : Char) : notIn cs x = true ↔ x ∉ cs := by
  simp [notIn]

theorem douyinURLPattern_eq : douyinURLPattern = tosLit.map Item.lit ++ tailPattern := rfl

theorem takeWhile_nil_dropWhile (p : Char → Bool) (t : List Char)
    (ht : t.takeWhile p = []) : t.dropWhile p = t := by
  cases t with
  | nil => rfl
  | cons y u =>
    by_cases hy : p y = true
    · rw [List.takeWhile_cons_of_pos hy] at ht; cases ht
    · rw [List.dropWhile_cons_of_neg hy]

theorem takeWhile_ne_nil_head (p : Char → Bool) (t : List Char)
    (ht : t.takeWhile p ≠ []) : ∃ y u, t = y :: u ∧ p y = true := by
  cases t with
  | nil => exact absurd rfl ht
  | cons y u =>
    by_cases hy : p y = true
    · exact ⟨y, u, rfl, hy⟩
    · rw [List.takeWhile_cons_of_neg hy] at ht; exact absurd rfl ht

theorem matchPlus_total (cs : List Char) (c : List Char × List Char) (s : List Char) :
    matchPlus cs (fun _ => some c) s =
      if s.takeWhile (notIn cs) = [] then none
      else some (s.takeWhile (notIn cs), c.1, c.2) := by
  induction s with
  | nil => rfl
  | cons x t ih =>
    by_cases hx : x ∈ cs
    · have hn : ¬ (notIn cs x = true) := fun h => (notIn_iff cs x).1 h hx
      rw [matchPlus, if_pos hx, List.takeWhile_cons_of_neg hn, if_pos rfl]
    · have hn : notIn cs x = true := (notIn_iff cs x).2 hx
      rw [matchPlus, if_neg hx, ih, List.takeWhile_cons_of_pos hn,
        if_neg (List.cons_ne_nil _ _)]
      by_cases ht : t.takeWhile (notIn cs) = []
      · rw [if_pos ht, ht]; rfl
      · rw [if_neg ht]

theorem matchPlus_guarded (cs : List Char) (k : List Char → Option (List Char × List Char))
    (hk : ∀ x t, x ∉ cs → k (x :: t) = none) (s : List Char) :
    matchPlus cs k s =
      if s.takeWhile (notIn cs) = [] then none
      else (k (s.dropWhile (notIn cs))).map (fun r => (s.takeWhile (notIn cs), r.1, r.2)) := by
  induction s with
  | nil => rfl
  | cons x t ih =>
    by_cases hx : x ∈ cs
    · have hn : ¬ (notIn cs x = true) := fun h => (notIn_iff cs x).1 h hx
      rw [matchPlus, if_pos hx, List.takeWhile_cons_of_neg hn, if_pos rfl]
    · have hn : notIn cs x = true := (notIn_iff cs x).2 hx
      rw [matchPlus, if_neg hx, ih, List.takeWhile_cons_of_pos hn,
        List.dropWhile_cons_of_pos hn, if_neg (List.cons_ne_nil _ _)]
      by_cases ht : t.takeWhile (notIn cs) = []
      · rw [if_pos ht, ht, takeWhile_nil_dropWhile _ t ht]
      · rw [if_neg ht]
        obtain ⟨y, u, rfl, hy⟩ := takeWhile_ne_nil_head _ t ht
        have hkt : k (y :: u) = none := hk y u ((notIn_iff cs y).1 hy)
        cases hr : k ((y :: u).dropWhile (notIn cs)) with
        | none => simp only [Option.map_none', hkt]
        | some r => simp only [Option.map_some']

theorem dropWhile_head_slash (r : List Char) (y : Char) (u : List Char)
    (h : r.dropWhile (notIn ['/']) = y :: u) : y = '/' := by
  have h1 := List.head_dropWhile_not (notIn ['/']) r (by rw [h]; exact List.cons_ne_nil _ _)
  simp only [h, List.head_cons] at h1
  by_contra hne
  have : notIn ['/'] y = true := (notIn_iff _ _).2 (by simpa using hne)
  rw [this] at h1; cases h1

theorem matchHere_nil (s : List Char) : matchHere [] s = some ([], []) := rfl

theorem matchHere_lit (c : Char) (rest : List Item) (x : Char) (s : List Char) :
    matchHere (Item.lit c :: rest) (x :: s) =
      if x = c then (matchHere rest s).map (fun r => (x :: r.1, r.2)) else none := rfl

theorem matchHere_lit_nil (c : Char) (rest : List Item) :
    matchHere (Item.lit c :: rest) [] = none := rfl

theorem matchHere_plus (cs : List Char) (cap : Bool) (rest : List Item) (s : List Char) :
    matchHere (Item.plusNot cs cap :: rest) s =
      (matchPlus cs (matchHere rest) s).map
        (fun r => (r.1 ++ r.2.1, if cap then r.1 else r.2.2)) := rfl

theorem matchHere_group (t : List Char) :
    matchHere [Item.plusNot stops true] t =
      if t.takeWhile (notIn stops) = [] then none
      else some (t.takeWhile (notIn stops), t.takeWhile (notIn stops)) := by
  have hm : matchHere [] = fun _ => some (([] : List Char), ([] : List Char)) := rfl
  rw [matchHere_plus, hm, matchPlus_total]
  by_cases hg : t.takeWhile (notIn stops) = []
  · rw [if_pos hg, if_pos hg]; rfl
  · rw [if_neg hg, if_neg hg]; simp

theorem matchHere_tail (r : List Char) : matchHere tailPattern r = tailMatch r := by
  have hk : ∀ x t, x ∉ ['/'] →
      matchHere [Item.lit '/', Item.plusNot stops true] (x :: t) = none := by
    intro x t hx
    have : x ≠ '/' := by simpa using hx
    rw [matchHere_lit, if_neg this]
  rw [tailPattern, matchHere_plus, matchPlus_guarded ['/'] _ hk r]
  unfold tailMatch
  by_cases hb : r.takeWhile (notIn ['/']) = []
  · simp only [hb, if_true, Option.map_none']
  · simp only [hb, if_false]
    cases hd : r.dropWhile (notIn ['/']) with
    | nil => simp only [matchHere_lit_nil, Option.map_none']
    | cons y u =>
      have hy : y = '/' := dropWhile_head_slash r y u hd
      subst hy
      rw [matchHere_lit, if_pos rfl, matchHere_group]
      by_cases hg : u.takeWhile (notIn stops) = []
      · simp [hg]
      · simp [hg]

theorem matchHere_lits (l : List Char) (rest : List Item) (s : List Char) :
    matchHere (l.map Item.lit ++ rest) s =
      if l <+: s then (matchHere rest (s.drop l.length)).map (fun r => (l ++ r.1, r.2))
      else none := by
  induction l generalizing s with
  | nil =>
    cases h : matchHere rest s <;> simp [h]
  | cons c l ih =>
    cases s with
    | nil => simp [matchHere_lit_nil]
    | cons x t =>
      rw [List.map_cons, List.cons_append, matchHere_lit]
      by_cases hx : x = c
      · subst hx
        rw [if_pos rfl, ih]
        by_cases hp : l <+: t
        · have hp2 : x :: l <+: x :: t := by rw [List.cons_prefix_cons]; exact ⟨rfl, hp⟩
          rw [if_pos hp, if_pos hp2]
          cases h : matchHere rest (List.drop l.length t) <;> simp [h]
        · have hp2 : ¬ (x :: l <+: x :: t) := by
            rw [List.cons_prefix_cons]; exact fun h => hp h.2
          rw [if_neg hp, if_neg hp2]; rfl
      · have : ¬ (c :: l <+: x :: t) := by
          rw [List.cons_prefix_cons]; exact fun h => hx h.1.symm
        rw [if_neg hx, if_neg this]

theorem matchHere_douyin (s : List Char) :
    matchHere douyinURLPattern s =
      if tosLit <+: s then (tailMatch (s.drop tosLit.length)).map (fun r => (tosLit ++ r.1, r.2))
      else none := by
  rw [douyinURLPattern_eq, matchHere_lits]
  simp only [matchHere_tail]


theorem findFrom_of_matchHere (re : List Item) (s : List Char) (r : List Char × List Char)
    (h : matchHere re s = some r) : findFrom re s = some r := by
  cases s with
  | nil => exact h
  | cons x t => simp only [findFrom, h]

theorem findFrom_cons_none (re : List Item) (x : Char) (t : List Char)
    (h : matchHere re (x :: t) = none) : findFrom re (x :: t) = findFrom re t := by
  simp only [findFrom, h]

theorem tailMatch_shape (b g r : List Char) (hb : b ≠ []) (hb2 : '/' ∉ b) (hg : g ≠ [])
    (hg2 : ∀ c ∈ g, c ∉ stops) :
    tailMatch (b ++ '/' :: g ++ r) =
      some (b ++ '/' :: (g ++ r.takeWhile (notIn stops)), g ++ r.takeWhile (notIn stops)) := by
  have hbp : ∀ a ∈ b, notIn ['/'] a = true := by
    intro a ha
    exact (notIn_iff _ _).2 (by simp only [List.mem_singleton]; rintro rfl; exact hb2 ha)
  have hs : ¬ (notIn ['/'] '/' = true) := by simp [notIn]
  have hgp : ∀ a ∈ g, notIn stops a = true := fun a ha => (notIn_iff _ _).2 (hg2 a ha)
  have h1 : (b ++ '/' :: g ++ r).takeWhile (notIn ['/']) = b := by
    rw [List.append_assoc, List.takeWhile_append_of_pos hbp, List.cons_append,
      List.takeWhile_cons_of_neg hs, List.append_nil]
  have h2 : (b ++ '/' :: g ++ r).dropWhile (notIn ['/']) = '/' :: (g ++ r) := by
    rw [List.append_assoc, List.dropWhile_append_of_pos hbp, List.cons_append,
      List.dropWhile_cons_of_neg hs]
  have h3 : (g ++ r).takeWhile (notIn stops) = g ++ r.takeWhile (notIn stops) :=
    List.takeWhile_append_of_pos hgp
  have h4 : g ++ r.takeWhile (notIn stops) ≠ [] := by
    intro c; exact hg (List.append_eq_nil.1 c).1
  unfold tailMatch
  simp only [h1, h2, h3, hb, h4, if_false]

theorem matchHere_of_matchStart (s : List Char) (h : MatchStart s) :
    ∃ r, matchHere douyinURLPattern s = some r := by
  obtain ⟨b, g, r, rfl, hb, hb2, hg, hg2⟩ := h
  have hp : tosLit <+: tosLit ++ b ++ '/' :: g ++ r := by
    rw [List.append_assoc, List.append_assoc]; exact List.prefix_append _ _
  have hd : (tosLit ++ b ++ '/' :: g ++ r).drop tosLit.length = b ++ '/' :: g ++ r := by
    rw [List.append_assoc, List.append_assoc, List.drop_left, List.append_assoc]
  rw [matchHere_douyin, if_pos hp, hd, tailMatch_shape b g r hb hb2 hg hg2]
  exact ⟨_, rfl⟩

theorem matchHere_sound (s w g : List Char) (h : matchHere douyinURLPattern s = some (w, g)) :
    ∃ b r, s = tosLit ++ b ++ '/' :: g ++ r ∧ b ≠ [] ∧ '/' ∉ b ∧ g ≠ [] ∧
      (∀ c ∈ g, c ∉ stops) ∧ (∀ c, r.head? = some c → c ∈ stops) ∧
      w = tosLit ++ b ++ '/' :: g := by
  rw [matchHere_douyin] at h
  by_cases hp : tosLit <+: s
  · rw [if_pos hp] at h
    obtain ⟨s', rfl⟩ := hp
    rw [List.drop_left] at h
    unfold tailMatch at h
    by_cases hb : s'.takeWhile (notIn ['/']) = []
    · simp [hb] at h
    · simp only [hb, if_false] at h
      cases hd : s'.dropWhile (notIn ['/']) with
      | nil => rw [hd] at h; simp at h
      | cons y t =>
        have hy : y = '/' := dropWhile_head_slash s' y t hd
        subst hy
        rw [hd] at h
        by_cases hg : t.takeWhile (notIn stops) = []
        · simp [hg] at h
        · simp only [hg, if_false, Option.map_some', Option.some.injEq, Prod.mk.injEq] at h
          obtain ⟨hw, hge⟩ := h
          refine ⟨s'.takeWhile (notIn ['/']), t.dropWhile (notIn stops), ?_, hb, ?_, ?_, ?_, ?_, ?_⟩
          · have e1 := List.takeWhile_append_dropWhile (notIn ['/']) s'
            have e2 := List.takeWhile_append_dropWhile (notIn stops) t
            rw [hd] at e1
            rw [← hge, List.append_assoc, List.append_assoc, List.cons_append, e2, e1]
          · intro c
            have := List.mem_takeWhile_imp c
            exact (notIn_iff _ _).1 this (by simp)
          · rw [← hge]; exact hg
          · intro c hc
            rw [← hge] at hc
            exact (notIn_iff _ _).1 (List.mem_takeWhile_imp hc)
          · intro c hc
            cases hr : t.dropWhile (notIn stops) with
            | nil => rw [hr] at hc; cases hc
            | cons z u =>
              rw [hr] at hc
              simp only [List.head?_cons, Option.some.injEq] at hc
              subst hc
              have h1 := List.head_dropWhile_not (notIn stops) t
                (by rw [hr]; exact List.cons_ne_nil _ _)
              simp only [hr, List.head_cons] at h1
              by_contra hne
              rw [(notIn_iff _ _).2 hne] at h1; cases h1
          · rw [← hw, ← hge, List.append_assoc]
  · rw [if_neg hp] at h; cases h

theorem matchHere_none_iff (s : List Char) :
    matchHere douyinURLPattern s = none ↔ ¬ MatchStart s := by
  constructor
  · intro h c
    obtain ⟨r, hr⟩ := matchHere_of_matchStart s c
    rw [h] at hr; cases hr
  · intro h
    cases hm : matchHere douyinURLPattern s with
    | none => rfl
    | some r =>
      obtain ⟨w, g⟩ := r
      obtain ⟨b, r, hs, hb, hb2, hg, hg2, _, _⟩ := matchHere_sound s w g hm
      exact absurd ⟨b, g, r, hs, hb, hb2, hg, hg2⟩ h

theorem findFrom_none_iff (s : List Char) :
    findFrom douyinURLPattern s = none ↔ ¬ HasMatch s := by
  induction s with
  | nil =>
    rw [findFrom, matchHere_none_iff]
    constructor
    · rintro h ⟨p, t, hpt, hm⟩
      have ht : t = [] := (List.append_eq_nil.1 hpt.symm).2
      exact h (ht ▸ hm)
    · intro h c; exact h ⟨[], [], rfl, c⟩
  | cons x t ih =>
    cases hm : matchHere douyinURLPattern (x :: t) with
    | some r =>
      rw [findFrom_of_matchHere _ _ _ hm]
      constructor
      · intro c; cases c
      · intro h
        have : ¬ MatchStart (x :: t) := fun c => h ⟨[], x :: t, rfl, c⟩
        rw [(matchHere_none_iff _).2 this] at hm; cases hm
    | none =>
      rw [findFrom_cons_none _ _ _ hm, ih]
      have hns : ¬ MatchStart (x :: t) := (matchHere_none_iff _).1 hm
      constructor
      · rintro h ⟨p, u, hpu, hu⟩
        cases p with
        | nil => exact hns (by rw [hpu]; exact hu)
        | cons y p =>
          rw [List.cons_append, List.cons.injEq] at hpu
          exact h ⟨p, u, hpu.2, hu⟩
      · rintro h ⟨p, u, hpu, hu⟩
        exact h ⟨x :: p, u, by rw [hpu]; rfl, hu⟩

theorem findFrom_some (s : List Char) (r : List Char × List Char)
    (h : findFrom douyinURLPattern s = some r) :
    ∃ p t, s = p ++ t ∧ matchHere douyinURLPattern t = some r ∧
      ∀ p' t', s = p' ++ t' → p'.length < p.length → ¬ MatchStart t' := by
  induction s with
  | nil =>
    refine ⟨[], [], rfl, h, ?_⟩
    intro p' t' _ hlt; cases hlt
  | cons x t ih =>
    cases hm : matchHere douyinURLPattern (x :: t) with
    | some r' =>
      rw [findFrom_of_matchHere _ _ _ hm] at h
      refine ⟨[], x :: t, rfl, by rw [hm, h], ?_⟩
      intro p' t' _ hlt; cases hlt
    | none =>
      rw [findFrom_cons_none _ _ _ hm] at h
      obtain ⟨p, u, hpu, hu, hleft⟩ := ih h
      refine ⟨x :: p, u, by rw [hpu]; rfl, hu, ?_⟩
      intro p' t' hs hlt
      cases p' with
      | nil =>
        rw [List.nil_append] at hs
        rw [← hs]; exact (matchHere_none_iff _).1 hm
      | cons y q =>
        rw [List.cons_append, List.cons.injEq] at hs
        exact hleft q t' hs.2 (by simpa using hlt)

/-! ## Maps -/

theorem mapGet_mapSet {β : Type} (m : List (String × β)) (k k' : String) (v : β) :
    mapGet (mapSet m k v) k' = if k = k' then some v else mapGet m k' := by
  induction m with
  | nil => simp [mapSet, mapGet]
  | cons p m ih =>
    obtain ⟨a, b⟩ := p
    by_cases h : a = k
    · subst h
      by_cases h2 : a = k'
      · simp [mapSet, mapGet, h2]
      · simp [mapSet, mapGet, h2]
    · by_cases h2 : a = k'
      · subst h2
        have : ¬ k = a := fun c => h c.symm
        simp [mapSet, mapGet, h, this]
      · simp [mapSet, mapGet, h, h2, ih]

theorem mem_mapKeys_mapSet {β : Type} (m : List (String × β)) (k k' : String) (v : β) :
    k' ∈ mapKeys (mapSet m k v) ↔ k' = k ∨ k' ∈ mapKeys m := by
  induction m with
  | nil => simp [mapSet, mapKeys]
  | cons p m ih =>
    obtain ⟨a, b⟩ := p
    by_cases h : a = k
    · subst h; simp [mapSet, mapKeys]
    · simp only [mapKeys] at ih
      simp only [mapSet, h, if_false, mapKeys, List.map_cons, List.mem_cons, ih]
      tauto

theorem mapKeys_mapSet_nodup {β : Type} (m : List (String × β)) (k : String) (v : β)
    (h : (mapKeys m).Nodup) : (mapKeys (mapSet m k v)).Nodup := by
  induction m with
  | nil => simp [mapSet, mapKeys]
  | cons p m ih =>
    obtain ⟨a, b⟩ := p
    simp only [mapKeys, List.map_cons, List.nodup_cons] at h
    by_cases hk : a = k
    · subst hk
      simpa [mapSet, mapKeys] using h
    · have h1 := (mem_mapKeys_mapSet m k a v).not.2 (by
        intro c; rcases c with c | c
        · exact hk c
        · exact h.1 c)
      simp only [mapSet, hk, if_false, mapKeys, List.map_cons, List.nodup_cons]
      exact ⟨h1, ih h.2⟩

theorem mem_mapSet {β : Type} (m : List (String × β)) (k : String) (v : β) (p : String × β)
    (h : p ∈ mapSet m k v) : p = (k, v) ∨ p ∈ m := by
  induction m with
  | nil => simpa [mapSet] using h
  | cons q m ih =>
    obtain ⟨a, b⟩ := q
    by_cases hk : a = k
    · simp only [mapSet, hk, if_true, List.mem_cons] at h
      rcases h with h | h
      · exact Or.inl h
      · exact Or.inr (List.mem_cons_of_mem _ h)
    · simp only [mapSet, hk, if_false, List.mem_cons] at h
      rcases h with h | h
      · exact Or.inr (by rw [h]; exact List.mem_cons_self _ _)
      · rcases ih h with h2 | h2
        · exact Or.inl h2
        · exact Or.inr (List.mem_cons_of_mem _ h2)

theorem mapGet_eq_some_iff {β : Type} (m : List (String × β)) (h : (mapKeys m).Nodup)
    (k : String) (v : β) : mapGet m k = some v ↔ (k, v) ∈ m := by
  induction m with
  | nil => simp [mapGet]
  | cons p m ih =>
    obtain ⟨a, b⟩ := p
    simp only [mapKeys, List.map_cons, List.nodup_cons] at h
    by_cases hk : a = k
    · subst hk
      simp only [mapGet, if_true, Option.some.injEq, List.mem_cons, Prod.mk.injEq, true_and]
      constructor
      · intro e; exact Or.inl e.symm
      · rintro (e | e)
        · exact e.symm
        · exact absurd (List.mem_map.2 ⟨(a, v), e, rfl⟩) h.1
    · have hk2 : ¬ k = a := fun c => hk c.symm
      simp only [mapGet, hk, if_false, List.mem_cons, Prod.mk.injEq, hk2, false_and, false_or]
      exact ih h.2

theorem mapGet_isSome_iff {β : Type} (m : List (String × β)) (k : String) :
    (mapGet m k).isSome = true ↔ k ∈ mapKeys m := by
  induction m with
  | nil => simp [mapGet, mapKeys]
  | cons p m ih =>
    obtain ⟨a, b⟩ := p
    by_cases hk : a = k
    · subst hk; simp [mapGet, mapKeys]
    · have hk2 : ¬ k = a := fun c => hk c.symm
      simp only [mapKeys] at ih
      simp [mapGet, hk, mapKeys, hk2, ih]

/-! ## The fan-out -/

theorem launchResults_cons {α : Type} (body : Nat → α → Dispatch) (a : α) (todo : List α)
    (st : Fanout) :
    launchResults body (a :: todo) st.launched =
      (body st.launched a).res ::
        launchResults body todo (st.apply (body st.launched a)).launched := by
  cases h : body st.launched a <;> simp [launchResults, h, Dispatch.res, Fanout.apply]

theorem launchCalls_cons {α : Type} (body : Nat → α → Dispatch) (a : α) (todo : List α)
    (st : Fanout) :
    st.calls ++ launchCalls body (a :: todo) st.launched =
      (st.apply (body st.launched a)).calls ++
        launchCalls body todo (st.apply (body st.launched a)).launched := by
  cases h : body st.launched a <;> simp [launchCalls, h, Fanout.apply]

theorem apply_pending (st : Fanout) (d : Dispatch) :
    ((st.apply d).resultCh ++ (st.apply d).running).Perm
      (st.resultCh ++ st.running ++ [d.res]) := by
  cases d with
  | send res =>
    simp only [Fanout.apply, Dispatch.res, List.append_assoc]
    exact List.Perm.append_left _ List.perm_append_comm
  | spawn res call =>
    simp only [Fanout.apply, Dispatch.res, List.append_assoc]
    exact List.Perm.refl _

theorem perm_cons_eraseIdx (l : List sourceResult) (n : Nat) (a : sourceResult)
    (h : l.get? n = some a) : (l.eraseIdx n ++ [a]).Perm l := by
  induction l generalizing n with
  | nil => cases h
  | cons b l ih =>
    cases n with
    | zero =>
      simp only [List.get?_cons_zero, Option.some.injEq] at h
      subst h
      simp
    | succ n =>
      simp only [List.get?_cons_succ] at h
      simpa using (ih n h).cons b

theorem complete_pending (st : Fanout) (n : Nat) :
    ((st.complete n).resultCh ++ (st.complete n).running).Perm
      (st.resultCh ++ st.running) := by
  unfold Fanout.complete
  cases h : st.running.get? n with
  | none => exact List.Perm.refl _
  | some res =>
    simp only [List.append_assoc]
    apply List.Perm.append_left
    exact List.perm_append_comm.trans (perm_cons_eraseIdx _ n res h)

theorem complete_launched (st : Fanout) (n : Nat) :
    (st.complete n).launched = st.launched ∧ (st.complete n).calls = st.calls := by
  unfold Fanout.complete
  cases h : st.running.get? n <;> simp

theorem foldl_apply_spec {α : Type} (body : Nat → α → Dispatch) (todo : List α) (st : Fanout) :
    ((todo.foldl (fun st a => st.apply (body st.launched a)) st).resultCh ++
        (todo.foldl (fun st a => st.apply (body st.launched a)) st).running).Perm
      (st.resultCh ++ st.running ++ launchResults body todo st.launched) ∧
    (todo.foldl (fun st a => st.apply (body st.launched a)) st).calls =
      st.calls ++ launchCalls body todo st.launched := by
  induction todo generalizing st with
  | nil => simp [launchResults, launchCalls]
  | cons a todo ih =>
    obtain ⟨h1, h2⟩ := ih (st.apply (body st.launched a))
    refine ⟨?_, ?_⟩
    · rw [List.foldl_cons, launchResults_cons]
      refine h1.trans ?_
      have := (apply_pending st (body st.launched a)).append_right
        (launchResults body todo (st.apply (body st.launched a)).launched)
      simpa [List.append_assoc] using this
    · rw [List.foldl_cons, h2, launchCalls_cons]

theorem fanout_spec {α : Type} (body : Nat → α → Dispatch) (picks : List Nat) (todo : List α)
    (st : Fanout) :
    ((fanout body picks todo st).resultCh).Perm
      (st.resultCh ++ st.running ++ launchResults body todo st.launched) ∧
    (fanout body picks todo st).running = [] ∧
    (fanout body picks todo st).calls = st.calls ++ launchCalls body todo st.launched := by
  induction picks generalizing todo st with
  | nil =>
    obtain ⟨h1, h2⟩ := foldl_apply_spec body todo st
    simp only [fanout, Fanout.wait]
    exact ⟨h1, trivial, h2⟩
  | cons p picks ih =>
    cases p with
    | zero =>
      cases todo with
      | nil => simpa only [fanout] using ih [] st
      | cons a todo =>
        obtain ⟨h1, h2, h3⟩ := ih todo (st.apply (body st.launched a))
        simp only [fanout]
        refine ⟨?_, h2, ?_⟩
        · rw [launchResults_cons]
          refine h1.trans ?_
          have := (apply_pending st (body st.launched a)).append_right
            (launchResults body todo (st.apply (body st.launched a)).launched)
          simpa [List.append_assoc] using this
        · rw [h3, launchCalls_cons]
    | succ n =>
      obtain ⟨h1, h2, h3⟩ := ih todo (st.complete n)
      simp only [fanout]
      refine ⟨?_, h2, ?_⟩
      · rw [(complete_launched st n).1] at h1
        exact h1.trans ((complete_pending st n).append_right _)
      · rw [h3, (complete_launched st n).1, (complete_launched st n).2]

/-! ## The collecting loop -/

theorem foldl_collectStep (ch : List sourceResult) (am : List Meme) (ss : List String)
    (er : List (String × String)) :
    ch.foldl collectStep (am, ss, er) =
      (am ++ (succeeded ch).flatMap (fun res => res.memes),
       ss ++ (succeeded ch).map (fun res => res.sourceID),
       mapSetAll er (failures ch)) := by
  induction ch generalizing am ss er with
  | nil => simp [succeeded, failures, mapSetAll]
  | cons res ch ih =>
    cases he : res.err with
    | none =>
      have h1 : collectStep (am, ss, er) res = (am ++ res.memes, ss ++ [res.sourceID], er) := by
        simp [collectStep, he]
      rw [List.foldl_cons, h1, ih]
      simp [succeeded, failures, he, List.filter_cons, List.filterMap_cons]
    | some e =>
      have h1 : collectStep (am, ss, er) res = (am, ss, mapSet er res.sourceID e) := by
        simp [collectStep, he]
      rw [List.foldl_cons, h1, ih]
      simp [succeeded, failures, he, List.filter_cons, List.filterMap_cons, mapSetAll]

theorem report_eq (env : Env) (ch : List sourceResult) :
    report env ch =
      { Memes := DeduplicateMemes ((succeeded ch).flatMap (fun res => res.memes)),
        Sources := (succeeded ch).map (fun res => res.sourceID),
        Errors := mapSetAll [] (failures ch),
        Total := (DeduplicateMemes ((succeeded ch).flatMap (fun res => res.memes))).length,
        DurationMs := (env.elapsed : Int) / 1000000 } := by
  simp [report, foldl_collectStep]

theorem mem_mapKeys_mapSetAll {β : Type} (kvs m : List (String × β)) (k : String) :
    k ∈ mapKeys (mapSetAll m kvs) ↔ k ∈ mapKeys m ∨ k ∈ mapKeys kvs := by
  induction kvs generalizing m with
  | nil => simp [mapSetAll, mapKeys]
  | cons p kvs ih =>
    have := ih (mapSet m p.1 p.2)
    simp only [mapSetAll, List.foldl_cons] at this ⊢
    rw [this, mem_mapKeys_mapSet]
    simp only [mapKeys, List.map_cons, List.mem_cons]
    tauto

theorem mapKeys_mapSetAll_nodup {β : Type} (kvs m : List (String × β))
    (h : (mapKeys m).Nodup) : (mapKeys (mapSetAll m kvs)).Nodup := by
  induction kvs generalizing m with
  | nil => simpa [mapSetAll] using h
  | cons p kvs ih =>
    simpa only [mapSetAll, List.foldl_cons] using ih _ (mapKeys_mapSet_nodup m p.1 p.2 h)

theorem mapGet_mapSetAll_const {β : Type} (kvs m : List (String × β)) (k : String) (v : β)
    (hv : ∀ p ∈ kvs, p.1 = k → p.2 = v)
    (hk : k ∈ mapKeys kvs ∨ mapGet m k = some v) :
    mapGet (mapSetAll m kvs) k = some v := by
  induction kvs generalizing m with
  | nil =>
    rcases hk with hk | hk
    · simp [mapKeys] at hk
    · simpa [mapSetAll] using hk
  | cons p kvs ih =>
    simp only [mapSetAll, List.foldl_cons]
    apply ih
    · intro q hq; exact hv q (List.mem_cons_of_mem _ hq)
    · by_cases hmem : k ∈ mapKeys kvs
      · exact Or.inl hmem
      · right
        rw [mapGet_mapSet]
        by_cases hp : p.1 = k
        · rw [if_pos hp, hv p (List.mem_cons_self _ _) hp]
        · rw [if_neg hp]
          rcases hk with hk | hk
          · simp only [mapKeys, List.map_cons, List.mem_cons] at hk
            rcases hk with hk | hk
            · exact absurd hk.symm hp
            · exact absurd hk hmem
          · exact hk

theorem mapGet_mapSetAll_nodup {β : Type} (kvs : List (String × β))
    (h : (mapKeys kvs).Nodup) (k : String) (v : β) :
    mapGet (mapSetAll [] kvs) k = some v ↔ (k, v) ∈ kvs := by
  constructor
  · intro hg
    have hk : k ∈ mapKeys kvs := by
      have := (mapGet_isSome_iff (mapSetAll [] kvs) k).1 (by rw [hg]; rfl)
      rcases (mem_mapKeys_mapSetAll kvs [] k).1 this with c | c
      · simp [mapKeys] at c
      · exact c
    obtain ⟨p, hp, hpk⟩ := List.mem_map.1 hk
    have hconst : ∀ q ∈ kvs, q.1 = k → q.2 = p.2 := by
      intro q hq hqk
      have : q = p := by
        apply List.inj_on_of_nodup_map h hq hp
        rw [hqk, hpk]
      rw [this]
    have := mapGet_mapSetAll_const kvs [] k p.2 hconst (Or.inl hk)
    rw [hg] at this
    have hv : v = p.2 := Option.some.inj this
    rw [hv, ← hpk]; exact hp
  · intro hmem
    apply mapGet_mapSetAll_const
    · intro q hq hqk
      have : q = (k, v) := by
        apply List.inj_on_of_nodup_map h hq hmem
        exact hqk
      rw [this]
    · exact Or.inl (List.mem_map.2 ⟨(k, v), hmem, rfl⟩)

theorem succeeded_perm {a b : List sourceResult} (h : a.Perm b) :
    (succeeded a).Perm (succeeded b) := h.filter _

theorem failures_perm {a b : List sourceResult} (h : a.Perm b) :
    (failures a).Perm (failures b) := h.filterMap _

theorem mem_failures (ch : List sourceResult) (id msg : String) :
    (id, msg) ∈ failures ch ↔ ∃ res ∈ ch, res.sourceID = id ∧ res.err = some msg := by
  simp only [failures, List.mem_filterMap, Option.map_eq_some', Prod.mk.injEq]
  constructor
  · rintro ⟨res, hres, e, he, h1, h2⟩
    exact ⟨res, hres, h1, by rw [he, h2]⟩
  · rintro ⟨res, hres, h1, h2⟩
    exact ⟨res, hres, msg, h2, h1, rfl⟩

theorem mapKeys_failures_sublist (ch : List sourceResult) :
    (mapKeys (failures ch)).Sublist (ch.map (fun res => res.sourceID)) := by
  induction ch with
  | nil => simp [failures, mapKeys]
  | cons res ch ih =>
    cases he : res.err with
    | none =>
      simp only [failures, List.filterMap_cons, he, Option.map_none', mapKeys] at ih ⊢
      exact ih.cons _
    | some e =>
      simp only [failures, List.filterMap_cons, he, Option.map_some', mapKeys,
        List.map_cons] at ih ⊢
      exact ih.cons₂ _

/-! ## The registry -/

theorem NewRegistry_WF : NewRegistry.WF := by
  simp [Registry.WF, NewRegistry, mapKeys]

theorem Register_WF (r : Registry) (s : Source) (h : r.WF) : (r.Register s).WF := by
  refine ⟨mapKeys_mapSet_nodup _ _ _ h.1, ?_⟩
  intro p hp
  rcases mem_mapSet _ _ _ _ hp with h1 | h1
  · rw [h1]
  · exact h.2 p h1

theorem foldl_Register_WF (ps : List Source) (r : Registry) (h : r.WF) :
    (ps.foldl Registry.Register r).WF := by
  induction ps generalizing r with
  | nil => exact h
  | cons s ps ih => exact ih _ (Register_WF r s h)

theorem registryOf_WF (ps : List Source) : (registryOf ps).WF :=
  foldl_Register_WF ps _ NewRegistry_WF

theorem mapGet_mem {β : Type} (m : List (String × β)) (k : String) (v : β)
    (h : mapGet m k = some v) : (k, v) ∈ m := by
  induction m with
  | nil => cases h
  | cons p m ih =>
    obtain ⟨a, b⟩ := p
    by_cases hk : a = k
    · simp only [mapGet, hk, if_true, Option.some.injEq] at h
      rw [hk, h]; exact List.mem_cons_self _ _
    · simp only [mapGet, hk, if_false] at h
      exact List.mem_cons_of_mem _ (ih h)

theorem Get_ID (r : Registry) (h : r.WF) (id : String) (s : Source)
    (hg : r.Get id = some s) : s.ID = id :=
  h.2 (id, s) (mapGet_mem _ _ _ hg)

theorem Get_mem_List (r : Registry) (id : String) (s : Source)
    (hg : r.Get id = some s) : s ∈ r.List :=
  List.mem_map.2 ⟨(id, s), mapGet_mem _ _ _ hg, rfl⟩

theorem List_ID_nodup (r : Registry) (h : r.WF) : (r.List.map (fun s => s.ID)).Nodup := by
  have : r.List.map (fun s => s.ID) = mapKeys r.sources := by
    simp only [Registry.List, mapKeys, List.map_map]
    apply List.map_congr_left
    intro p hp
    exact h.2 p hp
  rw [this]; exact h.1

theorem Get_none_not_mem (r : Registry) (h : r.WF) (id : String) (hg : r.Get id = none) :
    ∀ s ∈ r.List, s.ID ≠ id := by
  intro s hs hid
  obtain ⟨p, hp, hps⟩ := List.mem_map.1 hs
  have hk : id ∈ mapKeys r.sources := by
    refine List.mem_map.2 ⟨p, hp, ?_⟩
    rw [← h.2 p hp, hps, hid]
  have := (mapGet_isSome_iff r.sources id).2 hk
  simp only [Registry.Get] at hg
  rw [hg] at this; cases this

/-! ## Results in launch order -/

theorem launchResults_goSearch (env : Env) (ctx : Context) (keyword : String)
    (opts : SearchOptions) (l : List Source) (k : Nat) :
    launchResults (goSearch env ctx keyword opts) l k =
      (l.enumFrom k).map (fun p => callResult env ctx keyword opts p.1 p.2) := by
  induction l generalizing k with
  | nil => rfl
  | cons s l ih =>
    simp only [launchResults, goSearch, List.enumFrom_cons, List.map_cons, callResult,
      Dispatch.res, ih]

theorem launchCalls_goSearch (env : Env) (ctx : Context) (keyword : String)
    (opts : SearchOptions) (l : List Source) (k : Nat) :
    launchCalls (goSearch env ctx keyword opts) l k =
      l.map (fun s => { sourceID := s.ID, ctx := WithTimeout ctx (timeout opts),
                        keyword := keyword, opts := opts }) := by
  induction l generalizing k with
  | nil => rfl
  | cons s l ih =>
    simp only [launchCalls, goSearch, List.map_cons, ih]

theorem launchResults_goSearch_ids (env : Env) (ctx : Context) (keyword : String)
    (opts : SearchOptions) (l : List Source) (k : Nat) :
    (launchResults (goSearch env ctx keyword opts) l k).map (fun res => res.sourceID) =
      l.map (fun s => s.ID) := by
  induction l generalizing k with
  | nil => rfl
  | cons s l ih =>
    simp only [launchResults, goSearch, List.map_cons, ih]

theorem launchResults_lookup_ids (r : Registry) (h : r.WF) (env : Env) (ctx : Context)
    (keyword : String) (opts : SearchOptions) (ids : List String) (k : Nat) :
    (launchResults (lookupSearch r env ctx keyword opts) ids k).map
      (fun res => res.sourceID) = ids := by
  induction ids generalizing k with
  | nil => rfl
  | cons id ids ih =>
    cases hg : r.Get id with
    | none => simp only [launchResults, lookupSearch, hg, List.map_cons, ih]
    | some s =>
      simp only [launchResults, lookupSearch, hg, goSearch, List.map_cons, ih,
        Get_ID r h id s hg]

theorem launchCalls_lookup_ids (r : Registry) (h : r.WF) (env : Env) (ctx : Context)
    (keyword : String) (opts : SearchOptions) (ids : List String) (k : Nat) :
    (launchCalls (lookupSearch r env ctx keyword opts) ids k).map
      (fun c => c.sourceID) = ids.filter (fun id => (r.Get id).isSome) := by
  induction ids generalizing k with
  | nil => rfl
  | cons id ids ih =>
    cases hg : r.Get id with
    | none => simp [launchCalls, lookupSearch, hg, ih, List.filter_cons]
    | some s =>
      simp [launchCalls, lookupSearch, hg, goSearch, ih, List.filter_cons,
        Get_ID r h id s hg]

theorem searchAllFanout_spec (r : Registry) (env : Env) (ctx : Context) (keyword : String)
    (opts : SearchOptions) :
    (searchAllFanout r env ctx keyword opts).resultCh.Perm
      (r.List.enum.map (fun p => callResult env ctx keyword opts p.1 p.2)) ∧
    (searchAllFanout r env ctx keyword opts).calls =
      r.List.map (fun s => { sourceID := s.ID, ctx := WithTimeout ctx (timeout opts),
                             keyword := keyword, opts := opts }) := by
  obtain ⟨h1, _, h3⟩ := fanout_spec (goSearch env ctx keyword opts) env.sched r.List
    ⟨[], [], 0, []⟩
  refine ⟨?_, ?_⟩
  · simpa [searchAllFanout, launchResults_goSearch, List.enum] using h1
  · simpa [searchAllFanout, launchCalls_goSearch] using h3

theorem searchSourcesFanout_spec (r : Registry) (env : Env) (ctx : Context)
    (keyword : String) (ids : List String) (opts : SearchOptions) :
    (searchSourcesFanout r env ctx keyword ids opts).resultCh.Perm
      (launchResults (lookupSearch r env ctx keyword opts) ids 0) ∧
    (searchSourcesFanout r env ctx keyword ids opts).calls =
      launchCalls (lookupSearch r env ctx keyword opts) ids 0 := by
  obtain ⟨h1, _, h3⟩ := fanout_spec (lookupSearch r env ctx keyword opts) env.sched ids
    ⟨[], [], 0, []⟩
  exact ⟨by simpa [searchSourcesFanout] using h1, by simpa [searchSourcesFanout] using h3⟩

/-! ## Claims on the deduplication -/

/-- C1. `DeduplicateMemes` is idempotent: deduplicating an already deduplicated list, empty
or not, changes nothing. -/
theorem DeduplicateMemes_idempotent (x : List Meme) :
    DeduplicateMemes (DeduplicateMemes x) = DeduplicateMemes x := by
  rw [DeduplicateMemes_eq, DeduplicateMemes_eq, dedupFrom_idem]

/-- C2. The output of `DeduplicateMemes` is a subsequence of its input (elements of the
input, in the same relative order), hence never longer than the input. -/
theorem DeduplicateMemes_subsequence (x : List Meme) :
    (DeduplicateMemes x).Sublist x ∧ (DeduplicateMemes x).length ≤ x.length := by
  rw [DeduplicateMemes_eq]
  exact ⟨dedupFrom_sublist x [], (dedupFrom_sublist x []).length_le⟩

theorem kept_iff_index (x : List Meme) (i : Nat) (m : Meme) :
    ((x.take i).all (fun m' => keyOf m' != keyOf m)) = true ↔
      ∀ j m', j < i → x[j]? = some m' → keyOf m' ≠ keyOf m := by
  simp only [List.all_eq_true, bne_iff_ne]
  constructor
  · intro h j m' hj hm'
    apply h
    rw [List.mem_iff_getElem?]
    exact ⟨j, by rw [List.getElem?_take_of_lt hj]; exact hm'⟩
  · intro h m' hm'
    rw [List.mem_iff_getElem?] at hm'
    obtain ⟨j, hj⟩ := hm'
    by_cases hji : j < i
    · rw [List.getElem?_take_of_lt hji] at hj
      exact h j m' hji hj
    · rw [List.getElem?_take_eq_none (Nat.le_of_not_lt hji)] at hj; cases hj

/-- C3. First occurrence wins: `DeduplicateMemes x` consists, in order, of the elements of
`x` at the indices `i` such that no element at an index `j < i` has the same key; the keys of
the output are pairwise distinct and every key occurring in `x` occurs in the output exactly
once. -/
theorem DeduplicateMemes_first_occurrence (x : List Meme) :
    DeduplicateMemes x =
      (x.enum.filter (fun p => (x.take p.1).all (fun m' => keyOf m' != keyOf p.2))).map
        Prod.snd ∧
    (∀ i m, x[i]? = some m →
      (((x.take i).all (fun m' => keyOf m' != keyOf m)) = true ↔
        ∀ j m', j < i → x[j]? = some m' → ExtractURLKey m'.URL ≠ ExtractURLKey m.URL)) ∧
    ((DeduplicateMemes x).map (fun m => ExtractURLKey m.URL)).Nodup ∧
    ∀ m ∈ x, ((DeduplicateMemes x).map (fun m => ExtractURLKey m.URL)).count
      (ExtractURLKey m.URL) = 1 := by
  have hn : ((DeduplicateMemes x).map keyOf).Nodup := by
    rw [DeduplicateMemes_eq]; exact dedupFrom_keys_nodup x []
  refine ⟨DeduplicateMemes_eq_firstOccurrences x, fun i m _ => kept_iff_index x i m, hn, ?_⟩
  intro m hm
  apply List.count_eq_one_of_mem hn
  have := dedupFrom_keys_cover x [] m hm
  rw [DeduplicateMemes_eq]
  simpa using this

/-! ## Claims on the key -/

theorem MD5_Sum_length (msg : List Nat) : (MD5.Sum msg).length = 16 := by
  simp [MD5.Sum, MD5.le32]

theorem hexDigit_mem (n : Nat) (h : n < 16) : hexDigit n ∈ "0123456789abcdef".data := by
  interval_cases n <;> decide

theorem hexEncodeToString_length (bs : List Nat) :
    (hexEncodeToString bs).length = 2 * bs.length := by
  simp only [hexEncodeToString, String.length_mk]
  induction bs with
  | nil => rfl
  | cons b bs ih => simp [List.flatMap_cons, ih]; omega

theorem hexEncodeToString_chars (bs : List Nat) :
    ∀ c ∈ (hexEncodeToString bs).data, c ∈ "0123456789abcdef".data := by
  intro c hc
  simp only [hexEncodeToString, List.mem_flatMap, List.mem_cons, List.mem_singleton,
    List.not_mem_nil, or_false] at hc
  obtain ⟨b, _, h | h⟩ := hc
  · rw [h]; exact hexDigit_mem _ (Nat.mod_lt _ (by decide))
  · rw [h]; exact hexDigit_mem _ (Nat.mod_lt _ (by decide))

set_option maxRecDepth 100000 in
/-- The digests of the empty message and of `abc` given in RFC 1321. -/
theorem MD5_test_vectors :
    hexEncodeToString (MD5.Sum (bytesOf "")) = "d41d8cd98f00b204e9800998ecf8427e" ∧
    hexEncodeToString (MD5.Sum (bytesOf "abc")) = "900150983cd24fb0d6963f7d28e17f72" := by
  decide

set_option maxRecDepth 100000 in
/-- The key of a douyin URL is its content ID, the key of another URL its MD5. -/
theorem ExtractURLKey_examples :
    ExtractURLKey "https://p3.dy.com/tos-cn-i-0813/abc123~tplv.webp" = "abc123" ∧
    ExtractURLKey "https://x/tos-cn-i-//tos-cn-i-b/ID?" = "ID" ∧
    ExtractURLKey "https://img.sg.com/cat.gif" = "0b02607098e18a1a9bd9a3207aef3a67" := by
  decide

theorem ExtractURLKey_of_some (url : String) (w g : List Char)
    (h : findFrom douyinURLPattern url.data = some (w, g)) :
    ExtractURLKey url = String.mk g := by
  simp [ExtractURLKey, FindStringSubmatch, h]

theorem ExtractURLKey_of_none (url : String)
    (h : findFrom douyinURLPattern url.data = none) :
    ExtractURLKey url = hexEncodeToString (MD5.Sum (bytesOf url)) := by
  simp [ExtractURLKey, FindStringSubmatch, h]

theorem ExtractURLKey_cases (url : String) :
    (HasMatch url.data →
      ∃ p b g r, url.data = p ++ (tosLit ++ b ++ '/' :: g ++ r) ∧
        b ≠ [] ∧ '/' ∉ b ∧ g ≠ [] ∧ (∀ c ∈ g, c ∉ stops) ∧
        (∀ c, r.head? = some c → c ∈ stops) ∧
        (∀ p' t', url.data = p' ++ t' → p'.length < p.length → ¬ MatchStart t') ∧
        ExtractURLKey url = String.mk g) ∧
    (¬ HasMatch url.data →
      ExtractURLKey url = hexEncodeToString (MD5.Sum (bytesOf url))) ∧
    (hexEncodeToString (MD5.Sum (bytesOf url))).length = 32 ∧
    (∀ c ∈ (hexEncodeToString (MD5.Sum (bytesOf url))).data,
      c ∈ "0123456789abcdef".data) ∧
    ExtractURLKey url ≠ "" := by
  have hlen : (hexEncodeToString (MD5.Sum (bytesOf url))).length = 32 := by
    rw [hexEncodeToString_length, MD5_Sum_length]
  have hmatch : HasMatch url.data →
      ∃ p b g r, url.data = p ++ (tosLit ++ b ++ '/' :: g ++ r) ∧
        b ≠ [] ∧ '/' ∉ b ∧ g ≠ [] ∧ (∀ c ∈ g, c ∉ stops) ∧
        (∀ c, r.head? = some c → c ∈ stops) ∧
        (∀ p' t', url.data = p' ++ t' → p'.length < p.length → ¬ MatchStart t') ∧
        ExtractURLKey url = String.mk g := by
    intro hm
    cases hf : findFrom douyinURLPattern url.data with
    | none => exact absurd hm ((findFrom_none_iff _).1 hf)
    | some res =>
      obtain ⟨w, g⟩ := res
      obtain ⟨p, t, hpt, hmt, hleft⟩ := findFrom_some _ _ hf
      obtain ⟨b, r, ht, hb, hb2, hg, hg2, hr, _⟩ := matchHere_sound t w g hmt
      exact ⟨p, b, g, r, by rw [hpt, ht], hb, hb2, hg, hg2, hr, hleft,
        ExtractURLKey_of_some url w g hf⟩
  refine ⟨hmatch, ?_, hlen, hexEncodeToString_chars _, ?_⟩
  · intro hm
    exact ExtractURLKey_of_none url ((findFrom_none_iff _).2 hm)
  · by_cases hm : HasMatch url.data
    · obtain ⟨p, b, g, r, _, _, _, hg, _, _, _, hk⟩ := hmatch hm
      rw [hk]
      intro c
      exact hg (congrArg String.data c)
    · rw [ExtractURLKey_of_none url ((findFrom_none_iff _).2 hm)]
      intro c
      rw [c] at hlen
      cases hlen

set_option maxRecDepth 1000000 in
/-- C5. Key derivation. When the pattern `/tos-cn-i-[^/]+/([^/~?]+)` matches in the URL, the
key is the capture group of the leftmost match, taken greedily: the URL is
`p ++ "/tos-cn-i-" ++ b ++ "/" ++ g ++ r` with `g` the key, `b` and `g` non-empty, no `/` in
`b`, none of `/`, `~`, `?` in `g`, `r` empty or starting with one of them, and no match
starting before `p` ends. When the pattern does not match, the key is the hexadecimal MD5
digest of the UTF-8 bytes of the URL: that digest has 32 characters, all lowercase
hexadecimal digits, and on the seven messages of the test suite of RFC 1321 and on two URLs
with characters of two, three and four bytes the key is the digest `md5.Sum` gives. The key
is never empty. -/
theorem ExtractURLKey_spec (url : String) :
    (HasMatch url.data →
      ∃ p b g r, url.data = p ++ (tosLit ++ b ++ '/' :: g ++ r) ∧
        b ≠ [] ∧ '/' ∉ b ∧ g ≠ [] ∧ (∀ c ∈ g, c ∉ stops) ∧
        (∀ c, r.head? = some c → c ∈ stops) ∧
        (∀ p' t', url.data = p' ++ t' → p'.length < p.length → ¬ MatchStart t') ∧
        ExtractURLKey url = String.mk g) ∧
    (¬ HasMatch url.data →
      ExtractURLKey url = hexEncodeToString (MD5.Sum (bytesOf url))) ∧
    (hexEncodeToString (MD5.Sum (bytesOf url))).length = 32 ∧
    (∀ c ∈ (hexEncodeToString (MD5.Sum (bytesOf url))).data,
      c ∈ "0123456789abcdef".data) ∧
    ExtractURLKey url ≠ "" ∧
    ExtractURLKey "" = "d41d8cd98f00b204e9800998ecf8427e" ∧
    ExtractURLKey "a" = "0cc175b9c0f1b6a831c399e269772661" ∧
    ExtractURLKey "abc" = "900150983cd24fb0d6963f7d28e17f72" ∧
    ExtractURLKey "message digest" = "f96b697d7cb7938d525a2f31aaf161d0" ∧
    ExtractURLKey "abcdefghijklmnopqrstuvwxyz" = "c3fcd3d76192e4007dfb496cca67e13b" ∧
    ExtractURLKey "ABCDEFGHIJKLMNOPQRSTUVWXYZabcdefghijklmnopqrstuvwxyz0123456789" =
      "d174ab98d277d9f5a5611c2c9f419d9f" ∧
    ExtractURLKey
        "12345678901234567890123456789012345678901234567890123456789012345678901234567890" =
      "57edf4a22be3c955ac49da2e2107b67a" ∧
    ExtractURLKey "https://a.b/猫.gif" = "006df3f703ce0de3e44f90970d4029fa" ∧
    ExtractURLKey "https://a.b/é😀.png" = "779abca4f771f0ca761b4308153d5d18" := by
  obtain ⟨h1, h2, h3, h4, h5⟩ := ExtractURLKey_cases url
  exact ⟨h1, h2, h3, h4, h5, by decide, by decide, by decide, by decide, by decide,
    by decide, by decide, by decide, by decide⟩

theorem prefix_of_append_cons (t A R : List Char) (c : Char) (hc : c ∉ t)
    (h : t <+: A ++ c :: R) : t <+: A := by
  induction t generalizing A with
  | nil => exact List.nil_prefix
  | cons y t ih =>
    cases A with
    | nil =>
      rw [List.nil_append, List.cons_prefix_cons] at h
      exact absurd (List.mem_cons.2 (Or.inl h.1.symm)) hc
    | cons a A =>
      rw [List.cons_append, List.cons_prefix_cons] at h
      rw [List.cons_prefix_cons]
      exact ⟨h.1, ih A (fun c' => hc (List.mem_cons_of_mem _ c')) h.2⟩

theorem tosLit_not_prefix (x : Char) (P R : List Char) (h : ¬ tosLit <:+: x :: P) :
    ¬ tosLit <+: (x :: P) ++ (tosLit ++ R) := by
  intro c
  have ht : tosLit = '/' :: "tos-cn-i-".data := rfl
  rw [ht, List.cons_append, List.cons_prefix_cons, List.cons_append] at c
  have h1 := prefix_of_append_cons "tos-cn-i-".data P _ '/' (by decide) c.2
  apply h
  rw [ht, c.1]
  exact ((List.cons_prefix_cons).2 ⟨rfl, h1⟩).isInfix

theorem findFrom_shape (P B ID S : List Char) (hP : ¬ tosLit <:+: P) (hB : B ≠ [])
    (hB2 : '/' ∉ B) (hID : ID ≠ []) (hID2 : ∀ c ∈ ID, c ∉ stops)
    (hS : ∀ c, S.head? = some c → c ∈ stops) :
    findFrom douyinURLPattern (P ++ (tosLit ++ B ++ '/' :: ID ++ S)) =
      some (tosLit ++ B ++ '/' :: ID, ID) := by
  have hS2 : S.takeWhile (notIn stops) = [] := by
    cases S with
    | nil => rfl
    | cons c S =>
      have := hS c rfl
      exact List.takeWhile_cons_of_neg (fun hn => (notIn_iff _ _).1 hn this)
  have hhere : matchHere douyinURLPattern (tosLit ++ B ++ '/' :: ID ++ S) =
      some (tosLit ++ B ++ '/' :: ID, ID) := by
    have hp : tosLit <+: tosLit ++ B ++ '/' :: ID ++ S := by
      rw [List.append_assoc, List.append_assoc]; exact List.prefix_append _ _
    have hd : (tosLit ++ B ++ '/' :: ID ++ S).drop tosLit.length = B ++ '/' :: ID ++ S := by
      rw [List.append_assoc, List.append_assoc, List.drop_left, List.append_assoc]
    rw [matchHere_douyin, if_pos hp, hd, tailMatch_shape B ID S hB hB2 hID hID2, hS2]
    simp
  induction P with
  | nil => exact findFrom_of_matchHere _ _ _ hhere
  | cons x P ih =>
    have hnone : matchHere douyinURLPattern ((x :: P) ++ (tosLit ++ B ++ '/' :: ID ++ S)) =
        none := by
      rw [matchHere_douyin, if_neg]
      have := tosLit_not_prefix x P (B ++ '/' :: ID ++ S) hP
      simpa [List.append_assoc] using this
    rw [List.cons_append] at hnone ⊢
    rw [findFrom_cons_none _ _ _ hnone]
    exact ih (fun c => hP (c.trans (List.suffix_cons x P).isInfix))

theorem ExtractURLKey_shape (url P B ID S : String)
    (hurl : url = P ++ "/tos-cn-i-" ++ B ++ "/" ++ ID ++ S)
    (hP : ¬ "/tos-cn-i-".data <:+: P.data) (hB : B ≠ "") (hB2 : '/' ∉ B.data)
    (hID : ID ≠ "") (hID2 : ∀ c ∈ ID.data, c ≠ '/' ∧ c ≠ '~' ∧ c ≠ '?')
    (hS : S = "" ∨ ∃ c, S.data.head? = some c ∧ (c = '/' ∨ c = '~' ∨ c = '?')) :
    ExtractURLKey url = ID := by
  have hdata : url.data = P.data ++ (tosLit ++ B.data ++ '/' :: ID.data ++ S.data) := by
    rw [hurl]
    simp only [String.data_append, List.append_assoc, tosLit]
    rfl
  have hB' : B.data ≠ [] := fun c => hB (String.ext c)
  have hID' : ID.data ≠ [] := fun c => hID (String.ext c)
  have hID2' : ∀ c ∈ ID.data, c ∉ stops := by
    intro c hc
    have := hID2 c hc
    simp only [stops, List.mem_cons, List.mem_singleton, List.not_mem_nil, or_false]
    tauto
  have hS' : ∀ c, S.data.head? = some c → c ∈ stops := by
    intro c hc
    rcases hS with hS | ⟨d, hd, hd2⟩
    · rw [hS] at hc; cases hc
    · rw [hd] at hc
      have : d = c := Option.some.inj hc
      subst this
      simp only [stops, List.mem_cons, List.mem_singleton, List.not_mem_nil, or_false]
      exact hd2
  have := findFrom_shape P.data B.data ID.data S.data hP hB' hB2 hID' hID2' hS'
  rw [← hdata] at this
  rw [ExtractURLKey_of_some url _ _ this]

theorem fanout_nil_resultCh {α : Type} (body : Nat → α → Dispatch) (picks : List Nat) :
    (fanout body picks [] ⟨[], [], 0, []⟩).resultCh = [] := by
  have := (fanout_spec body picks [] ⟨[], [], 0, []⟩).1
  simpa [launchResults] using this

theorem SearchAll_eq_report (r : Registry) (env : Env) (ctx : Context) (keyword : String)
    (opts : SearchOptions) :
    r.SearchAll env ctx keyword opts =
      report env (searchAllFanout r env ctx keyword opts).resultCh := by
  unfold Registry.SearchAll
  by_cases h : r.List.length = 0
  · have hl : r.List = [] := List.length_eq_zero.1 h
    simp only [h, if_true, searchAllFanout, hl, fanout_nil_resultCh]
    rfl
  · simp only [h, if_false]

theorem SearchAllCalls_eq (r : Registry) (env : Env) (ctx : Context) (keyword : String)
    (opts : SearchOptions) :
    r.SearchAllCalls env ctx keyword opts =
      (searchAllFanout r env ctx keyword opts).calls := by
  unfold Registry.SearchAllCalls
  by_cases h : r.List.length = 0
  · have hl : r.List = [] := List.length_eq_zero.1 h
    have := (fanout_spec (goSearch env ctx keyword opts) env.sched [] ⟨[], [], 0, []⟩).2.2
    simp only [h, if_true, searchAllFanout, hl, this]
    rfl
  · simp only [h, if_false]

theorem registryOf_singleton (s : Source) : (registryOf [s]).List = [s] := rfl

/-- C4. CDN-mirror collapse: two memes whose URLs are
`P ++ "/tos-cn-i-" ++ B ++ "/" ++ ID ++ S` with the same `ID` (non-empty, without `/`, `~`,
`?`), buckets `B` non-empty without `/`, prefixes `P` free of `/tos-cn-i-` and suffixes `S`
empty or starting with `/`, `~` or `?` both have the key `ID`; `DeduplicateMemes [a, b]` is
`[a]`, and the report of a registry whose only provider returns these two items has
total 1. -/
theorem cdn_mirror_collapse (a b : Meme) (ID P B S P' B' S' : String)
    (ha : a.URL = P ++ "/tos-cn-i-" ++ B ++ "/" ++ ID ++ S)
    (hb : b.URL = P' ++ "/tos-cn-i-" ++ B' ++ "/" ++ ID ++ S')
    (hID : ID ≠ "") (hID2 : ∀ c ∈ ID.data, c ≠ '/' ∧ c ≠ '~' ∧ c ≠ '?')
    (hB : B ≠ "") (hB2 : '/' ∉ B.data) (hB' : B' ≠ "") (hB2' : '/' ∉ B'.data)
    (hP : ¬ "/tos-cn-i-".data <:+: P.data) (hP' : ¬ "/tos-cn-i-".data <:+: P'.data)
    (hS : S = "" ∨ ∃ c, S.data.head? = some c ∧ (c = '/' ∨ c = '~' ∨ c = '?'))
    (hS' : S' = "" ∨ ∃ c, S'.data.head? = some c ∧ (c = '/' ∨ c = '~' ∨ c = '?')) :
    ExtractURLKey a.URL = ID ∧ ExtractURLKey b.URL = ID ∧
    DeduplicateMemes [a, b] = [a] ∧
    ∀ s : Source, (∀ n c k o, s.Search n c k o = ⟨[a, b], none⟩) →
      ∀ env ctx keyword opts,
        ((registryOf [s]).SearchAll env ctx keyword opts).Memes = [a] ∧
        ((registryOf [s]).SearchAll env ctx keyword opts).Total = 1 := by
  have ka := ExtractURLKey_shape a.URL P B ID S ha hP hB hB2 hID hID2 hS
  have kb := ExtractURLKey_shape b.URL P' B' ID S' hb hP' hB' hB2' hID hID2 hS'
  have hd : DeduplicateMemes [a, b] = [a] := by
    rw [DeduplicateMemes_eq]
    simp [dedupFrom, keyOf, ka, kb]
  refine ⟨ka, kb, hd, ?_⟩
  intro s hs env ctx keyword opts
  have hch := (searchAllFanout_spec (registryOf [s]) env ctx keyword opts).1
  rw [registryOf_singleton] at hch
  simp only [List.enum, List.enumFrom_cons, List.enumFrom_nil, List.map_cons, List.map_nil,
    List.perm_singleton] at hch
  rw [SearchAll_eq_report, hch, report_eq]
  simp [succeeded, callResult, goSearch, Dispatch.res, hs, hd]

/-- Witness of C4 on two mirror URLs of the sticker `abc123`. -/
theorem cdn_mirror_collapse_witness :
    ExtractURLKey mirrorA.URL = "abc123" ∧ ExtractURLKey mirrorB.URL = "abc123" ∧
    DeduplicateMemes [mirrorA, mirrorB] = [mirrorA] :=
  have h := cdn_mirror_collapse mirrorA mirrorB "abc123"
    "https://p3.dy.com" "0813" "~tplv.webp" "https://p9.dy.com/obj" "0813c001" "?x=1"
    (by decide) (by decide) (by decide) (by decide) (by decide) (by decide) (by decide)
    (by decide) (by decide) (by decide)
    (Or.inr ⟨'~', by decide, by decide⟩) (Or.inr ⟨'?', by decide, by decide⟩)
  ⟨h.1, h.2.1, h.2.2.1⟩

/-! ## Claims on the aggregator -/

theorem fanout_launch_all {α : Type} (body : Nat → α → Dispatch) (picks : List Nat)
    (todo : List α) (st : Fanout) :
    fanout body (List.replicate todo.length 0 ++ picks) todo st =
      fanout body picks [] (todo.foldl (fun st a => st.apply (body st.launched a)) st) := by
  induction todo generalizing st with
  | nil => rfl
  | cons a todo ih =>
    rw [List.length_cons, List.replicate_succ, List.cons_append]
    simp only [fanout, List.foldl_cons]
    exact ih _

theorem foldl_goSearch_state (env : Env) (ctx : Context) (keyword : String)
    (opts : SearchOptions) (l : List Source) (st : Fanout) :
    (l.foldl (fun st a => st.apply (goSearch env ctx keyword opts st.launched a)) st).running =
      st.running ++ launchResults (goSearch env ctx keyword opts) l st.launched ∧
    (l.foldl (fun st a => st.apply (goSearch env ctx keyword opts st.launched a)) st).resultCh =
      st.resultCh := by
  induction l generalizing st with
  | nil => simp [launchResults]
  | cons s l ih =>
    obtain ⟨h1, h2⟩ := ih (st.apply (goSearch env ctx keyword opts st.launched s))
    rw [List.foldl_cons, h1, h2]
    simp [goSearch, Fanout.apply, launchResults]

theorem complete_of_get (st : Fanout) (n : Nat) (a : sourceResult)
    (h : st.running.get? n = some a) :
    st.complete n =
      { st with running := st.running.eraseIdx n, resultCh := st.resultCh ++ [a] } := by
  unfold Fanout.complete
  rw [h]

theorem fanout_any_order {α : Type} (body : Nat → α → Dispatch) (σ : List sourceResult)
    (st : Fanout) (h : σ.Perm st.running) :
    ∃ picks, (fanout body picks [] st).resultCh = st.resultCh ++ σ := by
  induction σ generalizing st with
  | nil =>
    refine ⟨[], ?_⟩
    have : st.running = [] := List.perm_nil.1 h.symm
    simp [fanout, Fanout.wait, this]
  | cons a σ ih =>
    have ha : a ∈ st.running := h.subset (List.mem_cons_self _ _)
    obtain ⟨n, hn⟩ := List.mem_iff_get?.1 ha
    have hp := perm_cons_eraseIdx st.running n a hn
    have hσ : σ.Perm (st.complete n).running := by
      have h1 : (a :: σ).Perm (a :: st.running.eraseIdx n) :=
        h.trans (hp.symm.trans List.perm_append_comm)
      rw [complete_of_get st n a hn]
      exact h1.cons_inv
    obtain ⟨picks, hpicks⟩ := ih (st.complete n) hσ
    refine ⟨(n + 1) :: picks, ?_⟩
    simp only [fanout, hpicks]
    rw [complete_of_get st n a hn]
    simp

theorem searchAllFanout_any_order (r : Registry) (env : Env) (ctx : Context)
    (keyword : String) (opts : SearchOptions) (σ : List sourceResult)
    (h : σ.Perm (r.List.enum.map (fun p => callResult env ctx keyword opts p.1 p.2))) :
    ∃ sched, (searchAllFanout r { env with sched := sched } ctx keyword opts).resultCh = σ := by
  obtain ⟨h1, h2⟩ := foldl_goSearch_state env ctx keyword opts r.List ⟨[], [], 0, []⟩
  have hσ : σ.Perm (r.List.foldl
      (fun (st : Fanout) a => st.apply (goSearch env ctx keyword opts st.launched a))
      ⟨[], [], 0, []⟩).running := by
    rw [h1, launchResults_goSearch]
    simpa [List.enum] using h
  obtain ⟨picks, hpicks⟩ := fanout_any_order (goSearch env ctx keyword opts) σ _ hσ
  refine ⟨List.replicate r.List.length 0 ++ picks, ?_⟩
  have hgo : goSearch { env with sched := List.replicate r.List.length 0 ++ picks }
      ctx keyword opts = goSearch env ctx keyword opts := rfl
  simp only [searchAllFanout, hgo, fanout_launch_all, hpicks, h2, List.nil_append]

theorem resultCh_ids_nodup (r : Registry) (h : r.WF) (env : Env) (ctx : Context)
    (keyword : String) (opts : SearchOptions) :
    ((searchAllFanout r env ctx keyword opts).resultCh.map (fun res => res.sourceID)).Nodup := by
  have hp := ((searchAllFanout_spec r env ctx keyword opts).1).map (fun res => res.sourceID)
  refine hp.nodup_iff.2 ?_
  have := launchResults_goSearch_ids env ctx keyword opts r.List 0
  rw [launchResults_goSearch] at this
  rw [List.enum, this]
  exact List_ID_nodup r h

theorem errors_iff_of_nodup (ch : List sourceResult)
    (h : (ch.map (fun res => res.sourceID)).Nodup) (id msg : String) :
    mapGet (mapSetAll [] (failures ch)) id = some msg ↔
      ∃ res ∈ ch, res.sourceID = id ∧ res.err = some msg := by
  rw [mapGet_mapSetAll_nodup _ ((mapKeys_failures_sublist ch).nodup h), mem_failures]

theorem registryOf_pair (A B : Source) (h : A.ID ≠ B.ID) : (registryOf [A, B]).List = [A, B] := by
  simp [registryOf, Registry.Register, NewRegistry, mapSet, Registry.List, h]

/-- C6. The report of `SearchAll` equals its reference definition. With `ch` the results in
the order of completion: `ch` holds one result per registered provider; `Sources` lists the
identifiers of the successes in that order (a success without items included); `Errors` maps
exactly the identifiers of the failed providers to their messages; `Memes` is
`DeduplicateMemes` of the concatenated items of the successes; `Total` is the length of
`Memes`. Every order of completion is produced by some schedule. With `A` returning two
items of distinct keys and `B` failing: total 2, sources `[A]`, errors `{B: message}`. -/
theorem SearchAll_report (ps : List Source) (env : Env) (ctx : Context) (keyword : String)
    (opts : SearchOptions) :
    ((searchAllFanout (registryOf ps) env ctx keyword opts).resultCh.Perm
      ((registryOf ps).List.enum.map (fun p => callResult env ctx keyword opts p.1 p.2))) ∧
    ((registryOf ps).SearchAll env ctx keyword opts).Sources =
      (succeeded (searchAllFanout (registryOf ps) env ctx keyword opts).resultCh).map
        (fun res => res.sourceID) ∧
    (∀ id msg, mapGet ((registryOf ps).SearchAll env ctx keyword opts).Errors id = some msg ↔
      ∃ res ∈ (searchAllFanout (registryOf ps) env ctx keyword opts).resultCh,
        res.sourceID = id ∧ res.err = some msg) ∧
    ((registryOf ps).SearchAll env ctx keyword opts).Memes =
      DeduplicateMemes
        ((succeeded (searchAllFanout (registryOf ps) env ctx keyword opts).resultCh).flatMap
          (fun res => res.memes)) ∧
    ((registryOf ps).SearchAll env ctx keyword opts).Total =
      ((registryOf ps).SearchAll env ctx keyword opts).Memes.length ∧
    (∀ σ : List sourceResult,
      σ.Perm ((registryOf ps).List.enum.map
        (fun p => callResult env ctx keyword opts p.1 p.2)) →
      ∃ sched, (searchAllFanout (registryOf ps) { env with sched := sched } ctx keyword
        opts).resultCh = σ) ∧
    (∀ (A B : Source) (m1 m2 : Meme) (msg : String), A.ID ≠ B.ID →
      ExtractURLKey m1.URL ≠ ExtractURLKey m2.URL →
      (∀ n c k o, A.Search n c k o = ⟨[m1, m2], none⟩) →
      (∀ n c k o, (B.Search n c k o).err = some msg) →
      (registryOf [A, B]).SearchAll env ctx keyword opts =
        { Memes := [m1, m2], Sources := [A.ID], Errors := [(B.ID, msg)], Total := 2,
          DurationMs := (env.elapsed : Int) / 1000000 }) := by
  refine ⟨(searchAllFanout_spec _ env ctx keyword opts).1, ?_, ?_, ?_, ?_,
    searchAllFanout_any_order _ env ctx keyword opts, ?_⟩
  · rw [SearchAll_eq_report, report_eq]
  · intro id msg
    rw [SearchAll_eq_report, report_eq]
    exact errors_iff_of_nodup _
      (resultCh_ids_nodup _ (registryOf_WF ps) env ctx keyword opts) id msg
  · rw [SearchAll_eq_report, report_eq]
  · rw [SearchAll_eq_report, report_eq]
  · intro A B m1 m2 msg hne hkey hA hB
    have hch := (searchAllFanout_spec (registryOf [A, B]) env ctx keyword opts).1
    rw [registryOf_pair A B hne] at hch
    have hs := succeeded_perm hch
    have hf := failures_perm hch
    simp only [List.enum, List.enumFrom_cons, List.enumFrom_nil, List.map_cons, List.map_nil,
      succeeded, failures, callResult, goSearch, Dispatch.res, hA, hB, List.filter_cons,
      List.filterMap_cons, Option.isNone_none, Option.isNone_some, if_true,
      Option.map_none', Option.map_some', List.filter_nil, List.filterMap_nil,
      Bool.false_eq_true, if_false, List.perm_singleton] at hs hf
    have hd : DeduplicateMemes [m1, m2] = [m1, m2] := by
      rw [DeduplicateMemes_eq]
      simp [dedupFrom, keyOf, hkey.symm]
    rw [SearchAll_eq_report, report_eq]
    simp only [succeeded, failures, hs, hf]
    simp [mapSetAll, mapSet, hd]

/-- C7. `SearchSources` with an empty list of identifiers returns the report of `SearchAll`
on the same registry, keyword, options and run, and makes the same provider calls. -/
theorem SearchSources_empty (r : Registry) (env : Env) (ctx : Context) (keyword : String)
    (opts : SearchOptions) :
    r.SearchSources env ctx keyword [] opts = r.SearchAll env ctx keyword opts ∧
    r.SearchSourcesCalls env ctx keyword [] opts = r.SearchAllCalls env ctx keyword opts :=
  ⟨rfl, rfl⟩

/-- C8. With zero registered providers `SearchAll` returns, for every keyword and options,
the report with no memes, no sources, no errors, total 0 and a duration that is not
negative, and it invokes no provider. -/
theorem SearchAll_no_providers (r : Registry) (h : r.List = []) (env : Env) (ctx : Context)
    (keyword : String) (opts : SearchOptions) :
    (r.SearchAll env ctx keyword opts).Memes = [] ∧
    (r.SearchAll env ctx keyword opts).Sources = [] ∧
    (r.SearchAll env ctx keyword opts).Errors = [] ∧
    (r.SearchAll env ctx keyword opts).Total = 0 ∧
    0 ≤ (r.SearchAll env ctx keyword opts).DurationMs ∧
    r.SearchAllCalls env ctx keyword opts = [] := by
  have hd : (0 : Int) ≤ (env.elapsed : Int) / 1000000 :=
    Int.ediv_nonneg (Int.ofNat_nonneg _) (by decide)
  simp only [Registry.SearchAll, Registry.SearchAllCalls, h, List.length_nil, if_true]
  exact ⟨trivial, trivial, trivial, trivial, hd, trivial⟩

/-- Witness of C8 on the registry `NewRegistry`. -/
theorem SearchAll_no_providers_witness :
    (NewRegistry.SearchAll ⟨fun _ => 0, [], 1500000⟩ ⟨none⟩ "x" DefaultSearchOptions)
      = { Memes := [], Sources := [], Errors := [], Total := 0, DurationMs := 1 } ∧
    NewRegistry.SearchAllCalls ⟨fun _ => 0, [], 1500000⟩ ⟨none⟩ "x" DefaultSearchOptions
      = [] :=
  have h := SearchAll_no_providers NewRegistry rfl ⟨fun _ => 0, [], 1500000⟩ ⟨none⟩ "x"
    DefaultSearchOptions
  ⟨by decide, h.2.2.2.2.2⟩

theorem SearchSources_eq_report (r : Registry) (env : Env) (ctx : Context) (keyword : String)
    (ids : List String) (opts : SearchOptions) (h : ids ≠ []) :
    r.SearchSources env ctx keyword ids opts =
      report env (searchSourcesFanout r env ctx keyword ids opts).resultCh := by
  have : ¬ ids.length = 0 := fun c => h (List.length_eq_zero.1 c)
  simp only [Registry.SearchSources, this, if_false]

theorem SearchSourcesCalls_eq (r : Registry) (env : Env) (ctx : Context) (keyword : String)
    (ids : List String) (opts : SearchOptions) (h : ids ≠ []) :
    r.SearchSourcesCalls env ctx keyword ids opts =
      (searchSourcesFanout r env ctx keyword ids opts).calls := by
  have : ¬ ids.length = 0 := fun c => h (List.length_eq_zero.1 c)
  simp only [Registry.SearchSourcesCalls, this, if_false]

theorem launchResults_lookup_mem (r : Registry) (h : r.WF) (env : Env) (ctx : Context)
    (keyword : String) (opts : SearchOptions) (ids : List String) (k : Nat)
    (res : sourceResult)
    (hres : res ∈ launchResults (lookupSearch r env ctx keyword opts) ids k) :
    (r.Get res.sourceID = none ∧ res = ⟨res.sourceID, [], some ErrSourceNotFound⟩) ∨
    (∃ s k', r.Get res.sourceID = some s ∧ res = callResult env ctx keyword opts k' s) := by
  induction ids generalizing k with
  | nil => cases hres
  | cons id ids ih =>
    cases hg : r.Get id with
    | none =>
      simp only [launchResults, lookupSearch, hg, List.mem_cons] at hres
      rcases hres with hres | hres
      · left; rw [hres]; exact ⟨hg, rfl⟩
      · exact ih k hres
    | some s =>
      simp only [launchResults, lookupSearch, hg, goSearch, List.mem_cons] at hres
      rcases hres with hres | hres
      · right
        refine ⟨s, k, ?_, ?_⟩
        · rw [hres]; simp only [Get_ID r h id s hg, hg]
        · rw [hres]; rfl
      · exact ih (k + 1) hres

theorem launchResults_lookup_found (r : Registry) (env : Env) (ctx : Context)
    (keyword : String) (opts : SearchOptions) (ids : List String) (k : Nat)
    (id : String) (s : Source) (hid : id ∈ ids) (hg : r.Get id = some s) :
    ∃ k', callResult env ctx keyword opts k' s ∈
      launchResults (lookupSearch r env ctx keyword opts) ids k := by
  induction ids generalizing k with
  | nil => cases hid
  | cons a ids ih =>
    by_cases ha : a = id
    · subst ha
      refine ⟨k, ?_⟩
      simp only [launchResults, lookupSearch, hg, goSearch]
      exact List.mem_cons_self _ _
    · have hid2 : id ∈ ids := by
        rcases List.mem_cons.1 hid with c | c
        · exact absurd c.symm ha
        · exact c
      cases hga : r.Get a with
      | none =>
        obtain ⟨k', hk'⟩ := ih k hid2
        exact ⟨k', by simp only [launchResults, lookupSearch, hga]; exact List.mem_cons_of_mem _ hk'⟩
      | some t =>
        obtain ⟨k', hk'⟩ := ih (k + 1) hid2
        exact ⟨k', by
          simp only [launchResults, lookupSearch, hga, goSearch]
          exact List.mem_cons_of_mem _ hk'⟩

theorem mem_sources_iff (ch : List sourceResult) (id : String) :
    id ∈ (succeeded ch).map (fun res => res.sourceID) ↔
      ∃ res ∈ ch, res.sourceID = id ∧ res.err = none := by
  simp only [succeeded, List.mem_map, List.mem_filter, Option.isNone_iff_eq_none]
  constructor
  · rintro ⟨res, ⟨h1, h2⟩, h3⟩; exact ⟨res, h1, h3, h2⟩
  · rintro ⟨res, h1, h3, h2⟩; exact ⟨res, ⟨h1, h2⟩, h3⟩

theorem mem_errors_iff (ch : List sourceResult) (id : String) :
    id ∈ mapKeys (mapSetAll [] (failures ch)) ↔
      ∃ res ∈ ch, res.sourceID = id ∧ res.err ≠ none := by
  rw [mem_mapKeys_mapSetAll]
  simp only [mapKeys, List.map_nil, List.not_mem_nil, false_or, List.mem_map, Prod.exists,
    exists_and_right, exists_eq_right]
  constructor
  · rintro ⟨msg, hmsg⟩
    obtain ⟨res, h1, h2, h3⟩ := (mem_failures ch id msg).1 hmsg
    exact ⟨res, h1, h2, by rw [h3]; exact Option.some_ne_none _⟩
  · rintro ⟨res, h1, h2, h3⟩
    obtain ⟨msg, hmsg⟩ := Option.ne_none_iff_exists'.1 h3
    exact ⟨msg, (mem_failures ch id msg).2 ⟨res, h1, h2, hmsg⟩⟩

/-- C9. For a non-empty list of requested identifiers and an identifier `id` in it that is
not registered: `Errors` maps `id` to `source not found`, no provider call is made for `id`,
`id` is not in `Sources`; the provider calls are exactly the registered identifiers of the
list, one call per occurrence; the result of the call of every registered requested source
reaches the collecting loop, which puts an identifier in `Sources` exactly when one of its
results is a success and in `Errors` exactly when one of its results is a failure; `Memes`
is `DeduplicateMemes` of the items of the successes in the order of completion. -/
theorem SearchSources_not_found (ps : List Source) (env : Env) (ctx : Context)
    (keyword : String) (opts : SearchOptions) (sourceIDs : List String) (id : String)
    (hne : sourceIDs ≠ []) (hid : id ∈ sourceIDs) (hget : (registryOf ps).Get id = none) :
    mapGet ((registryOf ps).SearchSources env ctx keyword sourceIDs opts).Errors id =
      some "source not found" ∧
    (∀ c ∈ (registryOf ps).SearchSourcesCalls env ctx keyword sourceIDs opts,
      c.sourceID ≠ id) ∧
    id ∉ ((registryOf ps).SearchSources env ctx keyword sourceIDs opts).Sources ∧
    ((registryOf ps).SearchSourcesCalls env ctx keyword sourceIDs opts).map
        (fun c => c.sourceID) =
      sourceIDs.filter (fun i => ((registryOf ps).Get i).isSome) ∧
    (∀ id' s, id' ∈ sourceIDs → (registryOf ps).Get id' = some s →
      ∃ k, callResult env ctx keyword opts k s ∈
        (searchSourcesFanout (registryOf ps) env ctx keyword sourceIDs opts).resultCh) ∧
    (∀ id', id' ∈ ((registryOf ps).SearchSources env ctx keyword sourceIDs opts).Sources ↔
      ∃ res ∈ (searchSourcesFanout (registryOf ps) env ctx keyword sourceIDs opts).resultCh,
        res.sourceID = id' ∧ res.err = none) ∧
    (∀ id', id' ∈ mapKeys
        ((registryOf ps).SearchSources env ctx keyword sourceIDs opts).Errors ↔
      ∃ res ∈ (searchSourcesFanout (registryOf ps) env ctx keyword sourceIDs opts).resultCh,
        res.sourceID = id' ∧ res.err ≠ none) ∧
    ((registryOf ps).SearchSources env ctx keyword sourceIDs opts).Memes =
      DeduplicateMemes
        ((succeeded
          (searchSourcesFanout (registryOf ps) env ctx keyword sourceIDs opts).resultCh).flatMap
          (fun res => res.memes)) := by
  have hwf := registryOf_WF ps
  obtain ⟨hperm, hcalls⟩ := searchSourcesFanout_spec (registryOf ps) env ctx keyword
    sourceIDs opts
  have hcallids := launchCalls_lookup_ids (registryOf ps) hwf env ctx keyword opts sourceIDs 0
  have hnf : ∀ res ∈ (searchSourcesFanout (registryOf ps) env ctx keyword sourceIDs
      opts).resultCh, res.sourceID = id → res.err = some ErrSourceNotFound := by
    intro res hres hrid
    rcases launchResults_lookup_mem (registryOf ps) hwf env ctx keyword opts sourceIDs 0 res
      (hperm.subset hres) with ⟨_, h2⟩ | ⟨s, k', h1, _⟩
    · rw [h2]
    · rw [hrid, hget] at h1; cases h1
  have hex : ∃ res ∈ (searchSourcesFanout (registryOf ps) env ctx keyword sourceIDs
      opts).resultCh, res.sourceID = id := by
    have hids := launchResults_lookup_ids (registryOf ps) hwf env ctx keyword opts sourceIDs 0
    have : id ∈ (launchResults (lookupSearch (registryOf ps) env ctx keyword opts)
        sourceIDs 0).map (fun res => res.sourceID) := by rw [hids]; exact hid
    obtain ⟨res, hres, hrid⟩ := List.mem_map.1 this
    exact ⟨res, hperm.symm.subset hres, hrid⟩
  rw [SearchSources_eq_report _ _ _ _ _ _ hne, SearchSourcesCalls_eq _ _ _ _ _ _ hne,
    report_eq]
  refine ⟨?_, ?_, ?_, ?_, ?_, ?_, ?_, rfl⟩
  · apply mapGet_mapSetAll_const
    · intro p hp hpk
      obtain ⟨res, hres, h1, h2⟩ := (mem_failures _ p.1 p.2).1 hp
      have := hnf res hres (h1.trans hpk)
      rw [h2] at this
      exact Option.some.inj this
    · left
      obtain ⟨res, hres, hrid⟩ := hex
      exact List.mem_map.2 ⟨(id, ErrSourceNotFound),
        (mem_failures _ _ _).2 ⟨res, hres, hrid, hnf res hres hrid⟩, rfl⟩
  · intro c hc hcid
    have : id ∈ sourceIDs.filter (fun i => ((registryOf ps).Get i).isSome) := by
      rw [← hcallids, ← hcalls]
      exact List.mem_map.2 ⟨c, hc, hcid⟩
    have := (List.mem_filter.1 this).2
    rw [hget] at this; cases this
  · intro hmem
    obtain ⟨res, hres, h1, h2⟩ := (mem_sources_iff _ id).1 hmem
    have := hnf res hres h1
    rw [h2] at this; cases this
  · rw [hcalls, hcallids]
  · intro id' s hid' hg
    obtain ⟨k, hk⟩ := launchResults_lookup_found (registryOf ps) env ctx keyword opts
      sourceIDs 0 id' s hid' hg
    exact ⟨k, hperm.symm.subset hk⟩
  · intro id'; exact mem_sources_iff _ id'
  · intro id'; exact mem_errors_iff _ id'

/-- Witness of C9: `douyin` is registered and `nosuch` is not. -/
theorem SearchSources_not_found_witness :
    mapGet ((registryOf [douyinSample]).SearchSources sampleEnv ⟨none⟩ "cat"
      ["douyin", "nosuch"] DefaultSearchOptions).Errors "nosuch" = some "source not found" ∧
    "nosuch" ∉ ((registryOf [douyinSample]).SearchSources sampleEnv ⟨none⟩ "cat"
      ["douyin", "nosuch"] DefaultSearchOptions).Sources :=
  have h := SearchSources_not_found [douyinSample] sampleEnv ⟨none⟩ "cat"
    DefaultSearchOptions ["douyin", "nosuch"] "nosuch" (by decide) (by decide) rfl
  ⟨h.1, h.2.2.1⟩

theorem mem_foldl_Register (ps : List Source) (r : Registry) (p : String × Source)
    (h : p ∈ (ps.foldl Registry.Register r).sources) : p ∈ r.sources ∨ p.2 ∈ ps := by
  induction ps generalizing r with
  | nil => exact Or.inl h
  | cons s ps ih =>
    rcases ih (r.Register s) h with h1 | h1
    · rcases mem_mapSet _ _ _ _ h1 with h2 | h2
      · right; rw [h2]; exact List.mem_cons_self _ _
      · exact Or.inl h2
    · exact Or.inr (List.mem_cons_of_mem _ h1)

theorem mem_registryOf_List (ps : List Source) (s : Source)
    (h : s ∈ (registryOf ps).List) : s ∈ ps := by
  obtain ⟨p, hp, hps⟩ := List.mem_map.1 h
  rcases mem_foldl_Register ps NewRegistry p hp with h1 | h1
  · cases h1
  · rw [← hps]; exact h1

theorem report_platform (env : Env) (ch : List sourceResult)
    (hnd : (ch.map (fun res => res.sourceID)).Nodup)
    (hplat : ∀ res ∈ ch, res.err = none → ∀ m ∈ res.memes, m.Platform = res.sourceID) :
    ∀ m ∈ (report env ch).Memes, m.Platform ∉ mapKeys (report env ch).Errors := by
  intro m hm hk
  rw [report_eq] at hm hk
  simp only at hm hk
  have hm2 := (DeduplicateMemes_eq _ ▸ dedupFrom_sublist _ []).subset hm
  obtain ⟨res, hres, hmres⟩ := List.mem_flatMap.1 hm2
  have hres2 := List.mem_filter.1 hres
  have herr : res.err = none := Option.isNone_iff_eq_none.1 hres2.2
  obtain ⟨res', hres', hid, hfail⟩ := (mem_errors_iff ch m.Platform).1 hk
  have heq : res' = res := by
    apply List.inj_on_of_nodup_map hnd hres' hres2.1
    rw [hid, hplat res hres2.1 herr m hmres]
  rw [heq] at hfail
  exact hfail herr

theorem callResult_platform (ps : List Source) (env : Env) (ctx : Context)
    (keyword : String) (opts : SearchOptions)
    (hplat : ∀ s ∈ ps, ∀ n c k o, ∀ m ∈ (s.Search n c k o).memes, m.Platform = s.ID)
    (s : Source) (hs : s ∈ ps) (k : Nat) :
    ∀ m ∈ (callResult env ctx keyword opts k s).memes,
      m.Platform = (callResult env ctx keyword opts k s).sourceID := by
  intro m hm
  exact hplat s hs _ _ _ _ m hm

theorem eq_of_count_map_le_one {α : Type} (f : α → String) (l : List α) (a b : α)
    (ha : a ∈ l) (hb : b ∈ l) (hf : f b = f a) (hc : (l.map f).count (f a) ≤ 1) :
    b = a := by
  induction l with
  | nil => cases ha
  | cons x xs ih =>
    rw [List.map_cons, List.count_cons] at hc
    rcases List.mem_cons.1 ha with ha' | ha' <;> rcases List.mem_cons.1 hb with hb' | hb'
    · rw [ha', hb']
    · have hpos : 0 < (xs.map f).count (f a) :=
        List.count_pos_iff.2 (List.mem_map.2 ⟨b, hb', hf⟩)
      subst ha'
      simp at hc
      omega
    · have hpos : 0 < (xs.map f).count (f a) :=
        List.count_pos_iff.2 (List.mem_map.2 ⟨a, ha', rfl⟩)
      subst hb'
      rw [hf] at hc
      simp at hc
      omega
    · exact ih ha' hb' (by omega)

theorem report_platform_of (env : Env) (ch : List sourceResult)
    (hsame : ∀ res ∈ ch, res.err = none → ∀ res' ∈ ch, res'.sourceID = res.sourceID →
      res' = res)
    (hplat : ∀ res ∈ ch, res.err = none → ∀ m ∈ res.memes, m.Platform = res.sourceID) :
    ∀ m ∈ (report env ch).Memes, m.Platform ∉ mapKeys (report env ch).Errors := by
  intro m hm hk
  rw [report_eq] at hm hk
  simp only at hm hk
  have hm2 := (DeduplicateMemes_eq _ ▸ dedupFrom_sublist _ []).subset hm
  obtain ⟨res, hres, hmres⟩ := List.mem_flatMap.1 hm2
  have hres2 := List.mem_filter.1 hres
  have herr : res.err = none := Option.isNone_iff_eq_none.1 hres2.2
  obtain ⟨res', hres', hid, hfail⟩ := (mem_errors_iff ch m.Platform).1 hk
  have heq : res' = res := by
    apply hsame res hres2.1 herr res' hres'
    rw [hid, hplat res hres2.1 herr m hmres]
  rw [heq] at hfail
  exact hfail herr

/-- C10, as the code has it. When every item a provider returns carries that provider's
identifier as `Platform`, no item of `Memes` in a report of `SearchAll` has a `Platform`
that is a key of `Errors`, and the same holds for `SearchSources` when no registered
provider is requested more than once (unregistered identifiers may repeat). -/
theorem platform_not_in_errors (ps : List Source) (env : Env) (ctx : Context)
    (keyword : String) (opts : SearchOptions)
    (hplat : ∀ s ∈ ps, ∀ n c k o, ∀ m ∈ (s.Search n c k o).memes, m.Platform = s.ID) :
    (∀ m ∈ ((registryOf ps).SearchAll env ctx keyword opts).Memes,
      m.Platform ∉ mapKeys ((registryOf ps).SearchAll env ctx keyword opts).Errors) ∧
    (∀ sourceIDs : List String,
      (sourceIDs.filter (fun id => ((registryOf ps).Get id).isSome)).Nodup →
      ∀ m ∈ ((registryOf ps).SearchSources env ctx keyword sourceIDs opts).Memes,
        m.Platform ∉
          mapKeys ((registryOf ps).SearchSources env ctx keyword sourceIDs opts).Errors) := by
  have hwf := registryOf_WF ps
  have hall : ∀ m ∈ ((registryOf ps).SearchAll env ctx keyword opts).Memes,
      m.Platform ∉ mapKeys ((registryOf ps).SearchAll env ctx keyword opts).Errors := by
    rw [SearchAll_eq_report]
    apply report_platform env _ (resultCh_ids_nodup _ hwf env ctx keyword opts)
    intro res hres _
    have hmem := (searchAllFanout_spec (registryOf ps) env ctx keyword opts).1.subset hres
    obtain ⟨p, hp, hpres⟩ := List.mem_map.1 hmem
    have hs : p.2 ∈ (registryOf ps).List := by
      have := List.mem_enumFrom hp
      rw [this.2.2]
      exact List.getElem_mem _
    rw [← hpres]
    exact callResult_platform ps env ctx keyword opts hplat p.2
      (mem_registryOf_List ps p.2 hs) p.1
  refine ⟨hall, ?_⟩
  intro sourceIDs hnd
  by_cases hne : sourceIDs = []
  · subst hne
    exact hall
  · obtain ⟨hperm, _⟩ := searchSourcesFanout_spec (registryOf ps) env ctx keyword
      sourceIDs opts
    have hids := hperm.map (fun res => res.sourceID)
    rw [launchResults_lookup_ids _ hwf] at hids
    rw [SearchSources_eq_report _ _ _ _ _ _ hne]
    apply report_platform_of env
    · intro res hres herr res' hres' hid
      have hreg : ((registryOf ps).Get res.sourceID).isSome = true := by
        rcases launchResults_lookup_mem (registryOf ps) hwf env ctx keyword opts sourceIDs 0
          res (hperm.subset hres) with ⟨_, h2⟩ | ⟨s, k', h1, _⟩
        · rw [h2] at herr; cases herr
        · rw [h1]; rfl
      have hcount : sourceIDs.count res.sourceID ≤ 1 := by
        have h1 := List.nodup_iff_count_le_one.1 hnd res.sourceID
        rw [List.count_filter (p := fun id => ((registryOf ps).Get id).isSome) hreg] at h1
        exact h1
      rw [← hids.count_eq] at hcount
      exact eq_of_count_map_le_one (fun res => res.sourceID) _ res res' hres hres' hid hcount
    · intro res hres herr
      rcases launchResults_lookup_mem (registryOf ps) hwf env ctx keyword opts sourceIDs 0
        res (hperm.subset hres) with ⟨_, h2⟩ | ⟨s, k', h1, h2⟩
      · rw [h2] at herr; cases herr
      · rw [h2]
        exact callResult_platform ps env ctx keyword opts hplat s
          (mem_registryOf_List ps s (Get_mem_List _ _ s h1)) k'

/-- Witness of the amended C10 on the registry of `douyin`, which succeeds, and `sougou`,
whose call fails: in the report of `SearchAll`, and in the report of `SearchSources` for a
request that names an unregistered identifier twice and each provider once, the item of
`douyin` is in `Memes`, `sougou` is a key of `Errors`, and the platform of the item is not
a key of `Errors`. -/
theorem platform_not_in_errors_witness :
    (mirrorA ∈ ((registryOf [douyinSample, sougouFlaky]).SearchAll sampleEnv ⟨none⟩ "cat"
        DefaultSearchOptions).Memes ∧
      mapKeys ((registryOf [douyinSample, sougouFlaky]).SearchAll sampleEnv ⟨none⟩ "cat"
        DefaultSearchOptions).Errors = ["sougou"] ∧
      mirrorA.Platform ∉ mapKeys ((registryOf [douyinSample, sougouFlaky]).SearchAll sampleEnv
        ⟨none⟩ "cat" DefaultSearchOptions).Errors) ∧
    ((["nosuch", "nosuch", "douyin", "sougou"].filter
        (fun id => ((registryOf [douyinSample, sougouFlaky]).Get id).isSome)).Nodup ∧
      ¬ ["nosuch", "nosuch", "douyin", "sougou"].Nodup ∧
      mirrorA ∈ ((registryOf [douyinSample, sougouFlaky]).SearchSources sampleEnv ⟨none⟩ "cat"
        ["nosuch", "nosuch", "douyin", "sougou"] DefaultSearchOptions).Memes ∧
      mapKeys ((registryOf [douyinSample, sougouFlaky]).SearchSources sampleEnv ⟨none⟩ "cat"
        ["nosuch", "nosuch", "douyin", "sougou"] DefaultSearchOptions).Errors =
          ["nosuch", "sougou"] ∧
      mirrorA.Platform ∉ mapKeys ((registryOf [douyinSample, sougouFlaky]).SearchSources
        sampleEnv ⟨none⟩ "cat" ["nosuch", "nosuch", "douyin", "sougou"]
        DefaultSearchOptions).Errors) := by
  have hplat : ∀ s ∈ [douyinSample, sougouFlaky], ∀ (n : Net) (c : Context) (k : String)
      (o : SearchOptions), ∀ m ∈ (s.Search n c k o).memes, m.Platform = s.ID := by
    intro s hs n c k o m hm
    rcases List.mem_cons.1 hs with h | h
    · rw [h] at hm ⊢
      simp only [douyinSample, List.mem_cons, List.mem_singleton, List.not_mem_nil,
        or_false] at hm
      rcases hm with rfl | rfl <;> rfl
    · rw [List.mem_singleton.1 h] at hm ⊢
      by_cases hn : n = 0
      · simp only [sougouFlaky, hn, if_true, List.mem_singleton] at hm
        rw [hm]; rfl
      · simp only [sougouFlaky, hn, if_false, List.not_mem_nil] at hm
  have h := platform_not_in_errors [douyinSample, sougouFlaky] sampleEnv ⟨none⟩ "cat"
    DefaultSearchOptions hplat
  exact ⟨⟨by decide, by decide, h.1 mirrorA (by decide)⟩,
    by decide, by decide, by decide, by decide,
    h.2 ["nosuch", "nosuch", "douyin", "sougou"] (by decide) mirrorA (by decide)⟩

/-- C10 as stated fails. The provider `sougou` is requested twice; its first call succeeds
with an item of platform `sougou`, its second call fails: the item is in `Memes` and
`sougou` is a key of `Errors`. And in `SearchAll`, a provider `pdan` relaying an item of
platform `sougou` while `sougou` itself fails gives the same. -/
theorem platform_in_errors_counterexample :
    (∃ m ∈ ((registryOf [sougouFlaky]).SearchSources sampleEnv ⟨none⟩ "cat"
        ["sougou", "sougou"] DefaultSearchOptions).Memes,
      m.Platform ∈ mapKeys ((registryOf [sougouFlaky]).SearchSources sampleEnv ⟨none⟩ "cat"
        ["sougou", "sougou"] DefaultSearchOptions).Errors) ∧
    (∃ m ∈ ((registryOf [pdanRelay, sougouFlaky]).SearchAll sampleEnv ⟨none⟩ "cat"
        DefaultSearchOptions).Memes,
      m.Platform ∈ mapKeys ((registryOf [pdanRelay, sougouFlaky]).SearchAll sampleEnv ⟨none⟩
        "cat" DefaultSearchOptions).Errors) := by
  constructor
  · exact ⟨sougouMeme, by decide, by decide⟩
  · exact ⟨sougouMeme, by decide, by decide⟩

/-! ## Claims on the reports, the timeout and the keyword -/

theorem report_mem (env : Env) (ch : List sourceResult) (m : Meme)
    (hm : m ∈ (report env ch).Memes) : ∃ res ∈ ch, res.err = none ∧ m ∈ res.memes := by
  rw [report_eq] at hm
  simp only at hm
  have hm2 := (DeduplicateMemes_eq _ ▸ dedupFrom_sublist _ []).subset hm
  obtain ⟨res, hres, hmres⟩ := List.mem_flatMap.1 hm2
  have hres2 := List.mem_filter.1 hres
  exact ⟨res, hres2.1, Option.isNone_iff_eq_none.1 hres2.2, hmres⟩

theorem searchAll_result_from (ps : List Source) (env : Env) (ctx : Context)
    (keyword : String) (opts : SearchOptions) (res : sourceResult)
    (hres : res ∈ (searchAllFanout (registryOf ps) env ctx keyword opts).resultCh) :
    ∃ s ∈ ps, ∃ k, res = callResult env ctx keyword opts k s := by
  have hmem := (searchAllFanout_spec (registryOf ps) env ctx keyword opts).1.subset hres
  obtain ⟨p, hp, hpres⟩ := List.mem_map.1 hmem
  have hs : p.2 ∈ (registryOf ps).List := by
    have := List.mem_enumFrom hp
    rw [this.2.2]
    exact List.getElem_mem _
  exact ⟨p.2, mem_registryOf_List ps p.2 hs, p.1, hpres.symm⟩

theorem searchSources_result_from (ps : List Source) (env : Env) (ctx : Context)
    (keyword : String) (ids : List String) (opts : SearchOptions) (res : sourceResult)
    (hres : res ∈ (searchSourcesFanout (registryOf ps) env ctx keyword ids opts).resultCh)
    (herr : res.err = none) :
    ∃ s ∈ ps, ∃ k, res = callResult env ctx keyword opts k s := by
  have hperm := (searchSourcesFanout_spec (registryOf ps) env ctx keyword ids opts).1
  rcases launchResults_lookup_mem (registryOf ps) (registryOf_WF ps) env ctx keyword opts ids 0
    res (hperm.subset hres) with ⟨_, h2⟩ | ⟨s, k', h1, h2⟩
  · rw [h2] at herr; cases herr
  · exact ⟨s, mem_registryOf_List ps s (Get_mem_List _ _ s h1), k', h2⟩

theorem IsValidImageURL_ne_empty (url : String) (h : IsValidImageURL url = true) :
    url ≠ "" := by
  intro c
  rw [c] at h
  simp [IsValidImageURL] at h

/-- C11, as the code has it. When every item a provider returns has a non-empty URL, every
item of `Memes` in a report of `SearchAll` or `SearchSources` has a non-empty URL; the items
a built-in provider keeps pass `IsValidImageURL`, which rejects the empty URL. -/
theorem memes_url_nonempty (ps : List Source) (env : Env) (ctx : Context)
    (keyword : String) (opts : SearchOptions)
    (hurl : ∀ s ∈ ps, ∀ n c k o, ∀ m ∈ (s.Search n c k o).memes, m.URL ≠ "") :
    (∀ m ∈ ((registryOf ps).SearchAll env ctx keyword opts).Memes, m.URL ≠ "") ∧
    (∀ sourceIDs : List String,
      ∀ m ∈ ((registryOf ps).SearchSources env ctx keyword sourceIDs opts).Memes,
        m.URL ≠ "") ∧
    (∀ url, IsValidImageURL url = true → url ≠ "") := by
  have hall : ∀ m ∈ ((registryOf ps).SearchAll env ctx keyword opts).Memes, m.URL ≠ "" := by
    intro m hm
    rw [SearchAll_eq_report] at hm
    obtain ⟨res, hres, _, hmres⟩ := report_mem env _ m hm
    obtain ⟨s, hs, k, hk⟩ := searchAll_result_from ps env ctx keyword opts res hres
    rw [hk] at hmres
    exact hurl s hs _ _ _ _ m hmres
  refine ⟨hall, ?_, IsValidImageURL_ne_empty⟩
  intro sourceIDs m hm
  by_cases hne : sourceIDs = []
  · subst hne
    exact hall m hm
  · rw [SearchSources_eq_report _ _ _ _ _ _ hne] at hm
    obtain ⟨res, hres, herr, hmres⟩ := report_mem env _ m hm
    obtain ⟨s, hs, k, hk⟩ :=
      searchSources_result_from ps env ctx keyword sourceIDs opts res hres herr
    rw [hk] at hmres
    exact hurl s hs _ _ _ _ m hmres

/-- Witness of the amended C11 on the sample provider `douyin`. -/
theorem memes_url_nonempty_witness :
    mirrorA ∈ ((registryOf [douyinSample]).SearchAll sampleEnv ⟨none⟩ "cat"
        DefaultSearchOptions).Memes ∧ mirrorA.URL ≠ "" :=
  ⟨by decide,
   (memes_url_nonempty [douyinSample] sampleEnv ⟨none⟩ "cat" DefaultSearchOptions
    (by
      intro s hs n c k o m hm
      rw [List.mem_singleton.1 hs] at hm
      simp only [douyinSample, List.mem_cons, List.mem_singleton, List.not_mem_nil,
        or_false] at hm
      rcases hm with rfl | rfl <;> decide)).1 mirrorA (by decide)⟩

/-- C11 as stated fails: a provider that succeeds with an item whose URL is empty gets that
item into `Memes`, in `SearchAll` and in `SearchSources`. -/
theorem memes_url_empty_counterexample :
    (∃ m ∈ ((registryOf [blankSample]).SearchAll sampleEnv ⟨none⟩ "cat"
        DefaultSearchOptions).Memes, m.URL = "") ∧
    (∃ m ∈ ((registryOf [blankSample]).SearchSources sampleEnv ⟨none⟩ "cat" ["blank"]
        DefaultSearchOptions).Memes, m.URL = "") := by
  constructor <;> decide

theorem launchCalls_lookup_args (r : Registry) (env : Env) (ctx : Context)
    (keyword : String) (opts : SearchOptions) (ids : List String) (k : Nat) :
    ∀ c ∈ launchCalls (lookupSearch r env ctx keyword opts) ids k,
      c.ctx = WithTimeout ctx (timeout opts) ∧ c.keyword = keyword ∧ c.opts = opts := by
  induction ids generalizing k with
  | nil => intro c hc; cases hc
  | cons id ids ih =>
    intro c hc
    cases hg : r.Get id with
    | none =>
      simp only [launchCalls, lookupSearch, hg] at hc
      exact ih k c hc
    | some s =>
      simp only [launchCalls, lookupSearch, hg, goSearch, List.mem_cons] at hc
      rcases hc with hc | hc
      · rw [hc]; exact ⟨rfl, rfl, rfl⟩
      · exact ih (k + 1) c hc

theorem SearchAllCalls_args (r : Registry) (env : Env) (ctx : Context) (keyword : String)
    (opts : SearchOptions) :
    ∀ c ∈ r.SearchAllCalls env ctx keyword opts,
      c.ctx = WithTimeout ctx (timeout opts) ∧ c.keyword = keyword ∧ c.opts = opts := by
  intro c hc
  rw [SearchAllCalls_eq, (searchAllFanout_spec r env ctx keyword opts).2] at hc
  obtain ⟨s, _, hs⟩ := List.mem_map.1 hc
  rw [← hs]; exact ⟨rfl, rfl, rfl⟩

theorem SearchSourcesCalls_args (r : Registry) (env : Env) (ctx : Context)
    (keyword : String) (ids : List String) (opts : SearchOptions) :
    ∀ c ∈ r.SearchSourcesCalls env ctx keyword ids opts,
      c.ctx = WithTimeout ctx (timeout opts) ∧ c.keyword = keyword ∧ c.opts = opts := by
  intro c hc
  by_cases hne : ids = []
  · subst hne
    exact SearchAllCalls_args r env ctx keyword opts c hc
  · rw [SearchSourcesCalls_eq _ _ _ _ _ _ hne,
      (searchSourcesFanout_spec r env ctx keyword ids opts).2] at hc
    exact launchCalls_lookup_args r env ctx keyword opts ids 0 c hc

theorem callResult_eq_answerOf (env : Env) (ctx : Context) (keyword : String)
    (opts : SearchOptions) (k : Nat) (s : Source) :
    callResult env ctx keyword opts k s =
      answerOf s (env.net k) (WithTimeout ctx (timeout opts)) keyword opts := rfl

theorem searchAll_resultCh_answers (r : Registry) (env : Env) (ctx : Context)
    (keyword : String) (opts : SearchOptions) :
    (searchAllFanout r env ctx keyword opts).resultCh.Perm
      (r.List.enum.map (fun p =>
        answerOf p.2 (env.net p.1) (WithTimeout ctx (timeout opts)) keyword opts)) :=
  (searchAllFanout_spec r env ctx keyword opts).1

theorem launchResults_lookup_reference (r : Registry) (env : Env) (ctx : Context)
    (keyword : String) (opts : SearchOptions) (ids : List String) (k : Nat) :
    launchResults (lookupSearch r env ctx keyword opts) ids k =
      referenceResults r env (WithTimeout ctx (timeout opts)) keyword opts ids k := by
  induction ids generalizing k with
  | nil => rfl
  | cons id ids ih =>
    cases hg : r.Get id with
    | none => simp only [launchResults, lookupSearch, hg, referenceResults, ih]; rfl
    | some s => simp only [launchResults, lookupSearch, hg, referenceResults, ih]; rfl

theorem searchSources_resultCh_reference (r : Registry) (env : Env) (ctx : Context)
    (keyword : String) (ids : List String) (opts : SearchOptions) :
    (searchSourcesFanout r env ctx keyword ids opts).resultCh.Perm
      (referenceResults r env (WithTimeout ctx (timeout opts)) keyword opts ids 0) := by
  rw [← launchResults_lookup_reference]
  exact (searchSourcesFanout_spec r env ctx keyword ids opts).1

/-- C12, as the code has it. Every provider call of `SearchAll` and of `SearchSources` is
made with the context `context.WithTimeout(ctx, timeout)` where `timeout` is `opts.Timeout`
when that is positive and ten seconds when it is zero: the results on the channel are the
answers of the providers to calls with that context. A context without deadline gets the
deadline `timeout`, a context with a deadline keeps the earlier of the two. A provider that
reports the deadline of its context reports three seconds under a timeout of three seconds
and ten seconds under a timeout of zero. -/
theorem timeout_derivation (r : Registry) (env : Env) (ctx : Context) (keyword : String)
    (sourceIDs : List String) (opts : SearchOptions) :
    (0 < opts.Timeout →
      (searchAllFanout r env ctx keyword opts).resultCh.Perm
        (r.List.enum.map (fun p =>
          answerOf p.2 (env.net p.1) (WithTimeout ctx opts.Timeout) keyword opts)) ∧
      (searchSourcesFanout r env ctx keyword sourceIDs opts).resultCh.Perm
        (referenceResults r env (WithTimeout ctx opts.Timeout) keyword opts sourceIDs 0)) ∧
    (opts.Timeout = 0 →
      (searchAllFanout r env ctx keyword opts).resultCh.Perm
        (r.List.enum.map (fun p =>
          answerOf p.2 (env.net p.1) (WithTimeout ctx 10000000000) keyword opts)) ∧
      (searchSourcesFanout r env ctx keyword sourceIDs opts).resultCh.Perm
        (referenceResults r env (WithTimeout ctx 10000000000) keyword opts sourceIDs 0)) ∧
    r.SearchAll env ctx keyword opts =
      report env (searchAllFanout r env ctx keyword opts).resultCh ∧
    (sourceIDs ≠ [] → r.SearchSources env ctx keyword sourceIDs opts =
      report env (searchSourcesFanout r env ctx keyword sourceIDs opts).resultCh) ∧
    (∀ d, WithTimeout ⟨none⟩ d = ⟨some d⟩) ∧
    (∀ p d, WithTimeout ⟨some p⟩ d = ⟨some (min p d)⟩) ∧
    ((registryOf [echoSample]).SearchAll sampleEnv ⟨none⟩ "cat" ⟨1, 20, 3000000000⟩).Memes.map
      (fun m => m.Width) = [3000000000] ∧
    ((registryOf [echoSample]).SearchAll sampleEnv ⟨none⟩ "cat" ⟨1, 20, 0⟩).Memes.map
      (fun m => m.Width) = [10000000000] ∧
    ((registryOf [echoSample]).SearchSources sampleEnv ⟨none⟩ "cat" ["echo"]
      ⟨1, 20, 3000000000⟩).Memes.map (fun m => m.Width) = [3000000000] ∧
    ((registryOf [echoSample]).SearchSources sampleEnv ⟨none⟩ "cat" ["echo"]
      ⟨1, 20, 0⟩).Memes.map (fun m => m.Width) = [10000000000] ∧
    ((registryOf [echoSample]).SearchAll sampleEnv ⟨some 2000000000⟩ "cat"
      ⟨1, 20, 3000000000⟩).Memes.map (fun m => m.Width) = [2000000000] := by
  have hall := searchAll_resultCh_answers r env ctx keyword opts
  have hsrc := searchSources_resultCh_reference r env ctx keyword sourceIDs opts
  refine ⟨?_, ?_, SearchAll_eq_report r env ctx keyword opts,
    fun hne => SearchSources_eq_report r env ctx keyword sourceIDs opts hne,
    fun _ => rfl, fun _ _ => rfl, by decide, by decide, by decide, by decide, by decide⟩
  · intro h
    have ht : timeout opts = opts.Timeout := by
      have : opts.Timeout ≠ 0 := by omega
      simp [timeout, this]
    rw [ht] at hall hsrc
    exact ⟨hall, hsrc⟩
  · intro h
    have ht : timeout opts = 10000000000 := by
      simp [timeout, h, Second]
    rw [ht] at hall hsrc
    exact ⟨hall, hsrc⟩

/-- Witness of the amended C12 on the provider `echo`: under a timeout of three seconds its
call is made with the deadline of three seconds, under a timeout of zero with the deadline
of ten seconds. -/
theorem timeout_derivation_witness :
    ((0 : Int) < (⟨1, 20, 3000000000⟩ : SearchOptions).Timeout ∧
      (searchAllFanout (registryOf [echoSample]) sampleEnv ⟨none⟩ "cat"
        ⟨1, 20, 3000000000⟩).resultCh.Perm
        ((registryOf [echoSample]).List.enum.map (fun p =>
          answerOf p.2 (sampleEnv.net p.1) (WithTimeout ⟨none⟩ 3000000000) "cat"
            ⟨1, 20, 3000000000⟩))) ∧
    ((⟨1, 20, 0⟩ : SearchOptions).Timeout = 0 ∧
      (searchSourcesFanout (registryOf [echoSample]) sampleEnv ⟨none⟩ "cat" ["echo"]
        ⟨1, 20, 0⟩).resultCh.Perm
        (referenceResults (registryOf [echoSample]) sampleEnv (WithTimeout ⟨none⟩ 10000000000)
          "cat" ⟨1, 20, 0⟩ ["echo"] 0)) :=
  ⟨⟨by decide,
    ((timeout_derivation (registryOf [echoSample]) sampleEnv ⟨none⟩ "cat" ["echo"]
      ⟨1, 20, 3000000000⟩).1 (by decide)).1⟩,
   ⟨rfl,
    ((timeout_derivation (registryOf [echoSample]) sampleEnv ⟨none⟩ "cat" ["echo"]
      ⟨1, 20, 0⟩).2.1 rfl).2⟩⟩

/-- C12 as stated fails for a negative `opts.Timeout`: with a timeout of minus one
nanosecond the provider is called, by `SearchAll` and by `SearchSources`, with a context
whose deadline is minus one nanosecond, not ten seconds; the provider `echo` reports it. -/
theorem timeout_negative_counterexample :
    timeout ⟨1, 20, -1⟩ = -1 ∧ timeout ⟨1, 20, -1⟩ ≠ 10 * Second ∧
    ((registryOf [echoSample]).SearchAll sampleEnv ⟨none⟩ "cat" ⟨1, 20, -1⟩).Memes.map
      (fun m => m.Width) = [-1] ∧
    ((registryOf [echoSample]).SearchSources sampleEnv ⟨none⟩ "cat" ["echo"]
      ⟨1, 20, -1⟩).Memes.map (fun m => m.Width) = [-1] ∧
    ((registryOf [douyinSample]).SearchAllCalls sampleEnv ⟨none⟩ "cat" ⟨1, 20, -1⟩).map
      (fun c => c.ctx.deadline) = [some (-1)] ∧
    ((registryOf [douyinSample]).SearchSourcesCalls sampleEnv ⟨none⟩ "cat" ["douyin"]
      ⟨1, 20, -1⟩).map (fun c => c.ctx.deadline) = [some (-1)] := by
  decide

/-- C13, as the code has it. The handler of `search_meme` rejects an empty keyword before
any dispatch: it returns the tool error and calls no provider. `SearchAll` and
`SearchSources` do not look at the keyword: whatever the keyword, the empty one included,
the results on the channel are the answers of the providers called with that keyword;
`SearchAll` calls every registered provider and `SearchSources` every registered requested
one. A provider that reports its keyword reports the empty keyword. -/
theorem empty_keyword_handling (r : Registry) (env : Env) (ctx : Context)
    (sourceIDs : List String) (page limit : Int) (opts : SearchOptions) :
    HandleSearchMeme r env ctx (Except.ok ⟨"", sourceIDs, page, limit⟩) =
      CallToolResult.error "keyword 参数不能为空" ∧
    HandleSearchMemeCalls r env ctx (Except.ok ⟨"", sourceIDs, page, limit⟩) = [] ∧
    (∀ keyword, (searchAllFanout r env ctx keyword opts).resultCh.Perm
      (r.List.enum.map (fun p =>
        answerOf p.2 (env.net p.1) (WithTimeout ctx (timeout opts)) keyword opts))) ∧
    (∀ keyword, (searchSourcesFanout r env ctx keyword sourceIDs opts).resultCh.Perm
      (referenceResults r env (WithTimeout ctx (timeout opts)) keyword opts sourceIDs 0)) ∧
    (searchAllFanout r env ctx "" opts).resultCh.Perm
      (r.List.enum.map (fun p =>
        answerOf p.2 (env.net p.1) (WithTimeout ctx (timeout opts)) "" opts)) ∧
    (searchSourcesFanout r env ctx "" sourceIDs opts).resultCh.Perm
      (referenceResults r env (WithTimeout ctx (timeout opts)) "" opts sourceIDs 0) ∧
    r.SearchAll env ctx "" opts =
      report env (searchAllFanout r env ctx "" opts).resultCh ∧
    (sourceIDs ≠ [] → r.SearchSources env ctx "" sourceIDs opts =
      report env (searchSourcesFanout r env ctx "" sourceIDs opts).resultCh) ∧
    (∀ keyword, ∀ c ∈ r.SearchAllCalls env ctx keyword opts, c.keyword = keyword) ∧
    (∀ keyword, ∀ c ∈ r.SearchSourcesCalls env ctx keyword sourceIDs opts,
      c.keyword = keyword) ∧
    (r.SearchAllCalls env ctx "" opts).length = r.List.length ∧
    (sourceIDs ≠ [] → r.WF →
      (r.SearchSourcesCalls env ctx "" sourceIDs opts).map (fun c => c.sourceID) =
        sourceIDs.filter (fun id => (r.Get id).isSome)) ∧
    ((registryOf [echoSample]).SearchAll sampleEnv ⟨none⟩ "" DefaultSearchOptions).Memes.map
      (fun m => m.Title) = [""] ∧
    ((registryOf [echoSample]).SearchSources sampleEnv ⟨none⟩ "" ["echo"]
      DefaultSearchOptions).Memes.map (fun m => m.Title) = [""] ∧
    ((registryOf [echoSample]).SearchAll sampleEnv ⟨none⟩ "cat" DefaultSearchOptions).Memes.map
      (fun m => m.Title) = ["cat"] := by
  refine ⟨rfl, rfl, fun keyword => searchAll_resultCh_answers r env ctx keyword opts,
    fun keyword => searchSources_resultCh_reference r env ctx keyword sourceIDs opts,
    searchAll_resultCh_answers r env ctx "" opts,
    searchSources_resultCh_reference r env ctx "" sourceIDs opts,
    SearchAll_eq_report r env ctx "" opts,
    fun hne => SearchSources_eq_report r env ctx "" sourceIDs opts hne,
    fun keyword c hc => (SearchAllCalls_args r env ctx keyword opts c hc).2.1,
    fun keyword c hc => (SearchSourcesCalls_args r env ctx keyword sourceIDs opts c hc).2.1,
    ?_, ?_, by decide, by decide, by decide⟩
  · rw [SearchAllCalls_eq, (searchAllFanout_spec r env ctx "" opts).2, List.length_map]
  · intro hne hwf
    rw [SearchSourcesCalls_eq _ _ _ _ _ _ hne,
      (searchSourcesFanout_spec r env ctx "" sourceIDs opts).2]
    exact launchCalls_lookup_ids r hwf env ctx "" opts sourceIDs 0

/-- Witness of the amended C13 on the provider `echo`: requested by name with the empty
keyword, the report of `SearchSources` is the report of the results of the fan-out, and the
provider is called once. -/
theorem empty_keyword_handling_witness :
    (["echo"] : List String) ≠ [] ∧ (registryOf [echoSample]).WF ∧
    (registryOf [echoSample]).SearchSources sampleEnv ⟨none⟩ "" ["echo"]
        DefaultSearchOptions =
      report sampleEnv (searchSourcesFanout (registryOf [echoSample]) sampleEnv ⟨none⟩ ""
        ["echo"] DefaultSearchOptions).resultCh ∧
    ((registryOf [echoSample]).SearchSourcesCalls sampleEnv ⟨none⟩ "" ["echo"]
        DefaultSearchOptions).map (fun c => c.sourceID) =
      ["echo"].filter (fun id => ((registryOf [echoSample]).Get id).isSome) :=
  ⟨by decide, registryOf_WF [echoSample],
   (empty_keyword_handling (registryOf [echoSample]) sampleEnv ⟨none⟩ ["echo"] 1 20
      DefaultSearchOptions).2.2.2.2.2.2.2.1 (by decide),
   (empty_keyword_handling (registryOf [echoSample]) sampleEnv ⟨none⟩ ["echo"] 1 20
      DefaultSearchOptions).2.2.2.2.2.2.2.2.2.2.2.1 (by decide) (registryOf_WF [echoSample])⟩

/-- C13 as stated fails for `SearchAll` and `SearchSources`: called with the empty keyword
they call the provider with it (the provider `echo` reports the empty keyword it got) and
report its result as a success, with no error. -/
theorem empty_keyword_counterexample :
    ((registryOf [echoSample]).SearchAll sampleEnv ⟨none⟩ "" DefaultSearchOptions).Memes.map
      (fun m => m.Title) = [""] ∧
    ((registryOf [echoSample]).SearchAll sampleEnv ⟨none⟩ "" DefaultSearchOptions).Sources =
      ["echo"] ∧
    ((registryOf [echoSample]).SearchAll sampleEnv ⟨none⟩ "" DefaultSearchOptions).Errors =
      [] ∧
    ((registryOf [echoSample]).SearchAllCalls sampleEnv ⟨none⟩ "" DefaultSearchOptions).map
      (fun c => (c.sourceID, c.keyword)) = [("echo", "")] ∧
    ((registryOf [echoSample]).SearchSources sampleEnv ⟨none⟩ "" ["echo"]
      DefaultSearchOptions).Memes.map (fun m => m.Title) = [""] ∧
    ((registryOf [echoSample]).SearchSources sampleEnv ⟨none⟩ "" ["echo"]
      DefaultSearchOptions).Sources = ["echo"] ∧
    ((registryOf [echoSample]).SearchSources sampleEnv ⟨none⟩ "" ["echo"]
      DefaultSearchOptions).Errors = [] := by
  decide

/-! ## Claims on requests, the registry and the handler -/

theorem count_ids_split (ch : List sourceResult) (id : String) :
    (ch.map (fun res => res.sourceID)).count id =
      ((succeeded ch).map (fun res => res.sourceID)).count id +
        (mapKeys (failures ch)).count id := by
  induction ch with
  | nil => rfl
  | cons res ch ih =>
    cases he : res.err with
    | none =>
      simp only [succeeded, failures, mapKeys, List.filter_cons, List.filterMap_cons, he,
        Option.isNone_none, if_true, Option.map_none', List.map_cons, List.count_cons] at ih ⊢
      omega
    | some e =>
      simp only [succeeded, failures, mapKeys, List.filter_cons, List.filterMap_cons, he,
        Option.isNone_some, Bool.false_eq_true, if_false, Option.map_some', List.map_cons,
        List.count_cons] at ih ⊢
      omega

theorem no_failure_count_zero (ch : List sourceResult) (id : String)
    (h : ∀ res ∈ ch, res.sourceID = id → res.err = none) :
    (mapKeys (failures ch)).count id = 0 := by
  rw [List.count_eq_zero]
  intro hmem
  obtain ⟨p, hp, hpk⟩ := List.mem_map.1 hmem
  obtain ⟨res, hres, h1, h2⟩ := (mem_failures ch p.1 p.2).1 hp
  have := h res hres (h1.trans hpk)
  rw [h2] at this; cases this

theorem report_key_once (env : Env) (ch : List sourceResult) (res : sourceResult)
    (hres : res ∈ ch) (herr : res.err = none) (m : Meme) (hm : m ∈ res.memes) :
    ((report env ch).Memes.map (fun m => ExtractURLKey m.URL)).count
      (ExtractURLKey m.URL) = 1 := by
  rw [report_eq]
  simp only
  have hmem : m ∈ (succeeded ch).flatMap (fun res => res.memes) :=
    List.mem_flatMap.2 ⟨res, List.mem_filter.2 ⟨hres, by rw [herr]; rfl⟩, hm⟩
  rw [DeduplicateMemes_eq]
  apply List.count_eq_one_of_mem (dedupFrom_keys_nodup _ [])
  have := dedupFrom_keys_cover _ [] m hmem
  simpa using this

/-- C14. No deduplication of requests. For a non-empty list of requested identifiers the
provider calls of `SearchSources` are the registered entries of the list, one call per
entry, in the order of the list; every entry yields one result, a success listed in `Sources`
or a failure, so an identifier whose calls all succeed is in `Sources` as many times as it
is named (twice when named twice); and the key of every item of a successful call occurs
exactly once among the keys of `Memes`. -/
theorem requests_not_deduplicated (ps : List Source) (env : Env) (ctx : Context)
    (keyword : String) (opts : SearchOptions) (sourceIDs : List String)
    (hne : sourceIDs ≠ []) :
    ((registryOf ps).SearchSourcesCalls env ctx keyword sourceIDs opts).length =
      (sourceIDs.filter (fun id => ((registryOf ps).Get id).isSome)).length ∧
    ((registryOf ps).SearchSourcesCalls env ctx keyword sourceIDs opts).map
        (fun c => c.sourceID) =
      sourceIDs.filter (fun id => ((registryOf ps).Get id).isSome) ∧
    (∀ id, ((registryOf ps).SearchSources env ctx keyword sourceIDs opts).Sources.count id +
        (mapKeys (failures
          (searchSourcesFanout (registryOf ps) env ctx keyword sourceIDs opts).resultCh)).count
          id = sourceIDs.count id) ∧
    (∀ id,
      (∀ res ∈ (searchSourcesFanout (registryOf ps) env ctx keyword sourceIDs opts).resultCh,
        res.sourceID = id → res.err = none) →
      ((registryOf ps).SearchSources env ctx keyword sourceIDs opts).Sources.count id =
        sourceIDs.count id) ∧
    (∀ res ∈ (searchSourcesFanout (registryOf ps) env ctx keyword sourceIDs opts).resultCh,
      res.err = none → ∀ m ∈ res.memes,
        (((registryOf ps).SearchSources env ctx keyword sourceIDs opts).Memes.map
          (fun m => ExtractURLKey m.URL)).count (ExtractURLKey m.URL) = 1) := by
  have hwf := registryOf_WF ps
  obtain ⟨hperm, hcalls⟩ := searchSourcesFanout_spec (registryOf ps) env ctx keyword
    sourceIDs opts
  have hcallids := launchCalls_lookup_ids (registryOf ps) hwf env ctx keyword opts sourceIDs 0
  have hcount : ∀ id,
      ((searchSourcesFanout (registryOf ps) env ctx keyword sourceIDs opts).resultCh.map
        (fun res => res.sourceID)).count id = sourceIDs.count id := by
    intro id
    have := (hperm.map (fun res => res.sourceID)).count_eq id
    rw [launchResults_lookup_ids _ hwf] at this
    exact this
  have hsplit : ∀ id,
      ((registryOf ps).SearchSources env ctx keyword sourceIDs opts).Sources.count id +
        (mapKeys (failures
          (searchSourcesFanout (registryOf ps) env ctx keyword sourceIDs opts).resultCh)).count
          id = sourceIDs.count id := by
    intro id
    have e := count_ids_split
      (searchSourcesFanout (registryOf ps) env ctx keyword sourceIDs opts).resultCh id
    rw [hcount id] at e
    rw [SearchSources_eq_report _ _ _ _ _ _ hne, report_eq]
    exact e.symm
  refine ⟨?_, ?_, hsplit, ?_, ?_⟩
  · rw [← hcallids, SearchSourcesCalls_eq _ _ _ _ _ _ hne, hcalls, List.length_map]
  · rw [SearchSourcesCalls_eq _ _ _ _ _ _ hne, hcalls, hcallids]
  · intro id hok
    have := hsplit id
    rw [no_failure_count_zero _ id hok] at this
    simpa using this
  · intro res hres herr m hm
    rw [SearchSources_eq_report _ _ _ _ _ _ hne]
    exact report_key_once env _ res hres herr m hm

/-- Witness of C14: `douyin` is named twice, both calls succeed, it is twice in `Sources`. -/
theorem requests_not_deduplicated_witness :
    ((registryOf [douyinSample]).SearchSources sampleEnv ⟨none⟩ "cat" ["douyin", "douyin"]
      DefaultSearchOptions).Sources.count "douyin" = 2 ∧
    ((registryOf [douyinSample]).SearchSourcesCalls sampleEnv ⟨none⟩ "cat"
      ["douyin", "douyin"] DefaultSearchOptions).length = 2 :=
  have h := requests_not_deduplicated [douyinSample] sampleEnv ⟨none⟩ "cat"
    DefaultSearchOptions ["douyin", "douyin"] (by decide)
  ⟨(h.2.2.2.1 "douyin" (by decide)).trans (by decide), h.1.trans rfl⟩

theorem mem_mapKeys_foldl_Register (ps : List Source) (r : Registry) (id : String) :
    id ∈ mapKeys (ps.foldl Registry.Register r).sources ↔
      id ∈ mapKeys r.sources ∨ id ∈ ps.map (fun s => s.ID) := by
  induction ps generalizing r with
  | nil => simp
  | cons s ps ih =>
    rw [List.foldl_cons, ih, Registry.Register, mem_mapKeys_mapSet]
    simp only [List.map_cons, List.mem_cons]
    tauto

theorem List_ID_eq_mapKeys (r : Registry) (h : r.WF) :
    r.List.map (fun s => s.ID) = mapKeys r.sources := by
  simp only [Registry.List, mapKeys, List.map_map]
  apply List.map_congr_left
  intro p hp
  exact h.2 p hp

theorem mapGet_none_of_not_mem {β : Type} (m : List (String × β)) (k : String)
    (h : k ∉ mapKeys m) : mapGet m k = none := by
  cases hg : mapGet m k with
  | none => rfl
  | some v =>
    exact absurd ((mapGet_isSome_iff m k).1 (by rw [hg]; rfl)) h

/-- C15. Registry map semantics. After `Register(p)`, `Get(p.ID())` returns `p` whatever
was registered under that identifier before, and `Get` of every other identifier returns
what it returned before; `Get` of an identifier never registered returns not-found; `List`
holds exactly one provider for every distinct registered identifier, the one `Get` returns
for it. `Get` and `List` are functions of the registry: they return no new state. -/
theorem registry_map_semantics (r : Registry) (p : Source) (ps : List Source) :
    (r.Register p).Get p.ID = some p ∧
    (∀ id, id ≠ p.ID → (r.Register p).Get id = r.Get id) ∧
    (∀ id, NewRegistry.Get id = none) ∧
    (∀ id, id ∉ ps.map (fun s => s.ID) → (registryOf ps).Get id = none) ∧
    ((registryOf ps).List.map (fun s => s.ID)).Nodup ∧
    (∀ id, id ∈ (registryOf ps).List.map (fun s => s.ID) ↔ id ∈ ps.map (fun s => s.ID)) ∧
    ((registryOf ps).List.map (fun s => s.ID)).Perm (ps.map (fun s => s.ID)).dedup ∧
    (∀ s ∈ (registryOf ps).List, (registryOf ps).Get s.ID = some s) := by
  have hwf := registryOf_WF ps
  have hmem : ∀ id, id ∈ (registryOf ps).List.map (fun s => s.ID) ↔
      id ∈ ps.map (fun s => s.ID) := by
    intro id
    rw [List_ID_eq_mapKeys _ hwf, registryOf, mem_mapKeys_foldl_Register]
    simp [NewRegistry, mapKeys]
  refine ⟨?_, ?_, fun _ => rfl, ?_, List_ID_nodup _ hwf, hmem, ?_, ?_⟩
  · simp [Registry.Register, Registry.Get, mapGet_mapSet]
  · intro id hid
    have : ¬ p.ID = id := fun c => hid c.symm
    simp [Registry.Register, Registry.Get, mapGet_mapSet, this]
  · intro id hid
    apply mapGet_none_of_not_mem
    rw [← List_ID_eq_mapKeys _ hwf]
    exact fun c => hid ((hmem id).1 c)
  · rw [List.perm_ext_iff_of_nodup (List_ID_nodup _ hwf) (List.nodup_dedup _)]
    intro id
    rw [hmem id, List.mem_dedup]
  · intro s hs
    obtain ⟨q, hq, hqs⟩ := List.mem_map.1 hs
    have hk : q.1 = s.ID := by rw [← hwf.2 q hq, hqs]
    rw [Registry.Get, mapGet_eq_some_iff _ hwf.1, ← hk, ← hqs]
    exact hq

/-! ## Claims on the providers and the handler -/

/-- C16. Per-provider result cap. The cap that ends the `Search` of qudoutu, doutula, pdan,
sougou and douyin returns the first `n` parsed items when the limit `n` is positive and
there are more than `n` items, and the items unchanged otherwise; so it returns a prefix of
the parsed items, of at most `n` items when `n` is positive. The aggregator applies no cap:
`Memes` is the deduplicated concatenation whatever the limit, and a provider returning two
items under a limit of one gives a report with two items. -/
theorem provider_cap (L : List Meme) (opts : SearchOptions) (r : Registry) (env : Env)
    (ctx : Context) (keyword : String) :
    (0 < opts.Limit ∧ opts.Limit < L.length → capLimit L opts = L.take opts.Limit.toNat) ∧
    (opts.Limit ≤ 0 ∨ (L.length : Int) ≤ opts.Limit → capLimit L opts = L) ∧
    capLimit L opts <+: L ∧
    (0 < opts.Limit → ((capLimit L opts).length : Int) ≤ opts.Limit) ∧
    (r.SearchAll env ctx keyword opts).Memes =
      DeduplicateMemes ((succeeded (searchAllFanout r env ctx keyword opts).resultCh).flatMap
        (fun res => res.memes)) ∧
    ((registryOf [pairSample]).SearchAll sampleEnv ⟨none⟩ "cat" ⟨1, 1, 0⟩).Total = 2 := by
  refine ⟨?_, ?_, ?_, ?_, ?_, by decide⟩
  · intro h
    have h1 : opts.Limit > 0 := h.1
    have h2 : (L.length : Int) > opts.Limit := h.2
    simp [capLimit, h1, h2]
  · intro h
    unfold capLimit
    split
    · rename_i hc
      simp only [Bool.and_eq_true, decide_eq_true_eq] at hc
      omega
    · rfl
  · unfold capLimit
    split
    · exact List.take_prefix _ _
    · exact List.prefix_refl _
  · intro hpos
    unfold capLimit
    split
    · rw [List.length_take]
      omega
    · rename_i hc
      simp only [Bool.and_eq_true, decide_eq_true_eq, not_and, not_lt] at hc
      have := hc hpos
      omega
  · rw [SearchAll_eq_report, report_eq]

/-- C17. Option defaults of `search_meme`. For arguments with a non-empty keyword the
options passed to the registry have the page of the arguments when it is positive and 1
otherwise, the limit of the arguments when it is positive and 20 otherwise, and a timeout of
ten seconds; the handler calls `SearchSources` exactly when the list of sources is not
empty and `SearchAll` otherwise, and every provider call carries these options. -/
theorem handler_options (r : Registry) (env : Env) (ctx : Context) (args : SearchMemeArgs)
    (hk : args.Keyword ≠ "") :
    (handlerOptions args).Page = (if args.Page > 0 then args.Page else 1) ∧
    (handlerOptions args).Limit = (if args.Limit > 0 then args.Limit else 20) ∧
    (handlerOptions args).Timeout = 10 * Second ∧
    (args.Sources ≠ [] →
      HandleSearchMeme r env ctx (Except.ok args) =
        CallToolResult.text
          (r.SearchSources env ctx args.Keyword args.Sources (handlerOptions args)) ∧
      HandleSearchMemeCalls r env ctx (Except.ok args) =
        r.SearchSourcesCalls env ctx args.Keyword args.Sources (handlerOptions args)) ∧
    (args.Sources = [] →
      HandleSearchMeme r env ctx (Except.ok args) =
        CallToolResult.text (r.SearchAll env ctx args.Keyword (handlerOptions args)) ∧
      HandleSearchMemeCalls r env ctx (Except.ok args) =
        r.SearchAllCalls env ctx args.Keyword (handlerOptions args)) ∧
    (∀ c ∈ HandleSearchMemeCalls r env ctx (Except.ok args),
      c.opts = handlerOptions args ∧ c.keyword = args.Keyword) := by
  have hsrc : args.Sources ≠ [] →
      HandleSearchMeme r env ctx (Except.ok args) =
        CallToolResult.text
          (r.SearchSources env ctx args.Keyword args.Sources (handlerOptions args)) ∧
      HandleSearchMemeCalls r env ctx (Except.ok args) =
        r.SearchSourcesCalls env ctx args.Keyword args.Sources (handlerOptions args) := by
    intro hs
    have : args.Sources.length > 0 := List.length_pos.2 hs
    simp [HandleSearchMeme, HandleSearchMemeCalls, hk, this]
  have hall : args.Sources = [] →
      HandleSearchMeme r env ctx (Except.ok args) =
        CallToolResult.text (r.SearchAll env ctx args.Keyword (handlerOptions args)) ∧
      HandleSearchMemeCalls r env ctx (Except.ok args) =
        r.SearchAllCalls env ctx args.Keyword (handlerOptions args) := by
    intro hs
    simp [HandleSearchMeme, HandleSearchMemeCalls, hk, hs]
  refine ⟨?_, ?_, ?_, hsrc, hall, ?_⟩
  · unfold handlerOptions
    by_cases hp : args.Page > 0 <;> by_cases hl : args.Limit > 0 <;>
      simp [hp, hl, DefaultSearchOptions]
  · unfold handlerOptions
    by_cases hp : args.Page > 0 <;> by_cases hl : args.Limit > 0 <;>
      simp [hp, hl, DefaultSearchOptions]
  · unfold handlerOptions
    by_cases hp : args.Page > 0 <;> by_cases hl : args.Limit > 0 <;>
      simp [hp, hl, DefaultSearchOptions]
  · intro c hc
    by_cases hs : args.Sources = []
    · rw [(hall hs).2] at hc
      have := SearchAllCalls_args r env ctx args.Keyword (handlerOptions args) c hc
      exact ⟨this.2.2, this.2.1⟩
    · rw [(hsrc hs).2] at hc
      have := SearchSourcesCalls_args r env ctx args.Keyword args.Sources
        (handlerOptions args) c hc
      exact ⟨this.2.2, this.2.1⟩

/-- Witness of C17: no page, a limit of five, no sources. -/
theorem handler_options_witness :
    (handlerOptions ⟨"cat", [], 0, 5⟩).Page = 1 ∧
    (handlerOptions ⟨"cat", [], 0, 5⟩).Limit = 5 ∧
    (handlerOptions ⟨"cat", [], 0, 5⟩).Timeout = 10000000000 ∧
    HandleSearchMeme (registryOf [douyinSample]) sampleEnv ⟨none⟩
        (Except.ok ⟨"cat", [], 0, 5⟩) =
      CallToolResult.text ((registryOf [douyinSample]).SearchAll sampleEnv ⟨none⟩ "cat"
        (handlerOptions ⟨"cat", [], 0, 5⟩)) :=
  have h := handler_options (registryOf [douyinSample]) sampleEnv ⟨none⟩
    ⟨"cat", [], 0, 5⟩ (by decide)
  ⟨h.1.trans (by decide), h.2.1.trans (by decide), h.2.2.1.trans (by decide),
    (h.2.2.2.2.1 rfl).1⟩

/-! ## Claims on calls that outlive their deadline -/

/-- C18, as the code has it. The aggregator does not enforce the deadline itself: it hands
each call its context and classifies the call only by the error it returns. Let `late` be
any property of a call (of the provider, the network behaviour and the context of the call,
for instance that the deadline of the context has passed) such that a registered provider
returns an error whenever its call is late. Then, whatever the other providers do, every
registered provider whose call is late is a key of `Errors` in the report of `SearchAll`
and is not in `Sources`, and every identifier requested from `SearchSources` whose
provider is late in whichever call it gets is a key of `Errors` and is not in `Sources`.
The report is built when every launched call has returned: the channel holds the answer of
every registered provider, `Sources` are the identifiers of the answers without error and
the keys of `Errors` those of the answers with an error. -/
theorem late_call_classification (ps : List Source) (env : Env) (ctx : Context)
    (keyword : String) (opts : SearchOptions) (late : Source → Net → Context → Bool)
    (hcoop : ∀ s ∈ ps, ∀ n c k o, late s n c = true → (s.Search n c k o).err ≠ none) :
    (∀ p ∈ (registryOf ps).List.enum,
      late p.2 (env.net p.1) (WithTimeout ctx (timeout opts)) = true →
      p.2.ID ∈ mapKeys ((registryOf ps).SearchAll env ctx keyword opts).Errors ∧
      p.2.ID ∉ ((registryOf ps).SearchAll env ctx keyword opts).Sources) ∧
    (∀ sourceIDs : List String, sourceIDs ≠ [] → ∀ id ∈ sourceIDs,
      (∀ s, (registryOf ps).Get id = some s →
        ∀ k, late s (env.net k) (WithTimeout ctx (timeout opts)) = true) →
      id ∈ mapKeys ((registryOf ps).SearchSources env ctx keyword sourceIDs opts).Errors ∧
      id ∉ ((registryOf ps).SearchSources env ctx keyword sourceIDs opts).Sources) ∧
    (searchAllFanout (registryOf ps) env ctx keyword opts).resultCh.Perm
      ((registryOf ps).List.enum.map (fun p =>
        answerOf p.2 (env.net p.1) (WithTimeout ctx (timeout opts)) keyword opts)) ∧
    (∀ sourceIDs : List String,
      (searchSourcesFanout (registryOf ps) env ctx keyword sourceIDs opts).resultCh.Perm
        (referenceResults (registryOf ps) env (WithTimeout ctx (timeout opts)) keyword opts
          sourceIDs 0)) ∧
    (∀ id, id ∈ ((registryOf ps).SearchAll env ctx keyword opts).Sources ↔
      ∃ res ∈ (searchAllFanout (registryOf ps) env ctx keyword opts).resultCh,
        res.sourceID = id ∧ res.err = none) ∧
    (∀ id, id ∈ mapKeys ((registryOf ps).SearchAll env ctx keyword opts).Errors ↔
      ∃ res ∈ (searchAllFanout (registryOf ps) env ctx keyword opts).resultCh,
        res.sourceID = id ∧ res.err ≠ none) := by
  have hwf := registryOf_WF ps
  have hans := searchAll_resultCh_answers (registryOf ps) env ctx keyword opts
  refine ⟨?_, ?_, hans,
    fun sourceIDs => searchSources_resultCh_reference _ env ctx keyword sourceIDs opts, ?_, ?_⟩
  · intro p hp hlate
    have hs : p.2 ∈ (registryOf ps).List := by
      have := List.mem_enumFrom hp
      rw [this.2.2]
      exact List.getElem_mem _
    have hin : answerOf p.2 (env.net p.1) (WithTimeout ctx (timeout opts)) keyword opts ∈
        (searchAllFanout (registryOf ps) env ctx keyword opts).resultCh :=
      hans.symm.subset (List.mem_map.2 ⟨p, hp, rfl⟩)
    have herr : (answerOf p.2 (env.net p.1) (WithTimeout ctx (timeout opts)) keyword
        opts).err ≠ none :=
      hcoop p.2 (mem_registryOf_List ps p.2 hs) _ _ _ _ hlate
    rw [SearchAll_eq_report, report_eq]
    simp only
    constructor
    · exact (mem_errors_iff _ _).2 ⟨_, hin, rfl, herr⟩
    · intro hsrc
      obtain ⟨res, hres, hid, hnone⟩ := (mem_sources_iff _ _).1 hsrc
      have heq : res = answerOf p.2 (env.net p.1) (WithTimeout ctx (timeout opts)) keyword
          opts :=
        List.inj_on_of_nodup_map (resultCh_ids_nodup _ hwf env ctx keyword opts) hres hin hid
      rw [heq] at hnone
      exact herr hnone
  · intro sourceIDs hne id hid hlate
    obtain ⟨hperm, _⟩ := searchSourcesFanout_spec (registryOf ps) env ctx keyword
      sourceIDs opts
    have hfail : ∀ res ∈ (searchSourcesFanout (registryOf ps) env ctx keyword sourceIDs
        opts).resultCh, res.sourceID = id → res.err ≠ none := by
      intro res hres hrid
      rcases launchResults_lookup_mem (registryOf ps) hwf env ctx keyword opts sourceIDs 0
        res (hperm.subset hres) with ⟨_, h2⟩ | ⟨s, k', h1, h2⟩
      · rw [h2]; simp
      · rw [hrid] at h1
        rw [h2]
        exact hcoop s (mem_registryOf_List ps s (Get_mem_List _ _ s h1)) _ _ _ _
          (hlate s h1 k')
    have hids := hperm.map (fun res => res.sourceID)
    rw [launchResults_lookup_ids _ hwf] at hids
    obtain ⟨res, hres, hrid⟩ := List.mem_map.1 (hids.symm.subset hid)
    rw [SearchSources_eq_report _ _ _ _ _ _ hne, report_eq]
    simp only
    constructor
    · exact (mem_errors_iff _ _).2 ⟨res, hres, hrid, hfail res hres hrid⟩
    · intro hsrc
      obtain ⟨res', hres', hrid', hnone⟩ := (mem_sources_iff _ _).1 hsrc
      exact hfail res' hres' hrid' hnone
  · intro id
    rw [SearchAll_eq_report, report_eq]
    exact mem_sources_iff _ _
  · intro id
    rw [SearchAll_eq_report, report_eq]
    exact mem_errors_iff _ _

/-- Witness of the amended C18: the provider `polite` returns an error when the deadline of
its context has passed, the provider `echo` never does. Called under a context whose
deadline has passed, `polite` is a key of `Errors` and not in `Sources`, in the report of
`SearchAll` and in the report of `SearchSources`, while `echo` is reported as a success. -/
theorem late_call_classification_witness :
    (expired (WithTimeout ⟨some 0⟩ (timeout DefaultSearchOptions)) = true ∧
      "polite" ∈ mapKeys ((registryOf [echoSample, politeSample]).SearchAll sampleEnv ⟨some 0⟩
        "cat" DefaultSearchOptions).Errors ∧
      "polite" ∉ ((registryOf [echoSample, politeSample]).SearchAll sampleEnv ⟨some 0⟩ "cat"
        DefaultSearchOptions).Sources) ∧
    ("polite" ∈ mapKeys ((registryOf [echoSample, politeSample]).SearchSources sampleEnv
        ⟨some 0⟩ "cat" ["echo", "polite", "nosuch"] DefaultSearchOptions).Errors ∧
      "polite" ∉ ((registryOf [echoSample, politeSample]).SearchSources sampleEnv ⟨some 0⟩
        "cat" ["echo", "polite", "nosuch"] DefaultSearchOptions).Sources) ∧
    ((registryOf [echoSample, politeSample]).SearchAll sampleEnv ⟨some 0⟩ "cat"
      DefaultSearchOptions).Sources = ["echo"] ∧
    ((registryOf [echoSample, politeSample]).SearchAll sampleEnv ⟨none⟩ "cat"
      DefaultSearchOptions).Sources = ["echo", "polite"] := by
  have hcoop : ∀ s ∈ [echoSample, politeSample], ∀ (n : Net) (c : Context) (k : String)
      (o : SearchOptions),
      (fun (s : Source) (_ : Net) (c : Context) => decide (s.ID = "polite") && expired c)
        s n c = true →
      (s.Search n c k o).err ≠ none := by
    intro s hs n c k o hl
    rcases List.mem_cons.1 hs with h | h
    · rw [h] at hl
      have hid : decide (echoSample.ID = "polite") = false := by decide
      simp only [hid, Bool.false_and] at hl
      cases hl
    · rw [List.mem_singleton.1 h] at hl ⊢
      have hl2 : expired c = true := by
        simpa [politeSample] using hl
      simp [politeSample, hl2]
  have hget : ∀ s, (registryOf [echoSample, politeSample]).Get "polite" = some s →
      s.ID = "polite" := fun s hs => Get_ID _ (registryOf_WF _) "polite" s hs
  have h := late_call_classification [echoSample, politeSample] sampleEnv ⟨some 0⟩ "cat"
    DefaultSearchOptions (fun s _ c => decide (s.ID = "polite") && expired c) hcoop
  refine ⟨⟨by decide, h.1 (1, politeSample) ?_ (by decide)⟩,
    h.2.1 ["echo", "polite", "nosuch"] (by decide) "polite" (by decide) ?_,
    by decide, by decide⟩
  · rw [registryOf_pair echoSample politeSample (by decide)]
    exact List.mem_cons_of_mem _ (List.mem_singleton.2 rfl)
  · intro s hs k
    have e : s.ID = "polite" := hget s hs
    simp only [e, decide_True, Bool.true_and]
    rfl

/-- C18 as stated fails. The provider `echo` never looks at its context; called by
`SearchAll` and by `SearchSources` with a timeout of one nanosecond under a context whose
deadline has already passed, its call outlives the deadline it was given (it reports the
deadline 0 it received), and still it is in `Sources` and `Errors` is empty: the aggregator
waits for the result and takes it as a success. -/
theorem late_call_counterexample :
    expired (WithTimeout ⟨some 0⟩ (timeout ⟨1, 20, 1⟩)) = true ∧
    ((registryOf [echoSample]).SearchAll sampleEnv ⟨some 0⟩ "cat" ⟨1, 20, 1⟩).Memes.map
      (fun m => m.Width) = [0] ∧
    ((registryOf [echoSample]).SearchAll sampleEnv ⟨some 0⟩ "cat" ⟨1, 20, 1⟩).Sources =
      ["echo"] ∧
    ((registryOf [echoSample]).SearchAll sampleEnv ⟨some 0⟩ "cat" ⟨1, 20, 1⟩).Errors = [] ∧
    ((registryOf [echoSample]).SearchSources sampleEnv ⟨some 0⟩ "cat" ["echo"]
      ⟨1, 20, 1⟩).Sources = ["echo"] ∧
    ((registryOf [echoSample]).SearchSources sampleEnv ⟨some 0⟩ "cat" ["echo"]
      ⟨1, 20, 1⟩).Errors = [] ∧
    ((registryOf [echoSample, politeSample]).SearchAll sampleEnv ⟨some 0⟩ "cat"
      ⟨1, 20, 1⟩).Sources = ["echo"] ∧
    mapKeys ((registryOf [echoSample, politeSample]).SearchAll sampleEnv ⟨some 0⟩ "cat"
      ⟨1, 20, 1⟩).Errors = ["polite"] := by
  decide

/-! ## Claims on the URL helpers -/

theorem replaceFirst_cons_hit (old new : List Char) (c : Char) (s : List Char)
    (h : old <+: c :: s) :
    replaceFirst old new (c :: s) = new ++ (c :: s).drop old.length := by
  simp only [replaceFirst, h, if_true]

theorem replaceFirst_cons_miss (old new : List Char) (c : Char) (s : List Char)
    (h : ¬ old <+: c :: s) :
    replaceFirst old new (c :: s) = c :: replaceFirst old new s := by
  simp only [replaceFirst, h, if_false]

theorem replaceFirst_keeps (t s : List Char) (ht : 'h' ∉ t)
    (h : t <+: replaceFirst "http://".data "https://".data s) : t <+: s := by
  induction t generalizing s with
  | nil => exact List.nil_prefix
  | cons y t ih =>
    have hy : y ≠ 'h' := fun c => ht (by rw [c]; exact List.mem_cons_self _ _)
    cases s with
    | nil =>
      simp only [replaceFirst] at h
      exact absurd (List.eq_nil_of_prefix_nil h) (List.cons_ne_nil _ _)
    | cons c s =>
      by_cases hp : "http://".data <+: c :: s
      · rw [replaceFirst_cons_hit _ _ _ _ hp] at h
        have : "https://".data = 'h' :: "ttps://".data := rfl
        rw [this, List.cons_append, List.cons_prefix_cons] at h
        exact absurd h.1 hy
      · rw [replaceFirst_cons_miss _ _ _ _ hp, List.cons_prefix_cons] at h
        rw [List.cons_prefix_cons]
        exact ⟨h.1, ih s (fun c' => ht (List.mem_cons_of_mem _ c')) h.2⟩

theorem https_not_http (rest : List Char) :
    ¬ "http://".data <+: "https://".data ++ rest := by
  intro h
  have h1 : "http://".data = 'h' :: 't' :: 't' :: 'p' :: ':' :: "//".data := rfl
  have h2 : "https://".data = 'h' :: 't' :: 't' :: 'p' :: 's' :: "://".data := rfl
  rw [h1, h2] at h
  simp only [List.cons_append, List.cons_prefix_cons] at h
  exact absurd h.2.2.2.2.1 (by decide)

theorem replaceFirst_no_prefix (s : List Char) :
    ¬ "http://".data <+: replaceFirst "http://".data "https://".data s := by
  intro h
  cases s with
  | nil =>
    simp only [replaceFirst] at h
    have : ("http://".data = []) = False := by decide
    simp only [this, if_false] at h
    exact absurd (List.eq_nil_of_prefix_nil h) (by decide)
  | cons c s =>
    by_cases hp : "http://".data <+: c :: s
    · rw [replaceFirst_cons_hit _ _ _ _ hp] at h
      exact https_not_http _ h
    · rw [replaceFirst_cons_miss _ _ _ _ hp] at h
      apply hp
      have ho : "http://".data = 'h' :: "ttp://".data := rfl
      rw [ho, List.cons_prefix_cons] at h ⊢
      exact ⟨h.1, replaceFirst_keeps _ s (by decide) h.2⟩

theorem replaceFirst_dropWhile_no_prefix (s : List Char) :
    ¬ "http://".data <+:
      (replaceFirst "http://".data "https://".data s).dropWhile isSpace := by
  induction s with
  | nil =>
    simp only [replaceFirst]
    have : ("http://".data = []) = False := by decide
    simp only [this, if_false, List.dropWhile_nil]
    intro h
    exact absurd (List.eq_nil_of_prefix_nil h) (by decide)
  | cons c s ih =>
    by_cases hsp : isSpace c = true
    · have hp : ¬ "http://".data <+: c :: s := by
        intro hp
        have ho : "http://".data = 'h' :: "ttp://".data := rfl
        rw [ho, List.cons_prefix_cons] at hp
        rw [← hp.1] at hsp
        exact absurd hsp (by decide)
      rw [replaceFirst_cons_miss _ _ _ _ hp, List.dropWhile_cons_of_pos hsp]
      exact ih
    · by_cases hp : "http://".data <+: c :: s
      · rw [replaceFirst_cons_hit _ _ _ _ hp]
        have hn : "https://".data = 'h' :: "ttps://".data := rfl
        have hh : ¬ isSpace 'h' = true := by decide
        rw [hn, List.cons_append, List.dropWhile_cons_of_neg hh, ← List.cons_append, ← hn]
        exact https_not_http _
      · have := replaceFirst_no_prefix (c :: s)
        rw [replaceFirst_cons_miss _ _ _ _ hp] at this ⊢
        rw [List.dropWhile_cons_of_neg hsp]
        exact this

theorem replaceFirst_first (old new : List Char) (hold : old ≠ []) (p q : List Char)
    (hmin : ∀ p' q', p ++ old ++ q = p' ++ old ++ q' → p.length ≤ p'.length) :
    replaceFirst old new (p ++ old ++ q) = p ++ new ++ q := by
  induction p with
  | nil =>
    obtain ⟨c, t, hct⟩ := List.exists_cons_of_ne_nil hold
    have hp : old <+: old ++ q := List.prefix_append _ _
    have hs : [] ++ old ++ q = c :: (t ++ q) := by rw [hct]; rfl
    rw [hs, replaceFirst_cons_hit _ _ _ _ (by rw [← hs]; exact hp), ← hs]
    simp
  | cons c p ih =>
    have hp : ¬ old <+: c :: (p ++ old ++ q) := by
      rintro ⟨q', hq'⟩
      have := hmin [] q' (by simp [hq'])
      simp at this
    rw [List.cons_append, List.cons_append, replaceFirst_cons_miss _ _ _ _ hp, ih]
    · simp
    · intro p' q' he
      have := hmin (c :: p') q' (by simp [he])
      simpa using this

theorem replaceFirst_absent (old new : List Char) (s : List Char) (h : ¬ old <:+: s) :
    replaceFirst old new s = s := by
  induction s with
  | nil =>
    have : old ≠ [] := fun c => h ⟨[], [], by simp [c]⟩
    simp [replaceFirst, this]
  | cons c s ih =>
    have hp : ¬ old <+: c :: s := fun hp => h hp.isInfix
    rw [replaceFirst_cons_miss _ _ _ _ hp,
      ih (fun hi => h (hi.trans (List.suffix_cons c s).isInfix))]

theorem NormalizeURL_cases (url : String) :
    NormalizeURL url = TrimSpace (ReplaceOnce url "http://" "https://") ∧
    (∀ p q, url.data = p ++ "http://".data ++ q →
      (∀ p' q', p ++ "http://".data ++ q = p' ++ "http://".data ++ q' →
        p.length ≤ p'.length) →
      (ReplaceOnce url "http://" "https://").data = p ++ "https://".data ++ q) ∧
    (¬ "http://".data <:+: url.data → ReplaceOnce url "http://" "https://" = url) ∧
    HasPrefix (NormalizeURL url) "http://" = false ∧
    (∀ c, (NormalizeURL url).data.head? = some c → isSpace c = false) ∧
    (∀ c, (NormalizeURL url).data.getLast? = some c → isSpace c = false) := by
  refine ⟨rfl, ?_, ?_, ?_, ?_, ?_⟩
  · intro p q hpq hmin
    simp only [ReplaceOnce, hpq]
    exact replaceFirst_first _ _ (by decide) p q hmin
  · intro h
    simp only [ReplaceOnce, replaceFirst_absent _ _ _ h]
  · simp only [HasPrefix, decide_eq_false_iff_not, NormalizeURL, TrimSpace, ReplaceOnce]
    intro h
    exact replaceFirst_dropWhile_no_prefix url.data (h.trans (List.rdropWhile_prefix isSpace _))
  · intro c hc
    simp only [NormalizeURL, TrimSpace, ReplaceOnce] at hc
    generalize hR : replaceFirst "http://".data "https://".data url.data = R at hc
    have hpre : (R.dropWhile isSpace).rdropWhile isSpace <+: R.dropWhile isSpace :=
      List.rdropWhile_prefix isSpace _
    cases hT : (R.dropWhile isSpace).rdropWhile isSpace with
    | nil => rw [hT] at hc; cases hc
    | cons a T =>
      rw [hT] at hc hpre
      simp only [List.head?_cons, Option.some.injEq] at hc
      subst hc
      obtain ⟨u, hu⟩ := hpre
      have hne : R.dropWhile isSpace ≠ [] := by rw [← hu]; exact List.cons_ne_nil _ _
      have := List.head_dropWhile_not isSpace R hne
      simp only [← hu, List.cons_append, List.head_cons] at this
      exact this
  · intro c hc
    simp only [NormalizeURL, TrimSpace, ReplaceOnce] at hc
    generalize hR : replaceFirst "http://".data "https://".data url.data = R at hc
    by_cases hne : (R.dropWhile isSpace).rdropWhile isSpace = []
    · rw [hne] at hc; cases hc
    · have := List.rdropWhile_last_not isSpace (R.dropWhile isSpace) hne
      rw [List.getLast?_eq_getLast _ hne] at hc
      rw [← Option.some.inj hc]
      simpa using this

theorem rdropWhile_append_rtakeWhile (p : Char → Bool) (l : List Char) :
    l.rdropWhile p ++ l.rtakeWhile p = l := by
  have h := List.takeWhile_append_dropWhile p l.reverse
  have h2 := congrArg List.reverse h
  rw [List.reverse_append, List.reverse_reverse] at h2
  exact h2

theorem TrimSpace_frame (s : String) :
    ∃ a b, s.data = a ++ (TrimSpace s).data ++ b ∧
      (∀ c ∈ a, isSpace c = true) ∧ (∀ c ∈ b, isSpace c = true) := by
  refine ⟨s.data.takeWhile isSpace, (s.data.dropWhile isSpace).rtakeWhile isSpace, ?_,
    fun c hc => List.mem_takeWhile_imp hc, fun c hc => List.mem_rtakeWhile_imp hc⟩
  simp only [TrimSpace, List.append_assoc, rdropWhile_append_rtakeWhile,
    List.takeWhile_append_dropWhile]

theorem isSpace_iff (c : Char) :
    isSpace c = true ↔
      c.toNat ∈ [0x09, 0x0A, 0x0B, 0x0C, 0x0D, 0x20, 0x85, 0xA0, 0x1680, 0x2000, 0x2001,
        0x2002, 0x2003, 0x2004, 0x2005, 0x2006, 0x2007, 0x2008, 0x2009, 0x200A, 0x2028,
        0x2029, 0x202F, 0x205F, 0x3000] := by
  simp only [isSpace, Bool.or_eq_true, Bool.and_eq_true, decide_eq_true_eq, List.mem_cons,
    List.mem_singleton, List.not_mem_nil, or_false]
  omega

/-- C19. `NormalizeURL` is the input with its first `http://` replaced by `https://` and
then trimmed: the replaced text is the result framed by white space only, the result
neither begins nor ends with a white-space character (a character of `unicode.IsSpace`) and
never begins with `http://`. Examples: a replaced scheme with later occurrences kept, an
input without `http://`, and an upper-case scheme, which is left as it is. -/
theorem NormalizeURL_spec (url : String) :
    NormalizeURL url = TrimSpace (ReplaceOnce url "http://" "https://") ∧
    (∀ p q, url.data = p ++ "http://".data ++ q →
      (∀ p' q', p ++ "http://".data ++ q = p' ++ "http://".data ++ q' →
        p.length ≤ p'.length) →
      (ReplaceOnce url "http://" "https://").data = p ++ "https://".data ++ q) ∧
    (¬ "http://".data <:+: url.data → ReplaceOnce url "http://" "https://" = url) ∧
    (∃ a b, (ReplaceOnce url "http://" "https://").data = a ++ (NormalizeURL url).data ++ b ∧
      (∀ c ∈ a, isSpace c = true) ∧ (∀ c ∈ b, isSpace c = true)) ∧
    HasPrefix (NormalizeURL url) "http://" = false ∧
    (∀ c, (NormalizeURL url).data.head? = some c → isSpace c = false) ∧
    (∀ c, (NormalizeURL url).data.getLast? = some c → isSpace c = false) ∧
    (∀ c, isSpace c = true ↔
      c.toNat ∈ [0x09, 0x0A, 0x0B, 0x0C, 0x0D, 0x20, 0x85, 0xA0, 0x1680, 0x2000, 0x2001,
        0x2002, 0x2003, 0x2004, 0x2005, 0x2006, 0x2007, 0x2008, 0x2009, 0x200A, 0x2028,
        0x2029, 0x202F, 0x205F, 0x3000]) ∧
    NormalizeURL "  http://a.b/http://c.gif \n" = "https://a.b/http://c.gif" ∧
    NormalizeURL "\t //cdn.x/a b.png\r\n" = "//cdn.x/a b.png" ∧
    NormalizeURL " \n " = "" ∧
    NormalizeURL "HTTP://a.com/x.png" = "HTTP://a.com/x.png" := by
  obtain ⟨h1, h2, h3, h4, h5, h6⟩ := NormalizeURL_cases url
  exact ⟨h1, h2, h3, TrimSpace_frame _, h4, h5, h6, isSpace_iff, by decide, by decide,
    by decide, by decide⟩

theorem HasPrefix_ne_empty (url pre : String) (hpre : pre ≠ "")
    (h : HasPrefix url pre = true) : url ≠ "" := by
  intro c
  rw [c] at h
  simp only [HasPrefix, decide_eq_true_eq] at h
  exact hpre (String.ext (List.eq_nil_of_prefix_nil h))

theorem IsValidImageURL_of_extension (url ext : String) (hne : url ≠ "")
    (hp : HasPrefix url "http://" = true ∨ HasPrefix url "https://" = true)
    (hext : ext ∈ validExtensions) (hc : Contains (ToLower url) ext = true) :
    IsValidImageURL url = true := by
  have hany : validExtensions.any (fun e => Contains (ToLower url) e) = true :=
    List.any_eq_true.2 ⟨ext, hext, hc⟩
  have hpre : (!HasPrefix url "http://" && !HasPrefix url "https://") = false := by
    rcases hp with h | h <;> simp [h]
  simp only [IsValidImageURL, hne, if_false, hpre, Bool.false_eq_true, hany, if_true]

set_option maxRecDepth 100000 in
/-- C20 on the code. `DetectImageFormat` recognises `.awebp` as `webp`, the extension list
of `IsValidImageURL` has no `.awebp`: the URL `https://cdn.example.com/a.awebp` has the
format `webp` and is not a valid image URL. Apart from `.awebp` the two agree: an HTTP(S)
URL with a detected format is valid or contains `.awebp`. -/
theorem format_validation_gap :
    HasPrefix "https://cdn.example.com/a.awebp" "https://" = true ∧
    DetectImageFormat "https://cdn.example.com/a.awebp" = "webp" ∧
    IsValidImageURL "https://cdn.example.com/a.awebp" = false ∧
    (∀ url, HasPrefix url "http://" = true ∨ HasPrefix url "https://" = true →
      DetectImageFormat url ≠ "" →
      IsValidImageURL url = true ∨ Contains (ToLower url) ".awebp" = true) := by
  refine ⟨by decide, by decide, by decide, ?_⟩
  intro url hp hd
  have hne : url ≠ "" := by
    rcases hp with h | h
    · exact HasPrefix_ne_empty url _ (by decide) h
    · exact HasPrefix_ne_empty url _ (by decide) h
  by_cases h1 : Contains (ToLower url) ".gif" = true
  · exact Or.inl (IsValidImageURL_of_extension url ".gif" hne hp (by decide) h1)
  by_cases h2 : Contains (ToLower url) ".png" = true
  · exact Or.inl (IsValidImageURL_of_extension url ".png" hne hp (by decide) h2)
  by_cases h3 : Contains (ToLower url) ".webp" = true
  · exact Or.inl (IsValidImageURL_of_extension url ".webp" hne hp (by decide) h3)
  by_cases h4 : Contains (ToLower url) ".awebp" = true
  · exact Or.inr h4
  by_cases h5 : Contains (ToLower url) ".jpg" = true
  · exact Or.inl (IsValidImageURL_of_extension url ".jpg" hne hp (by decide) h5)
  by_cases h6 : Contains (ToLower url) ".jpeg" = true
  · exact Or.inl (IsValidImageURL_of_extension url ".jpeg" hne hp (by decide) h6)
  exfalso
  apply hd
  simp [DetectImageFormat, h1, h2, h3, h4, h5, h6]

end Core
